import Mathlib

/-!
# Cosine-similarity nearest neighbours (`Programming Assignment/Main.cpp`)

A shallow embedding of `computeSimilarity`, `find10NearestNeighbors`, `print`, `quickSort`,
`readFile` and the loop of `main`.

* C++ `double` is modelled by `Double`: IEEE-754 binary64 with round-to-nearest-even, one NaN,
  signed infinities and signed zeros.  A finite value `fin neg m e` denotes `(-1)^neg * m * 2^e`.
  Every operation is rounded once to binary64 (no extended precision, no fused multiply-add).
* `vector<double>` is a `List`, read with `getD`; all statements are about vectors of the lengths
  the program fixes (5632 elements, 138 rows), for which every read is in bounds.
* `multimap<double, int>` is the list of its entries in iteration order, with an iterator that
  is a position or invalidated.  What the language leaves undefined has no result (`none`): an
  insertion when `<` is not a strict weak ordering on the keys, an unchecked access out of
  range, and any use of an iterator after `erase` has invalidated it.
* The arithmetic is passed as a record `Arith`; the program runs with `ieee`.  Numerical
  statements are about the binary64 results, through the rational value `Double.toRat` of a
  finite double.
* `std::string` is the list of its bytes with the lexicographic order; `vector<string>` is a
  `List`, and `quickSort` works on it through index reads and writes that are logged, so that
  statements about the indices it touches can be made.  The recursion is bounded by a depth
  that is proved to suffice.
* `readFile` takes the directory entries in `readdir` order and, for each path, whether the
  file opens and what the parsing loops build from it; `.at()` out of range and an unchecked
  access out of range end the run (`none`).
-/

set_option exponentiation.threshold 5000

namespace CSCE350

/-! ## Global constants -/

@[irreducible] def NUMBER_OF_ELEMENTS_PER_VECTOR : Nat := 5632
@[irreducible] def NUMBER_OF_VECTORS_PER_TEMPLATE : Nat := 138
def NUMBER_OF_TEMPLATES : Nat := 47
def NUMBER_OF_QUERIES : Nat := 141
def FIRST_QUERY_NAME : String := "_AU01_query"
def SECOND_QUERY_NAME : String := "_AU12_query"
def THIRD_QUERY_NAME : String := "_AU17_query"
def TEMPLATE_NAME : String := "template"

/-! ## IEEE-754 binary64 -/

/-- A binary64 value.  `fin neg m e` is `(-1)^neg * m * 2^e`; the values produced by the
operations below are canonical: `m < 2^53`, `-1074 ≤ e ≤ 971`, and `2^52 ≤ m` unless
`e = -1074` (subnormals and the two zeros `fin _ 0 (-1074)`). -/
inductive Double where
  | nan : Double
  | inf (neg : Bool) : Double
  | fin (neg : Bool) (m : Nat) (e : Int) : Double
  deriving DecidableEq, Repr

/-- Number of binary digits of `n`, by repeated halving (`f` bounds the number of steps). -/
def bitLenAux : Nat → Nat → Nat
  | 0, _ => 0
  | f + 1, n => if n = 0 then 0 else bitLenAux f (n / 2) + 1

/-- Number of binary digits of `n` (`0` for `0`). -/
def bitLen (n : Nat) : Nat := bitLenAux n n

/-- Newton iteration for the integer square root, started above the root
(`f` bounds the number of steps). -/
def isqrtAux : Nat → Nat → Nat → Nat
  | 0, _, guess => guess
  | f + 1, n, guess =>
    let next := (guess + n / guess) / 2
    if next < guess then isqrtAux f n next else guess

/-- Integer square root: the largest `r` with `r * r ≤ n`. -/
def isqrt (n : Nat) : Nat := if n ≤ 1 then n else isqrtAux n n (n / 2)

namespace Double

/-- Round the exact value `(-1)^neg * m * 2^e` to binary64, to nearest, ties to even;
values beyond the largest finite double become an infinity. -/
def round (neg : Bool) (m : Nat) (e : Int) : Double :=
  if m = 0 then fin neg 0 (-1074) else
  let e1 : Int := max (e + (bitLen m : Int) - 53) (-1074)
  let sh : Nat := (e1 - e).toNat
  let q : Nat := (m * 2 ^ (e - e1).toNat) / 2 ^ sh
  let r : Nat := m % 2 ^ sh
  let half : Nat := 2 ^ (sh - 1)
  let q1 : Nat := if sh = 0 then q else if half < r ∨ (r = half ∧ q % 2 = 1) then q + 1 else q
  let q2 : Nat := if q1 = 2 ^ 53 then 2 ^ 52 else q1
  let e2 : Int := if q1 = 2 ^ 53 then e1 + 1 else e1
  if 971 < e2 then inf neg else fin neg q2 e2

/-- The integer `(-1)^neg * m * 2^k` (`k ≥ 0`). -/
def signed (neg : Bool) (m : Nat) (k : Int) : Int :=
  if neg then -((m * 2 ^ k.toNat : Nat) : Int) else ((m * 2 ^ k.toNat : Nat) : Int)

/-- The operator `+` on `double`. -/
def add : Double → Double → Double
  | nan, _ => nan
  | _, nan => nan
  | inf s1, inf s2 => if s1 = s2 then inf s1 else nan
  | inf s1, fin _ _ _ => inf s1
  | fin _ _ _, inf s2 => inf s2
  | fin s1 m1 e1, fin s2 m2 e2 =>
    let e0 := min e1 e2
    let c : Int := signed s1 m1 (e1 - e0) + signed s2 m2 (e2 - e0)
    if c = 0 then fin (s1 && s2) 0 (-1074) else round (decide (c < 0)) c.natAbs e0

/-- The operator `*` on `double`. -/
def mul : Double → Double → Double
  | nan, _ => nan
  | _, nan => nan
  | inf s1, inf s2 => inf (xor s1 s2)
  | inf s1, fin s2 m _ => if m = 0 then nan else inf (xor s1 s2)
  | fin s1 m _, inf s2 => if m = 0 then nan else inf (xor s1 s2)
  | fin s1 m1 e1, fin s2 m2 e2 => round (xor s1 s2) (m1 * m2) (e1 + e2)

/-- The operator `/` on `double`.  The quotient is computed to more than 55 bits, with a
last bit recording a nonzero remainder, and then rounded once. -/
def div : Double → Double → Double
  | nan, _ => nan
  | _, nan => nan
  | inf _, inf _ => nan
  | inf s1, fin s2 _ _ => inf (xor s1 s2)
  | fin s1 _ _, inf s2 => fin (xor s1 s2) 0 (-1074)
  | fin s1 m1 e1, fin s2 m2 e2 =>
    if m2 = 0 then (if m1 = 0 then nan else inf (xor s1 s2)) else
    let k := bitLen m2 + 56
    let n := m1 * 2 ^ k
    round (xor s1 s2) (2 * (n / m2) + (if n % m2 = 0 then 0 else 1)) (e1 - e2 - k - 1)

/-- The library function `sqrt` on `double` (correctly rounded). -/
def sqrt : Double → Double
  | nan => nan
  | inf s => if s then nan else inf false
  | fin s m e =>
    if m = 0 then fin s 0 (-1074) else
    if s then nan else
    let k : Nat := if (e - 110) % 2 = 0 then 110 else 111
    let n := m * 2 ^ k
    let r := isqrt n
    round false (2 * r + (if r * r = n then 0 else 1)) ((e - k) / 2 - 1)

/-- The operator `<` on `double`: false whenever an operand is NaN. -/
def lt : Double → Double → Bool
  | nan, _ => false
  | _, nan => false
  | inf s1, inf s2 => s1 && !s2
  | inf s1, fin _ _ _ => s1
  | fin _ _ _, inf s2 => !s2
  | fin s1 m1 e1, fin s2 m2 e2 =>
    decide (signed s1 m1 (e1 - min e1 e2) < signed s2 m2 (e2 - min e1 e2))

/-- The operator `<=` on `double`: false whenever an operand is NaN. -/
def le : Double → Double → Bool
  | nan, _ => false
  | _, nan => false
  | inf s1, inf s2 => s1 || !s2
  | inf s1, fin _ _ _ => s1
  | fin _ _ _, inf s2 => !s2
  | fin s1 m1 e1, fin s2 m2 e2 =>
    decide (signed s1 m1 (e1 - min e1 e2) ≤ signed s2 m2 (e2 - min e1 e2))

/-- The operator `==` on `double`: false whenever an operand is NaN, true on `+0 == -0`. -/
def eq : Double → Double → Bool
  | nan, _ => false
  | _, nan => false
  | inf s1, inf s2 => s1 == s2
  | inf _, fin _ _ _ => false
  | fin _ _ _, inf _ => false
  | fin s1 m1 e1, fin s2 m2 e2 =>
    decide (signed s1 m1 (e1 - min e1 e2) = signed s2 m2 (e2 - min e1 e2))

/-- Conversion of a non-negative integer to `double`. -/
def ofNat (n : Nat) : Double := round false n 0

/-- The value `+0.0`. -/
def zero : Double := fin false 0 (-1074)

/-- The value `1.0`. -/
def one : Double := fin false (2 ^ 52) (-52)

/-- Whether the value is `+0.0` or `-0.0`. -/
def isZero : Double → Bool
  | fin _ m _ => decide (m = 0)
  | _ => false

/-- The rational value of a finite double (`0` for NaN and the infinities). -/
def toRat : Double → ℚ
  | fin s m e => (if s then -(m : ℚ) else (m : ℚ)) * (2 : ℚ) ^ e
  | _ => 0

/-- The range condition of the error bounds: the value is a zero, or finite with a magnitude
between `2^-500` and `2^500`, so that no product of two such values and no sum of 5632 such
products overflows or underflows. -/
def InRange : Double → Prop
  | fin _ m e => m = 0 ∨ ((2 : ℚ) ^ (-500 : ℤ) ≤ (m : ℚ) * (2 : ℚ) ^ e ∧
      (m : ℚ) * (2 : ℚ) ^ e ≤ (2 : ℚ) ^ (500 : ℤ))
  | _ => False

instance decidableInRange (x : Double) : Decidable (InRange x) :=
  match x with
  | nan => isFalse (fun h => h)
  | inf _ => isFalse (fun h => h)
  | fin _ m e => inferInstanceAs (Decidable (m = 0 ∨ ((2 : ℚ) ^ (-500 : ℤ) ≤ (m : ℚ) * (2 : ℚ) ^ e ∧
      (m : ℚ) * (2 : ℚ) ^ e ≤ (2 : ℚ) ^ (500 : ℤ))))

end Double

/-! ## Arithmetic interface -/

/-- The arithmetic used by `computeSimilarity`: the literal `0`, `+`, `*`, `/` and `sqrt`. -/
structure Arith (F : Type) where
  zero : F
  add : F → F → F
  mul : F → F → F
  div : F → F → F
  sqrt : F → F

/-- The arithmetic of the compiled program: binary64. -/
@[reducible] def ieee : Arith Double :=
  { zero := Double.zero, add := Double.add, mul := Double.mul, div := Double.div,
    sqrt := Double.sqrt }

/-! ## `computeSimilarity` -/

/-- The three accumulators of `computeSimilarity`. -/
structure SimState (F : Type) where
  numerator : F
  denomQ : F
  denomT : F

/-- One iteration of the loop of `computeSimilarity`, at index `i`. -/
def simStep {F : Type} (A : Arith F) (query_data template_data : List F)
    (s : SimState F) (i : Nat) : SimState F :=
  { numerator := A.add s.numerator (A.mul (query_data.getD i A.zero) (template_data.getD i A.zero))
    denomQ := A.add s.denomQ (A.mul (query_data.getD i A.zero) (query_data.getD i A.zero))
    denomT := A.add s.denomT (A.mul (template_data.getD i A.zero) (template_data.getD i A.zero)) }

/-- The accumulators after the first `n` iterations of the loop. -/
def simLoop {F : Type} (A : Arith F) (query_data template_data : List F) (n : Nat) : SimState F :=
  (List.range n).foldl (simStep A query_data template_data) ⟨A.zero, A.zero, A.zero⟩

/-- `computeSimilarity`: the three sums over the indices `0 .. 5631`, then
`numerator / (sqrt(denomQ) * sqrt(denomT))`. -/
def computeSimilarity {F : Type} (A : Arith F) (query_data template_data : List F) : F :=
  let s := simLoop A query_data template_data NUMBER_OF_ELEMENTS_PER_VECTOR
  A.div s.numerator (A.mul (A.sqrt s.denomQ) (A.sqrt s.denomT))

/-- The dot product `Σ a_i * b_i` over the indices `0 .. n-1`, summed in index order
from `0`. -/
def dotSum {F : Type} (A : Arith F) (a b : List F) (n : Nat) : F :=
  (List.range n).foldl (fun acc i => A.add acc (A.mul (a.getD i A.zero) (b.getD i A.zero))) A.zero

/-- The cosine-similarity formula of the specification,
`(Σ qᵢ·tᵢ) / (√(Σ qᵢ²) · √(Σ tᵢ²))`, over the 5632 components. -/
def cosineFormula {F : Type} (A : Arith F) (q t : List F) : F :=
  A.div (dotSum A q t NUMBER_OF_ELEMENTS_PER_VECTOR)
    (A.mul (A.sqrt (dotSum A q q NUMBER_OF_ELEMENTS_PER_VECTOR))
      (A.sqrt (dotSum A t t NUMBER_OF_ELEMENTS_PER_VECTOR)))

/-! ## `multimap<double, int>` and `find10NearestNeighbors` -/

/-- Whether `lt` is a strict weak ordering on the keys `ks`: irreflexive, transitive, and such
that "neither is less than the other" is transitive.  `std::multimap` requires this of its
comparison on the keys it holds.  The operator `<` on `double` meets it on every set of keys
without NaN, and on a set with NaN exactly when no two keys of the set compare. -/
def strictWeak {K : Type} (lt : K → K → Bool) (ks : List K) : Bool :=
  ks.all (fun a => !lt a a &&
    ks.all (fun b => ks.all (fun c =>
      (!(lt a b && lt b c) || lt a c) &&
        (!(!lt a b && !lt b a && !lt b c && !lt c b) || (!lt a c && !lt c a)))))

/-- The entries of a multimap, in iteration order, with the new entry `p` at the upper bound
of its key: in front of the first entry whose key is greater, after all entries whose key is
not greater (so after the entries of an equal key, as `multimap::insert` guarantees). -/
def insertAtUpperBound {K : Type} (lt : K → K → Bool) (p : K × Nat) :
    List (K × Nat) → List (K × Nat)
  | [] => [p]
  | x :: xs => if lt p.1 x.1 then p :: x :: xs else x :: insertAtUpperBound lt p xs

/-- `neighbors.insert(p)` on the multimap whose entries are `l` in iteration order.  When the
comparison is a strict weak ordering on the keys then held, the new entry goes to the upper
bound of its key.  Otherwise the precondition of the container is broken and the call has no
defined result (`none`). -/
def multimapInsert {K : Type} (lt : K → K → Bool) (p : K × Nat) (l : List (K × Nat)) :
    Option (List (K × Nat)) :=
  if strictWeak lt (p.1 :: l.map Prod.fst) then some (insertAtUpperBound lt p l) else none

/-- One iteration of the first loop of `find10NearestNeighbors`, at index `i`.  The access
`template_data[i]` is unchecked, and `computeSimilarity` reads the components `0 .. 5631` of
both vectors unchecked: outside a vector there is no defined result (`none`).  Otherwise the
row is inserted with key `computeSimilarity(query_data, template_data[i])` and value
`i + 1`. -/
def insertRow {F : Type} (A : Arith F) (lt : F → F → Bool) (query_data : List F)
    (template_data : List (List F)) (neighbors : List (F × Nat)) (i : Nat) :
    Option (List (F × Nat)) :=
  match template_data[i]? with
  | none => none
  | some row =>
    if NUMBER_OF_ELEMENTS_PER_VECTOR ≤ query_data.length ∧
        NUMBER_OF_ELEMENTS_PER_VECTOR ≤ row.length then
      multimapInsert lt (computeSimilarity A query_data row, i + 1) neighbors
    else none

/-- The multimap after the first loop of `find10NearestNeighbors` has run over the rows
`0 .. n-1`. -/
def insertRows {F : Type} (A : Arith F) (lt : F → F → Bool) (query_data : List F)
    (template_data : List (List F)) (n : Nat) : Option (List (F × Nat)) :=
  (List.range n).foldlM (insertRow A lt query_data template_data) []

/-- A `multimap<double, int>::iterator`: it stands at a position of the container, or it has
been invalidated. -/
inductive Iter where
  | pos (k : Nat) : Iter
  | invalidated : Iter
  deriving DecidableEq, Repr

/-- `neighbors.erase(iter)`: defined for an iterator that stands at an entry.  The entry is
removed, and the iterator, which referred to it, is invalidated. -/
def erase {K : Type} (s : List (K × Nat) × Iter) : Option (List (K × Nat) × Iter) :=
  match s.2 with
  | Iter.pos k => if k < s.1.length then some (s.1.eraseIdx k, Iter.invalidated) else none
  | Iter.invalidated => none

/-- `advance(iter, 1)`, that is `++iter`: defined for an iterator that stands at an entry.
On an invalidated iterator it has no defined result (`none`). -/
def advance {K : Type} (s : List (K × Nat) × Iter) : Option (List (K × Nat) × Iter) :=
  match s.2 with
  | Iter.pos k => if k < s.1.length then some (s.1, Iter.pos (k + 1)) else none
  | Iter.invalidated => none

/-- The body `neighbors.erase(iter); advance(iter, 1);` of the second loop. -/
def eraseAdvance {K : Type} (s : List (K × Nat) × Iter) : Option (List (K × Nat) × Iter) :=
  (erase s).bind advance

/-- The second loop of `find10NearestNeighbors`, run `k` times. -/
def eraseLoop {K : Type} : Nat → List (K × Nat) × Iter → Option (List (K × Nat) × Iter)
  | 0, s => some s
  | k + 1, s => (eraseAdvance s).bind (eraseLoop k)

/-- The function `find10NearestNeighbors` for a row-count constant `n`: insert the rows
`0 .. n-1`, set `iter = neighbors.begin()`, run the second loop `n - 10` times, and return the
multimap. -/
def nearestNeighbors {F : Type} (A : Arith F) (lt : F → F → Bool) (n : Nat)
    (query_data : List F) (template_data : List (List F)) : Option (List (F × Nat)) :=
  (insertRows A lt query_data template_data n).bind
    (fun neighbors => (eraseLoop (n - 10) (neighbors, Iter.pos 0)).map Prod.fst)

/-- `find10NearestNeighbors`, with `NUMBER_OF_VECTORS_PER_TEMPLATE = 138` rows. -/
def find10NearestNeighbors {F : Type} (A : Arith F) (lt : F → F → Bool)
    (query_data : List F) (template_data : List (List F)) : Option (List (F × Nat)) :=
  nearestNeighbors A lt NUMBER_OF_VECTORS_PER_TEMPLATE query_data template_data

/-! ## `print` -/

/-- One line of the report: subject index, query label, neighbour indices in the order
written. -/
structure Line where
  index : Nat
  fileName : String
  neighbors : List Nat
  deriving DecidableEq, Repr

/-- `print`: the index, the label, then `iter->second` for the reverse iteration over the
multimap. -/
def print {K : Type} (image_set : List (K × Nat)) (index : Nat) (fileName : String) : Line :=
  { index := index, fileName := fileName, neighbors := image_set.reverse.map Prod.snd }

/-! ## Concrete inputs -/

/-- The vector of 5632 components whose component `i` is `f i`. -/
def vec {F : Type} (f : Nat → F) : List F :=
  (List.range NUMBER_OF_ELEMENTS_PER_VECTOR).map f

/-- The vector whose first `k` components are `x` and whose other components are `+0.0`. -/
def leading (k : Nat) (x : Double) : List Double :=
  vec (fun i => if i < k then x else Double.zero)

/-- The vector of 5632 values `0.0`. -/
def zeroVector : List Double := vec (fun _ => Double.zero)

/-- The vector of 5632 values `1.0`. -/
def onesVector : List Double := vec (fun _ => Double.one)

/-- A template of 138 rows, each equal to `row`. -/
def constTemplate (row : List Double) : List (List Double) :=
  (List.range NUMBER_OF_VECTORS_PER_TEMPLATE).map (fun _ => row)

/-- The template of the end-to-end scenario: 138 rows, row `r` (0-based) all `1.0`, every
other row all `0.0`. -/
def scenarioTemplate (r : Nat) : List (List Double) :=
  (List.range NUMBER_OF_VECTORS_PER_TEMPLATE).map
    (fun i => if i = r then onesVector else zeroVector)

/-- The unit vector `(1, 0, …, 0)`. -/
def unitVector : List Double := leading 1 Double.one

/-- The value `2^600`. -/
def twoPow600 : Double := Double.fin false (2 ^ 52) 548

/-- The value `-1.0`. -/
def negOne : Double := Double.fin true (2 ^ 52) (-52)

/-! ## `std::string` -/

/-- A `std::string`: the list of its bytes, each as its `unsigned char` value.  The order on
lists of numbers is the byte-wise lexicographic one of `std::string::compare`: the first
differing byte decides, and a proper prefix is smaller. -/
abbrev Str := List Nat

/-- The bytes of a string literal. -/
def str (s : String) : Str := s.toList.map Char.toNat

/-! ## `quickSort` -/

/-- The vector being sorted, with the log of the indices at which it has been read or written
(most recent first). -/
structure Mem (α : Type) where
  data : List α
  trace : List Nat

/-- The vector after `swap(data[i], data[j])`. -/
def swapList {α : Type} (data : List α) (i j : Nat) : List α :=
  match data[i]?, data[j]? with
  | some a, some b => (data.set i b).set j a
  | _, _ => data

/-- `swap(data[i], data[j])`: both elements are accessed. -/
def Mem.swap {α : Type} (m : Mem α) (i j : Nat) : Mem α :=
  { data := swapList m.data i j, trace := j :: i :: m.trace }

/-- The test `data[i] <= data[j]`. -/
def leAt {α : Type} [LinearOrder α] (data : List α) (i j : Nat) : Bool :=
  match data[i]?, data[j]? with
  | some a, some b => decide (a ≤ b)
  | _, _ => false

/-- One iteration of the `for` loop of `quickSort`, at index `i`; the state is the vector and
`tempLeft`. -/
def partitionStep {α : Type} [LinearOrder α] (left : Nat) (s : Mem α × Nat) (i : Nat) :
    Mem α × Nat :=
  if leAt s.1.data i left then
    (Mem.swap { data := s.1.data, trace := left :: i :: s.1.trace } i s.2, s.2 + 1)
  else
    ({ data := s.1.data, trace := left :: i :: s.1.trace }, s.2)

/-- The body of `quickSort` up to the recursive calls (for `left < right`): the swap of the
middle element to the front, the loop over `i = left .. right - 1`, and the swap that puts the
pivot element in its place.  Returns the vector and `pivot`. -/
def partition {α : Type} [LinearOrder α] (m : Mem α) (left right : Nat) : Mem α × Nat :=
  let middle := left + (right - left) / 2
  let s := (List.range' left (right - left)).foldl (partitionStep left) (m.swap middle left, left)
  let pivot := s.2 - 1
  (s.1.swap left pivot, pivot)

/-- The function `quickSort(data, left, right)`; the first argument bounds the depth of the
recursion, and `none` means that this bound was reached. -/
def quickSortAux {α : Type} [LinearOrder α] : Nat → Mem α → Nat → Nat → Option (Mem α)
  | 0, _, _, _ => none
  | fuel + 1, m, left, right =>
    if left ≥ right then some m else
    match quickSortAux fuel (partition m left right).1 left (partition m left right).2 with
    | none => none
    | some m1 => quickSortAux fuel m1 ((partition m left right).2 + 1) right

/-- The call `quickSort(data, left, right)` on a vector not accessed before, with a recursion
depth of `right - left + 1`. -/
def quickSort {α : Type} [LinearOrder α] (data : List α) (left right : Nat) : Option (Mem α) :=
  quickSortAux (right - left + 1) { data := data, trace := [] } left right

/-- Every element at an index in `[left, right)` satisfies `P`. -/
def Within {α : Type} (P : α → Prop) (data : List α) (left right : Nat) : Prop :=
  ∀ k x, left ≤ k → k < right → data[k]? = some x → P x

/-- The vector `data1` has the length of `data` and the same elements outside
`[left, right)`. -/
def Frame {α : Type} (data data1 : List α) (left right : Nat) : Prop :=
  data1.length = data.length ∧ ∀ k, k < left ∨ right ≤ k → data1[k]? = data[k]?

/-- The elements at the indices in `[left, right)` are in ascending order. -/
def SortedOn {α : Type} [LinearOrder α] (data : List α) (left right : Nat) : Prop :=
  ∀ i j x y, left ≤ i → i ≤ j → j < right → data[i]? = some x → data[j]? = some y → x ≤ y

/-- The invariant of the `for` loop of `quickSort` before the iteration at index `i`
(`left < i`), for the pivot element `p`, the vector `data0` and the log `tr0` at the call. -/
structure PartInv {α : Type} [LinearOrder α] (left right : Nat) (p : α) (data0 : List α)
    (tr0 : List Nat) (i : Nat) (s : Mem α × Nat) : Prop where
  frame : Frame data0 s.1.data left right
  perm : s.1.data.Perm data0
  pivotAt : s.1.data[left]? = some p
  lo : left < s.2
  hi : s.2 ≤ i
  small : Within (fun x => x ≤ p) s.1.data left s.2
  large : Within (fun x => p < x) s.1.data s.2 i
  keep : ∀ P : α → Prop, Within P data0 left right → Within P s.1.data left right
  tr : ∀ t ∈ s.1.trace, t ∈ tr0 ∨ (left ≤ t ∧ t < right)

/-- What `partition m left right = r` establishes: the pivot position is in `[left, right)`,
the elements before it in the range are not greater and those after it are greater than the
element at it; the vector is permuted inside `[left, right)` only, and only indices of that
range are accessed. -/
structure PartSpec {α : Type} [LinearOrder α] (left right : Nat) (m : Mem α)
    (r : Mem α × Nat) : Prop where
  pivot_ge : left ≤ r.2
  pivot_lt : r.2 < right
  frame : Frame m.data r.1.data left right
  perm : r.1.data.Perm m.data
  keep : ∀ P : α → Prop, Within P m.data left right → Within P r.1.data left right
  tr : ∀ t ∈ r.1.trace, t ∈ m.trace ∨ (left ≤ t ∧ t < right)
  split : ∃ p, r.1.data[r.2]? = some p ∧ Within (fun x => x ≤ p) r.1.data left r.2 ∧
    Within (fun x => p < x) r.1.data (r.2 + 1) right

/-- What `quickSort` establishes when it turns `m` into `m1`: the range `[left, right)` is
sorted, the vector is permuted inside that range only, and only indices of that range are
accessed. -/
structure SortSpec {α : Type} [LinearOrder α] (left right : Nat) (m m1 : Mem α) : Prop where
  frame : Frame m.data m1.data left right
  perm : m1.data.Perm m.data
  keep : ∀ P : α → Prop, Within P m.data left right → Within P m1.data left right
  tr : ∀ t ∈ m1.trace, t ∈ m.trace ∨ (left ≤ t ∧ t < right)
  sorted : SortedOn m1.data left right

/-! ## `readFile` -/

/-- `s.find(pat)`: the lowest position at which `pat` occurs in `s`; `none` stands for
`string::npos`. -/
def find : Str → Str → Option Nat
  | [], pat => if pat.isPrefixOf [] then some 0 else none
  | c :: s, pat => if pat.isPrefixOf (c :: s) then some 0 else (find s pat).map (fun k => k + 1)

/-- What `readFile` gets from the file system, for each path: whether the file opens, and what
the parsing loops build from the values `file >> next` yields, as a template (type `T`; in the
program the 138 x 5632 matrix `template_image_set`) and as a query (type `Q`; in the program
the vector `query_image` of 5632 values). -/
structure Files (T Q : Type) where
  isOpen : Str → Bool
  template_image_set : Str → T
  query_image : Str → Q

/-- The globals `template_set` and `query_set`, with the two counters of `readFile`. -/
structure Store (T Q : Type) where
  template_set : List T
  query_set : List Q
  templateCounter : Nat
  queryCounter : Nat

/-- The assignment `v.at(k) = x`; `none` stands for the exception `std::out_of_range`. -/
def setAt {α : Type} (v : List α) (k : Nat) (x : α) : Option (List α) :=
  if k < v.length then some (v.set k x) else none

/-- The body of the loop of `readFile` for the directory entry `name`: a file that does not
open is skipped, a file whose path contains `TEMPLATE_NAME` is stored as the next template,
every other file as the next query. -/
def loadFile {T Q : Type} (fs : Files T Q) (s : Store T Q) (name : Str) : Option (Store T Q) :=
  if fs.isOpen (str "data/" ++ name) then
    if (find (str "data/" ++ name) (str TEMPLATE_NAME)).isSome then
      (setAt s.template_set s.templateCounter (fs.template_image_set (str "data/" ++ name))).map
        (fun v => { s with template_set := v, templateCounter := s.templateCounter + 1 })
    else
      (setAt s.query_set s.queryCounter (fs.query_image (str "data/" ++ name))).map
        (fun v => { s with query_set := v, queryCounter := s.queryCounter + 1 })
  else some s

/-- The globals before `readFile` runs: 47 and 141 default-constructed entries. -/
def Store.init (T Q : Type) [Inhabited T] [Inhabited Q] : Store T Q :=
  { template_set := List.replicate NUMBER_OF_TEMPLATES default
    query_set := List.replicate NUMBER_OF_QUERIES default
    templateCounter := 0
    queryCounter := 0 }

/-- The file names over which the loop of `readFile` runs, for the directory entries in the
order `readdir` gives them: the vector sorted by `quickSort(files, 0, files.size())`, from
index 2 on. -/
def loadedNames (entries : List Str) : Option (List Str) :=
  (quickSort entries 0 entries.length).map (fun m => m.data.drop 2)

/-- The function `readFile`: the globals after the loop over the sorted names. -/
def readFile {T Q : Type} [Inhabited T] [Inhabited Q] (fs : Files T Q) (entries : List Str) :
    Option (Store T Q) :=
  match loadedNames entries with
  | none => none
  | some names => names.foldlM (loadFile fs) (Store.init T Q)

/-- The four files of the subjects `ids`: for each identifier the three queries and the
template. -/
def subjectFiles : List Str → List Str
  | [] => []
  | x :: xs => (x ++ str "_AU01_query") :: (x ++ str "_AU12_query") ::
      (x ++ str "_AU17_query") :: (x ++ str "_template") :: subjectFiles xs

/-- The query files of the subjects `ids`, subject by subject. -/
def queryFiles : List Str → List Str
  | [] => []
  | x :: xs => (x ++ str "_AU01_query") :: (x ++ str "_AU12_query") ::
      (x ++ str "_AU17_query") :: queryFiles xs

/-- The template files of the subjects `ids`. -/
def templateFiles (ids : List Str) : List Str := ids.map (fun x => x ++ str "_template")

/-- The pairing of the specification: for every `i` in `0..46` there is a subject whose
template file is stored at position `i` and whose `AU01`, `AU12` and `AU17` query files are
stored at the positions `3i`, `3i + 1`, `3i + 2`. -/
def Paired {T Q : Type} (fs : Files T Q) (ids : List Str) (s : Store T Q) : Prop :=
  ∀ i, i < NUMBER_OF_TEMPLATES → ∃ x ∈ ids,
    s.template_set[i]? = some (fs.template_image_set (str "data/" ++ (x ++ str "_template"))) ∧
    s.query_set[3 * i]? = some (fs.query_image (str "data/" ++ (x ++ str "_AU01_query"))) ∧
    s.query_set[3 * i + 1]? = some (fs.query_image (str "data/" ++ (x ++ str "_AU12_query"))) ∧
    s.query_set[3 * i + 2]? = some (fs.query_image (str "data/" ++ (x ++ str "_AU17_query")))

/-- The file system in which every file opens and is identified by its path. -/
def labelled : Files Str Str :=
  { isOpen := fun _ => true, template_image_set := fun p => p, query_image := fun p => p }

/-- The identifiers `s03`, ..., `s47`. -/
def otherIds : List Str :=
  (List.range 45).map (fun i => [115, 48 + (i + 3) / 10, 48 + (i + 3) % 10])

/-- The 47 identifiers `a`, `a_b`, `s03`, ..., `s47`. -/
def prefixIds : List Str := str "a" :: str "a_b" :: otherIds

/-- Whether the entry `name` contains `TEMPLATE_NAME`. -/
def isTemplate (name : Str) : Bool := decide (str TEMPLATE_NAME <:+: name)

/-- The identifiers `s01`, ..., `s47`. -/
def plainIds : List Str :=
  (List.range 47).map (fun i => [115, 48 + (i + 1) / 10, 48 + (i + 1) % 10])

/-- Whether each string of the list is below the next one. -/
def ascending : List Str → Bool
  | a :: b :: l => decide (a < b) && ascending (b :: l)
  | _ => true

/-! ## `main` -/

/-- One call `find10NearestNeighbors(query_set[index + j], template_set[i])` of `main` and the
`print` that follows it: the line written.  There is no line (`none`) when the unchecked access
`query_set[index + j]` is outside the vector, or when the call has no defined result. -/
def reportLine (template_set : List (List (List Double))) (query_set : List (List Double))
    (i j : Nat) (fileName : String) : Option Line :=
  match template_set[i]?, query_set[i * 3 + j]? with
  | some t, some q =>
    (find10NearestNeighbors ieee Double.lt q t).map (fun r => print r (i + 1) fileName)
  | _, _ => none

/-- One iteration of the loop of `main`, for the template index `i`: the three lines written,
in the order written. -/
def mainStep (template_set : List (List (List Double))) (query_set : List (List Double))
    (i : Nat) : Option (List Line) :=
  (reportLine template_set query_set i 0 FIRST_QUERY_NAME).bind (fun l1 =>
    (reportLine template_set query_set i 1 SECOND_QUERY_NAME).bind (fun l2 =>
      (reportLine template_set query_set i 2 THIRD_QUERY_NAME).bind (fun l3 =>
        some [l1, l2, l3])))

/-- The loop of `main` over `i = 0 .. template_set.size() - 1`, on the vectors that `readFile`
has filled: the lines of the report, in the order written. -/
def main (template_set : List (List (List Double))) (query_set : List (List Double)) :
    Option (List Line) :=
  (List.range template_set.length).foldlM
    (fun out i => (mainStep template_set query_set i).map (fun l => out ++ l)) []

/-! # Lemmas -/

theorem elements_eq : NUMBER_OF_ELEMENTS_PER_VECTOR = 5632 := by
  unfold NUMBER_OF_ELEMENTS_PER_VECTOR; rfl

theorem rows_eq : NUMBER_OF_VECTORS_PER_TEMPLATE = 138 := by
  unfold NUMBER_OF_VECTORS_PER_TEMPLATE; rfl

/-! ## The integer square root -/

theorem isqrtAux_eq_iter (f n guess : Nat) (h : guess ≤ f) :
    isqrtAux f n guess = Nat.sqrt.iter n guess := by
  induction f generalizing guess with
  | zero =>
    have : guess = 0 := by omega
    subst this
    rw [Nat.sqrt.iter]
    simp [isqrtAux]
  | succ f ih =>
    rw [Nat.sqrt.iter]
    simp only [isqrtAux]
    split
    · rename_i hlt
      exact ih _ (by omega)
    · rfl

/-- The Newton iteration computes the integer square root. -/
theorem isqrt_eq_sqrt (n : Nat) : isqrt n = Nat.sqrt n := by
  unfold isqrt Nat.sqrt
  split
  · rfl
  · exact isqrtAux_eq_iter n n (n / 2) (Nat.div_le_self n 2)

theorem isqrt_spec (n : Nat) : isqrt n * isqrt n ≤ n ∧ n < (isqrt n + 1) * (isqrt n + 1) := by
  rw [isqrt_eq_sqrt]
  exact ⟨Nat.sqrt_le n, Nat.lt_succ_sqrt n⟩

/-! ## The order of `double` -/

namespace Double

theorem signed_cast (s : Bool) (m : Nat) (e e0 : Int) (h : e0 ≤ e) :
    ((signed s m (e - e0) : Int) : ℚ) * (2 : ℚ) ^ e0 = toRat (fin s m e) := by
  have hk : ((2 : ℚ) ^ (e - e0).toNat) * (2 : ℚ) ^ e0 = (2 : ℚ) ^ e := by
    rw [← zpow_natCast, Int.toNat_of_nonneg (by omega), ← zpow_add₀ (by norm_num)]
    congr 1; omega
  unfold signed toRat
  cases s <;> simp only [Bool.false_eq_true, if_false, if_true] <;> push_cast <;>
    rw [← hk] <;> ring

theorem lt_fin_iff (s1 s2 : Bool) (m1 m2 : Nat) (e1 e2 : Int) :
    lt (fin s1 m1 e1) (fin s2 m2 e2) = true ↔ toRat (fin s1 m1 e1) < toRat (fin s2 m2 e2) := by
  have hpos : (0 : ℚ) < (2 : ℚ) ^ (min e1 e2) := zpow_pos (by norm_num) _
  rw [← signed_cast s1 m1 e1 (min e1 e2) (min_le_left _ _),
    ← signed_cast s2 m2 e2 (min e1 e2) (min_le_right _ _), mul_lt_mul_right hpos]
  simp [lt]

theorem eq_fin_iff (s1 s2 : Bool) (m1 m2 : Nat) (e1 e2 : Int) :
    eq (fin s1 m1 e1) (fin s2 m2 e2) = true ↔ toRat (fin s1 m1 e1) = toRat (fin s2 m2 e2) := by
  have hpos : (0 : ℚ) < (2 : ℚ) ^ (min e1 e2) := zpow_pos (by norm_num) _
  rw [← signed_cast s1 m1 e1 (min e1 e2) (min_le_left _ _),
    ← signed_cast s2 m2 e2 (min e1 e2) (min_le_right _ _), mul_left_inj' hpos.ne']
  simp [eq]

theorem lt_self (a : Double) : lt a a = false := by
  cases a with
  | nan => rfl
  | inf s => cases s <;> rfl
  | fin s m e => simp [lt]

theorem lt_transitive (a b c : Double) (hab : lt a b = true) (hbc : lt b c = true) :
    lt a c = true := by
  cases a with
  | nan => simp [lt] at hab
  | inf sa =>
    cases b with
    | nan => simp [lt] at hab
    | inf sb =>
      cases c with
      | nan => simp [lt] at hbc
      | inf sc => cases sa <;> cases sb <;> cases sc <;> simp_all [lt]
      | fin sc mc ec => cases sa <;> cases sb <;> simp_all [lt]
    | fin sb mb eb =>
      cases c with
      | nan => simp [lt] at hbc
      | inf sc => cases sa <;> cases sc <;> simp_all [lt]
      | fin sc mc ec => cases sa <;> simp_all [lt]
  | fin sa ma ea =>
    cases b with
    | nan => simp [lt] at hab
    | inf sb =>
      cases c with
      | nan => simp [lt] at hbc
      | inf sc => cases sb <;> cases sc <;> simp_all [lt]
      | fin sc mc ec => cases sb <;> simp_all [lt]
    | fin sb mb eb =>
      cases c with
      | nan => simp [lt] at hbc
      | inf sc => cases sc <;> simp_all [lt]
      | fin sc mc ec =>
        rw [lt_fin_iff] at hab hbc ⊢
        exact lt_trans hab hbc

/-- Equal keys (for `==`) compare alike against a third key. -/
theorem lt_of_eq_of_lt (a b c : Double) (hab : eq a b = true) (hac : lt a c = true) :
    lt b c = true := by
  cases a with
  | nan => simp [eq] at hab
  | inf sa =>
    cases b with
    | nan => simp [eq] at hab
    | inf sb =>
      cases c with
      | nan => simp [lt] at hac
      | inf sc => cases sa <;> cases sb <;> cases sc <;> simp_all [lt, eq]
      | fin sc mc ec => cases sa <;> cases sb <;> simp_all [lt, eq]
    | fin sb mb eb => simp [eq] at hab
  | fin sa ma ea =>
    cases b with
    | nan => simp [eq] at hab
    | inf sb => simp [eq] at hab
    | fin sb mb eb =>
      cases c with
      | nan => simp [lt] at hac
      | inf sc => cases sc <;> simp_all [lt]
      | fin sc mc ec =>
        rw [eq_fin_iff] at hab
        rw [lt_fin_iff] at hac ⊢
        rw [← hab]; exact hac

theorem eq_symm (a b : Double) : eq a b = eq b a := by
  cases a with
  | nan => cases b <;> rfl
  | inf sa =>
    cases b with
    | nan => rfl
    | inf sb => cases sa <;> cases sb <;> rfl
    | fin sb mb eb => rfl
  | fin sa ma ea =>
    cases b with
    | nan => rfl
    | inf sb => rfl
    | fin sb mb eb =>
      simp only [eq, min_comm ea eb]
      exact decide_eq_decide.2 eq_comm

theorem le_of_not_lt (a b : Double) (ha : a ≠ nan) (hb : b ≠ nan) (h : lt b a = false) :
    le a b = true := by
  cases a with
  | nan => exact absurd rfl ha
  | inf sa =>
    cases b with
    | nan => exact absurd rfl hb
    | inf sb => cases sa <;> cases sb <;> simp_all [lt, le]
    | fin sb mb eb => cases sa <;> simp_all [lt, le]
  | fin sa ma ea =>
    cases b with
    | nan => exact absurd rfl hb
    | inf sb => cases sb <;> simp_all [lt, le]
    | fin sb mb eb =>
      simp only [lt, le, decide_eq_false_iff_not, decide_eq_true_eq, not_lt] at h ⊢
      rw [min_comm ea eb]; exact h

end Double

/-! ## The loop of `computeSimilarity` -/

theorem simLoop_zero {F : Type} (A : Arith F) (q t : List F) :
    simLoop A q t 0 = ⟨A.zero, A.zero, A.zero⟩ := rfl

theorem simLoop_succ {F : Type} (A : Arith F) (q t : List F) (n : Nat) :
    simLoop A q t (n + 1) = simStep A q t (simLoop A q t n) n := by
  simp [simLoop, List.range_succ, List.foldl_append]

/-- The result of `computeSimilarity` from the accumulators after the loop. -/
theorem computeSimilarity_of_state {F : Type} (A : Arith F) (q t : List F) (s : SimState F)
    (h : simLoop A q t NUMBER_OF_ELEMENTS_PER_VECTOR = s) :
    computeSimilarity A q t = A.div s.numerator (A.mul (A.sqrt s.denomQ) (A.sqrt s.denomT)) := by
  subst h; rfl

theorem ieee_add (x y : Double) : ieee.add x y = Double.add x y := rfl

theorem ieee_mul (x y : Double) : ieee.mul x y = Double.mul x y := rfl

theorem ieee_div (x y : Double) : ieee.div x y = Double.div x y := rfl

theorem ieee_sqrt (x : Double) : ieee.sqrt x = Double.sqrt x := rfl

/-- The result of `computeSimilarity` in binary64 from the accumulators after the loop. -/
theorem computeSimilarity_ieee (q t : List Double) (s : SimState Double)
    (h : simLoop ieee q t NUMBER_OF_ELEMENTS_PER_VECTOR = s) :
    computeSimilarity ieee q t =
      Double.div s.numerator (Double.mul (Double.sqrt s.denomQ) (Double.sqrt s.denomT)) := by
  rw [computeSimilarity_of_state ieee q t s h, ieee_div, ieee_mul, ieee_sqrt, ieee_sqrt]

theorem dotSum_succ {F : Type} (A : Arith F) (a b : List F) (n : Nat) :
    dotSum A a b (n + 1) = A.add (dotSum A a b n) (A.mul (a.getD n A.zero) (b.getD n A.zero)) := by
  simp [dotSum, List.range_succ, List.foldl_append]

theorem simLoop_eq_dotSum {F : Type} (A : Arith F) (q t : List F) (n : Nat) :
    simLoop A q t n = ⟨dotSum A q t n, dotSum A q q n, dotSum A t t n⟩ := by
  induction n with
  | zero => rfl
  | succ n ih => rw [simLoop_succ, ih]; simp only [simStep, dotSum_succ]

namespace Double

theorem mul_comm' (a b : Double) : mul a b = mul b a := by
  cases a with
  | nan => cases b <;> rfl
  | inf sa =>
    cases b with
    | nan => rfl
    | inf sb => simp [mul, Bool.xor_comm]
    | fin sb mb eb => simp [mul, Bool.xor_comm]
  | fin sa ma ea =>
    cases b with
    | nan => rfl
    | inf sb => simp [mul, Bool.xor_comm]
    | fin sb mb eb => simp [mul, Bool.xor_comm sa sb, Nat.mul_comm ma mb, Int.add_comm ea eb]

theorem eq_self (a : Double) (h : a ≠ nan) : eq a a = true := by
  cases a with
  | nan => exact absurd rfl h
  | inf s => simp [eq]
  | fin s m e => simp [eq]

theorem eq_nan_left (b : Double) : eq nan b = false := by cases b <;> rfl

theorem le_nan_right (a : Double) : le a nan = false := by cases a <;> rfl

theorem lt_nan_right (a : Double) : lt a nan = false := by cases a <;> rfl

theorem lt_nan_left (a : Double) : lt nan a = false := by cases a <;> rfl

theorem add_nan_left (b : Double) : add nan b = nan := by cases b <;> rfl

theorem div_nan_left (b : Double) : div nan b = nan := by cases b <;> rfl

theorem round_zero (s : Bool) (e : Int) : round s 0 e = fin s 0 (-1074) := by
  simp [round]

theorem signed_zero (s : Bool) (k : Int) : signed s 0 k = 0 := by
  cases s <;> simp [signed]

theorem add_zeroOrNan (a b : Double) (ha : a = nan ∨ a.isZero = true)
    (hb : b = nan ∨ b.isZero = true) : add a b = nan ∨ (add a b).isZero = true := by
  rcases ha with rfl | ha
  · left; exact add_nan_left b
  rcases hb with rfl | hb
  · left; cases a <;> rfl
  cases a with
  | nan => left; exact add_nan_left b
  | inf s => simp [isZero] at ha
  | fin sa ma ea =>
    cases b with
    | nan => left; rfl
    | inf s => simp [isZero] at hb
    | fin sb mb eb =>
      simp only [isZero, decide_eq_true_eq] at ha hb
      subst ha; subst hb
      right
      simp [add, signed_zero, isZero]

theorem mul_zero_left (a b : Double) (ha : a.isZero = true) :
    mul a b = nan ∨ (mul a b).isZero = true := by
  cases a with
  | nan => simp [isZero] at ha
  | inf s => simp [isZero] at ha
  | fin sa ma ea =>
    simp only [isZero, decide_eq_true_eq] at ha
    subst ha
    cases b with
    | nan => left; rfl
    | inf sb => left; simp [mul]
    | fin sb mb eb => right; simp [mul, round_zero, isZero]

theorem mul_zero_right (a b : Double) (hb : b.isZero = true) :
    mul a b = nan ∨ (mul a b).isZero = true := by
  rw [mul_comm']; exact mul_zero_left b a hb

theorem mul_zero_zero (a b : Double) (ha : a.isZero = true) (hb : b.isZero = true) :
    mul a b = nan ∨ (mul a b).isZero = true := mul_zero_left a b ha

theorem mul_self_zero (a : Double) (ha : a.isZero = true) : mul a a = zero := by
  cases a with
  | nan => simp [isZero] at ha
  | inf s => simp [isZero] at ha
  | fin sa ma ea =>
    simp only [isZero, decide_eq_true_eq] at ha
    subst ha
    simp [mul, round_zero, zero]

theorem div_zeroOrNan (a b : Double) (ha : a = nan ∨ a.isZero = true)
    (hb : b = nan ∨ b.isZero = true) : div a b = nan := by
  rcases ha with rfl | ha
  · exact div_nan_left b
  rcases hb with rfl | hb
  · cases a <;> rfl
  cases a with
  | nan => exact div_nan_left b
  | inf s => simp [isZero] at ha
  | fin sa ma ea =>
    cases b with
    | nan => rfl
    | inf s => simp [isZero] at hb
    | fin sb mb eb =>
      simp only [isZero, decide_eq_true_eq] at ha hb
      subst ha; subst hb
      simp [div]

end Double

theorem getD_isZero (q : List Double) (hz : ∀ x ∈ q, x.isZero = true) (i : Nat) :
    (q.getD i Double.zero).isZero = true := by
  rw [List.getD_eq_getElem?_getD]
  cases h : q[i]? with
  | none => rfl
  | some x => exact hz x (List.getElem?_mem h)

/-- With an all-zero query the numerator stays a zero or NaN and `denomQ` stays `+0`. -/
theorem simLoop_zero_query (q t : List Double) (hz : ∀ x ∈ q, x.isZero = true) (n : Nat) :
    ((simLoop ieee q t n).numerator = Double.nan ∨ (simLoop ieee q t n).numerator.isZero = true) ∧
      (simLoop ieee q t n).denomQ = Double.zero := by
  induction n with
  | zero => exact ⟨Or.inr rfl, rfl⟩
  | succ n ih =>
    rw [simLoop_succ]
    refine ⟨Double.add_zeroOrNan _ _ ih.1 (Double.mul_zero_left _ _ (getD_isZero q hz n)), ?_⟩
    have hm := Double.mul_self_zero _ (getD_isZero q hz n)
    simp only [simStep, ieee] at ih ⊢
    rw [ih.2, hm]
    rfl

theorem simLoop_zero_template (q t : List Double) (hz : ∀ x ∈ t, x.isZero = true) (n : Nat) :
    ((simLoop ieee q t n).numerator = Double.nan ∨ (simLoop ieee q t n).numerator.isZero = true) ∧
      (simLoop ieee q t n).denomT = Double.zero := by
  induction n with
  | zero => exact ⟨Or.inr rfl, rfl⟩
  | succ n ih =>
    rw [simLoop_succ]
    refine ⟨Double.add_zeroOrNan _ _ ih.1 (Double.mul_zero_right _ _ (getD_isZero t hz n)), ?_⟩
    have hm := Double.mul_self_zero _ (getD_isZero t hz n)
    simp only [simStep, ieee] at ih ⊢
    rw [ih.2, hm]
    rfl

theorem computeSimilarity_zero_query (q t : List Double) (hz : ∀ x ∈ q, x.isZero = true) :
    computeSimilarity ieee q t = Double.nan := by
  have h := simLoop_zero_query q t hz NUMBER_OF_ELEMENTS_PER_VECTOR
  rw [computeSimilarity_ieee q t _ rfl, h.2]
  exact Double.div_zeroOrNan _ _ h.1 (Double.mul_zero_left _ _ rfl)

theorem computeSimilarity_zero_template (q t : List Double) (hz : ∀ x ∈ t, x.isZero = true) :
    computeSimilarity ieee q t = Double.nan := by
  have h := simLoop_zero_template q t hz NUMBER_OF_ELEMENTS_PER_VECTOR
  rw [computeSimilarity_ieee q t _ rfl, h.2]
  exact Double.div_zeroOrNan _ _ h.1 (Double.mul_zero_right _ _ rfl)

theorem simLoop_swap (q t : List Double) (n : Nat) :
    simLoop ieee t q n =
      ⟨(simLoop ieee q t n).numerator, (simLoop ieee q t n).denomT, (simLoop ieee q t n).denomQ⟩ := by
  induction n with
  | zero => rfl
  | succ n ih =>
    rw [simLoop_succ, simLoop_succ, ih]
    simp only [simStep, ieee, Double.mul_comm' (t.getD n Double.zero) (q.getD n Double.zero)]

theorem vec_length {F : Type} (f : Nat → F) : (vec f).length = NUMBER_OF_ELEMENTS_PER_VECTOR := by
  simp [vec]

theorem vec_getD {F : Type} (f : Nat → F) (i : Nat) (d : F) :
    (vec f).getD i d = if i < NUMBER_OF_ELEMENTS_PER_VECTOR then f i else d := by
  simp only [vec, List.getD_eq_getElem?_getD, List.getElem?_map]
  by_cases h : i < NUMBER_OF_ELEMENTS_PER_VECTOR
  · simp [h, List.getElem?_range h]
  · simp [h, List.getElem?_eq_none (l := List.range NUMBER_OF_ELEMENTS_PER_VECTOR) (by simpa using h)]

theorem leading_getD_lt (k : Nat) (x : Double) (i : Nat) (hi : i < k)
    (hk : k ≤ NUMBER_OF_ELEMENTS_PER_VECTOR) : (leading k x).getD i Double.zero = x := by
  rw [leading, vec_getD, if_pos (by omega), if_pos hi]

theorem leading_getD_ge (k : Nat) (x : Double) (i : Nat) (hi : k ≤ i) :
    (leading k x).getD i Double.zero = Double.zero := by
  rw [leading, vec_getD]
  split
  · rw [if_neg (by omega)]
  · rfl

theorem zeroVector_isZero : ∀ x ∈ zeroVector, x.isZero = true := by
  intro x hx
  simp only [zeroVector, vec, List.mem_map] at hx
  obtain ⟨_, _, rfl⟩ := hx
  rfl

/-- Once both vectors continue with `+0.0` and adding `0 * 0` leaves the accumulators as they
are, the accumulators no longer change. -/
theorem simLoop_trailing (q t : List Double) (k : Nat) (s : SimState Double)
    (hk : simLoop ieee q t k = s) (hfix : simStep ieee [] [] s 0 = s)
    (hz : ∀ i, k ≤ i → q.getD i Double.zero = Double.zero ∧ t.getD i Double.zero = Double.zero)
    (n : Nat) (hn : k ≤ n) : simLoop ieee q t n = s := by
  induction n with
  | zero =>
    have : k = 0 := by omega
    subst this; exact hk
  | succ n ih =>
    rcases Nat.lt_or_ge n k with h | h
    · have : k = n + 1 := by omega
      subst this; exact hk
    · rw [simLoop_succ, ih h]
      have h1 := (hz n h).1
      have h2 := (hz n h).2
      simp only [simStep] at hfix ⊢
      rw [h1, h2]
      exact hfix

theorem simLoop_congr {F : Type} (A : Arith F) (q t q' t' : List F) (n : Nat)
    (hq : ∀ i, i < n → q.getD i A.zero = q'.getD i A.zero)
    (ht : ∀ i, i < n → t.getD i A.zero = t'.getD i A.zero) :
    simLoop A q t n = simLoop A q' t' n := by
  induction n with
  | zero => rfl
  | succ n ih =>
    rw [simLoop_succ, simLoop_succ,
      ih (fun i hi => hq i (by omega)) (fun i hi => ht i (by omega))]
    simp only [simStep, hq n (by omega), ht n (by omega)]

/-- The similarity of `leading k x` with itself, from the accumulators after `k` steps. -/
theorem computeSimilarity_leading (k : Nat) (x : Double) (s : SimState Double)
    (hk : k ≤ NUMBER_OF_ELEMENTS_PER_VECTOR)
    (hs : simLoop ieee (List.replicate k x) (List.replicate k x) k = s)
    (hfix : simStep ieee [] [] s 0 = s) :
    computeSimilarity ieee (leading k x) (leading k x) =
      Double.div s.numerator (Double.mul (Double.sqrt s.denomQ) (Double.sqrt s.denomT)) := by
  have h1 : simLoop ieee (leading k x) (leading k x) k = s := by
    rw [← hs]
    apply simLoop_congr <;>
    · intro i hi
      rw [leading_getD_lt k x i hi hk, List.getD_eq_getElem?_getD, List.getElem?_replicate,
        if_pos hi]
      rfl
  have h2 := simLoop_trailing _ _ k s h1 hfix
    (fun i hi => ⟨leading_getD_ge k x i hi, leading_getD_ge k x i hi⟩)
    NUMBER_OF_ELEMENTS_PER_VECTOR hk
  exact computeSimilarity_ieee _ _ s h2

theorem map_range_getD {α : Type} (f : Nat → α) (n i : Nat) (d : α) :
    ((List.range n).map f).getD i d = if i < n then f i else d := by
  simp only [List.getD_eq_getElem?_getD, List.getElem?_map]
  by_cases h : i < n
  · simp [h, List.getElem?_range h]
  · simp [h, List.getElem?_eq_none (l := List.range n) (by simpa using h)]

/-! ## The rows of the concrete templates -/

theorem constTemplate_getD (row : List Double) (i : Nat)
    (hi : i < NUMBER_OF_VECTORS_PER_TEMPLATE) : (constTemplate row).getD i [] = row := by
  rw [constTemplate, map_range_getD, if_pos hi]

/-! ## Evaluations in binary64 -/

set_option maxRecDepth 100000 in
theorem computeSimilarity_three_ones :
    computeSimilarity ieee (leading 3 Double.one) (leading 3 Double.one) =
      Double.fin false (2 ^ 52 + 1) (-52) := by
  rw [computeSimilarity_leading 3 Double.one
    ⟨Double.ofNat 3, Double.ofNat 3, Double.ofNat 3⟩ (by rw [elements_eq]; decide) (by rfl) (by rfl)]
  rfl

set_option maxRecDepth 100000 in
theorem computeSimilarity_overflow :
    computeSimilarity ieee (leading 1 twoPow600) (leading 1 twoPow600) = Double.nan := by
  rw [computeSimilarity_leading 1 twoPow600
    ⟨Double.inf false, Double.inf false, Double.inf false⟩ (by rw [elements_eq]; decide)
    (by rfl) (by rfl)]
  rfl

/-! ## Exactly representable sums -/

theorem bitLenAux_zero (f : Nat) : bitLenAux f 0 = 0 := by
  cases f <;> simp [bitLenAux]

theorem bitLenAux_bounds (f n : Nat) (h : n ≤ f) :
    n < 2 ^ bitLenAux f n ∧ (0 < n → 2 ^ (bitLenAux f n - 1) ≤ n) := by
  induction f generalizing n with
  | zero =>
    have : n = 0 := by omega
    subst this; simp [bitLenAux]
  | succ f ih =>
    by_cases hn : n = 0
    · subst hn; simp [bitLenAux]
    · have ih' := ih (n / 2) (by omega)
      simp only [bitLenAux, hn, if_false, Nat.add_sub_cancel]
      constructor
      · rw [pow_succ]; omega
      · intro _
        by_cases h2 : n / 2 = 0
        · rw [h2, bitLenAux_zero]; simp; omega
        · have h3 := ih'.2 (by omega)
          have h4 : bitLenAux f (n / 2) = (bitLenAux f (n / 2) - 1) + 1 := by
            have : bitLenAux f (n / 2) ≠ 0 := by
              intro h0; rw [h0] at ih'; simp at ih'; omega
            omega
          rw [h4, pow_succ]; omega

theorem lt_two_pow_bitLen (n : Nat) : n < 2 ^ bitLen n :=
  (bitLenAux_bounds n n (le_refl n)).1

theorem two_pow_bitLen_le (n : Nat) (h : 0 < n) : 2 ^ (bitLen n - 1) ≤ n :=
  (bitLenAux_bounds n n (le_refl n)).2 h

theorem bitLen_eq (m B : Nat) (h1 : 2 ^ (B - 1) ≤ m) (h2 : m < 2 ^ B) (hB : 0 < B) :
    bitLen m = B := by
  have hm : 0 < m := lt_of_lt_of_le (Nat.pow_pos (by norm_num)) h1
  have a1 := lt_two_pow_bitLen m
  have a2 := two_pow_bitLen_le m hm
  rcases Nat.lt_trichotomy (bitLen m) B with h | h | h
  · have : 2 ^ bitLen m ≤ 2 ^ (B - 1) := Nat.pow_le_pow_right (by norm_num) (by omega)
    omega
  · exact h
  · have : 2 ^ B ≤ 2 ^ (bitLen m - 1) := Nat.pow_le_pow_right (by norm_num) (by omega)
    omega

theorem bitLen_pos (m : Nat) (h : 0 < m) : 0 < bitLen m := by
  have := lt_two_pow_bitLen m
  rcases Nat.eq_zero_or_pos (bitLen m) with h0 | h0
  · rw [h0] at this; simp at this; omega
  · exact h0

namespace Double

/-- A value with at most 53 significant bits in the normal range is not changed by rounding. -/
theorem round_of_short (s : Bool) (m : Nat) (e : Int) (hm : m ≠ 0) (hB : bitLen m ≤ 53)
    (hlo : -1074 ≤ e + (bitLen m : Int) - 53) (hhi : e + (bitLen m : Int) - 53 ≤ 971) :
    round s m e = fin s (m * 2 ^ (53 - bitLen m)) (e + (bitLen m : Int) - 53) := by
  have he1 : max (e + (bitLen m : Int) - 53) (-1074) = e + (bitLen m : Int) - 53 :=
    max_eq_left hlo
  have hsh : (e + (bitLen m : Int) - 53 - e).toNat = 0 := by omega
  have hup : (e - (e + (bitLen m : Int) - 53)).toNat = 53 - bitLen m := by omega
  have hq : m * 2 ^ (53 - bitLen m) < 2 ^ 53 := by
    calc m * 2 ^ (53 - bitLen m) < 2 ^ bitLen m * 2 ^ (53 - bitLen m) :=
          Nat.mul_lt_mul_of_pos_right (lt_two_pow_bitLen m) (Nat.pow_pos (by norm_num))
      _ = 2 ^ 53 := by rw [← pow_add]; congr 1; omega
  simp only [round, hm, if_false, he1, hsh, hup, pow_zero, Nat.div_one, if_true,
    Nat.ne_of_lt hq, not_lt.2 hhi]

/-- A value whose bits below the 53 leading ones are all zero is not changed by rounding. -/
theorem round_of_long (s : Bool) (m : Nat) (e : Int) (B : Nat) (hB : bitLen m = B)
    (h53 : 53 ≤ B) (hdvd : m % 2 ^ (B - 53) = 0)
    (hlo : -1074 ≤ e + (B : Int) - 53) (hhi : e + (B : Int) - 53 ≤ 971) :
    round s m e = fin s (m / 2 ^ (B - 53)) (e + (B : Int) - 53) := by
  have hm : m ≠ 0 := by
    intro h0; subst h0
    have : bitLen 0 = 0 := rfl
    omega
  have he1 : max (e + (B : Int) - 53) (-1074) = e + (B : Int) - 53 := max_eq_left hlo
  have hsh : (e + (B : Int) - 53 - e).toNat = B - 53 := by omega
  have hup : (e - (e + (B : Int) - 53)).toNat = 0 := by omega
  have hq : m / 2 ^ (B - 53) < 2 ^ 53 := by
    rw [Nat.div_lt_iff_lt_mul (Nat.pow_pos (by norm_num)), ← pow_add]
    have := lt_two_pow_bitLen m
    rw [hB] at this
    have h2 : 53 + (B - 53) = B := by omega
    rw [h2]; exact this
  have hhalf : ¬ (2 ^ (B - 53 - 1) < 0 ∨ (0 = 2 ^ (B - 53 - 1) ∧ m / 2 ^ (B - 53) % 2 = 1)) := by
    have : 0 < 2 ^ (B - 53 - 1) := Nat.pow_pos (by norm_num)
    omega
  simp only [round, hm, if_false, hB, he1, hsh, hup, pow_zero, Nat.mul_one, hdvd, hhalf,
    ite_self, Nat.ne_of_lt hq, not_lt.2 hhi]

theorem ofNat_of_lt (n : Nat) (hn : 0 < n) (h : n < 2 ^ 53) :
    ofNat n = fin false (n * 2 ^ (53 - bitLen n)) ((bitLen n : Int) - 53) := by
  have hB : bitLen n ≤ 53 := by
    by_contra hc
    have h1 := two_pow_bitLen_le n hn
    have : 2 ^ 53 ≤ 2 ^ (bitLen n - 1) := Nat.pow_le_pow_right (by norm_num) (by omega)
    omega
  have hpos := bitLen_pos n hn
  rw [ofNat, round_of_short false n 0 (by omega) hB (by omega) (by omega)]
  congr 1; omega

set_option maxRecDepth 100000 in
theorem ofNat_zero_add_one : add (ofNat 0) one = ofNat 1 := by rfl

set_option maxRecDepth 100000 in
theorem mul_one_one : mul one one = one := by rfl

/-- Adding `1.0` to a small integer is exact. -/
theorem ofNat_add_one (n : Nat) (h : n + 1 < 2 ^ 53) :
    add (ofNat n) one = ofNat (n + 1) := by
  rcases Nat.eq_zero_or_pos n with h0 | hn
  · subst h0; exact ofNat_zero_add_one
  have hL := bitLen_pos n hn
  have hL53 : bitLen n ≤ 53 := by
    by_contra hc
    have h1 := two_pow_bitLen_le n hn
    have : 2 ^ 53 ≤ 2 ^ (bitLen n - 1) := Nat.pow_le_pow_right (by norm_num) (by omega)
    omega
  have hL' := bitLen_pos (n + 1) (by omega)
  have hL'53 : bitLen (n + 1) ≤ 53 := by
    by_contra hc
    have h1 := two_pow_bitLen_le (n + 1) (by omega)
    have : 2 ^ 53 ≤ 2 ^ (bitLen (n + 1) - 1) := Nat.pow_le_pow_right (by norm_num) (by omega)
    omega
  rw [ofNat_of_lt n hn (by omega), ofNat_of_lt (n + 1) (by omega) h]
  have hmin : min ((bitLen n : Int) - 53) (-52) = -52 := by omega
  have hs1 : signed false (n * 2 ^ (53 - bitLen n)) ((bitLen n : Int) - 53 - -52) =
      ((n * 2 ^ 52 : Nat) : Int) := by
    have hk : ((bitLen n : Int) - 53 - -52).toNat = bitLen n - 1 := by omega
    simp only [signed, Bool.false_eq_true, if_false, hk]
    rw [Nat.mul_assoc, ← pow_add]
    congr 3; omega
  have hs2 : signed false (2 ^ 52) (-52 - -52) = ((2 ^ 52 : Nat) : Int) := by
    simp [signed]
  have hc : ((n * 2 ^ 52 : Nat) : Int) + ((2 ^ 52 : Nat) : Int) =
      (((n + 1) * 2 ^ 52 : Nat) : Int) := by
    push_cast; ring
  have hpos : 0 < (n + 1) * 2 ^ 52 := Nat.mul_pos (by omega) (Nat.pow_pos (by norm_num))
  have hne : (((n + 1) * 2 ^ 52 : Nat) : Int) ≠ 0 := by exact_mod_cast hpos.ne'
  have hnl : ¬ ((((n + 1) * 2 ^ 52 : Nat) : Int) < 0) := by
    have : (0 : Int) ≤ (((n + 1) * 2 ^ 52 : Nat) : Int) := Int.ofNat_nonneg _
    omega
  have hB : bitLen ((n + 1) * 2 ^ 52) = bitLen (n + 1) + 52 := by
    apply bitLen_eq
    · have h1 := two_pow_bitLen_le (n + 1) (by omega)
      have h2 : bitLen (n + 1) + 52 - 1 = (bitLen (n + 1) - 1) + 52 := by omega
      rw [h2, pow_add]
      exact Nat.mul_le_mul_right _ h1
    · rw [pow_add]
      exact Nat.mul_lt_mul_of_pos_right (lt_two_pow_bitLen (n + 1)) (Nat.pow_pos (by norm_num))
    · omega
  have hsplit : (n + 1) * 2 ^ 52 =
      (n + 1) * 2 ^ (53 - bitLen (n + 1)) * 2 ^ (bitLen (n + 1) + 52 - 53) := by
    rw [Nat.mul_assoc, ← pow_add]
    congr 2; omega
  have hr := round_of_long false ((n + 1) * 2 ^ 52) (-52) (bitLen (n + 1) + 52) hB (by omega)
    (by rw [hsplit]; exact Nat.mul_mod_left _ _) (by push_cast; omega) (by push_cast; omega)
  have hdiv : (n + 1) * 2 ^ 52 / 2 ^ (bitLen (n + 1) + 52 - 53) =
      (n + 1) * 2 ^ (53 - bitLen (n + 1)) := by
    rw [hsplit]
    exact Nat.mul_div_cancel _ (Nat.pow_pos (by norm_num))
  simp only [add, one, hmin, hs1, hs2, hc, hne, if_false, hnl, decide_False, Int.natAbs_ofNat,
    hr, hdiv]
  congr 1
  push_cast; omega

end Double

/-! ## The sum of 5632 ones -/

theorem simLoop_ones (n : Nat) (hn : n ≤ NUMBER_OF_ELEMENTS_PER_VECTOR) :
    simLoop ieee onesVector onesVector n = ⟨Double.ofNat n, Double.ofNat n, Double.ofNat n⟩ := by
  induction n with
  | zero => rfl
  | succ n ih =>
    have hn' : n < NUMBER_OF_ELEMENTS_PER_VECTOR := hn
    have h5632 : NUMBER_OF_ELEMENTS_PER_VECTOR = 5632 := elements_eq
    have hg : onesVector.getD n Double.zero = Double.one := by
      rw [onesVector, vec_getD, if_pos hn']
    rw [simLoop_succ, ih (by omega)]
    simp only [simStep, hg, Double.mul_one_one, Double.ofNat_add_one n (by omega)]

set_option maxRecDepth 100000 in
theorem ofNat_5632 : Double.ofNat NUMBER_OF_ELEMENTS_PER_VECTOR =
    Double.fin false (5632 * 2 ^ 40) (-40) := by rw [elements_eq]; rfl

set_option maxRecDepth 100000 in
theorem sqrt_5632 : Double.sqrt (Double.fin false (5632 * 2 ^ 40) (-40)) =
    Double.fin false 5280938667038375 (-46) := by rfl

set_option maxRecDepth 100000 in
theorem sqrt_5632_sq : Double.mul (Double.fin false 5280938667038375 (-46))
    (Double.fin false 5280938667038375 (-46)) = Double.fin false (5632 * 2 ^ 40) (-40) := by rfl

set_option maxRecDepth 100000 in
theorem div_5632_self : Double.div (Double.fin false (5632 * 2 ^ 40) (-40))
    (Double.fin false (5632 * 2 ^ 40) (-40)) = Double.one := by rfl

theorem div_ofNat_5632 :
    Double.div (Double.ofNat NUMBER_OF_ELEMENTS_PER_VECTOR)
      (Double.mul (Double.sqrt (Double.ofNat NUMBER_OF_ELEMENTS_PER_VECTOR))
        (Double.sqrt (Double.ofNat NUMBER_OF_ELEMENTS_PER_VECTOR))) = Double.one := by
  rw [ofNat_5632, sqrt_5632, sqrt_5632_sq, div_5632_self]

theorem computeSimilarity_ones :
    computeSimilarity ieee onesVector onesVector = Double.one := by
  rw [computeSimilarity_ieee onesVector onesVector _
    (simLoop_ones NUMBER_OF_ELEMENTS_PER_VECTOR (Nat.le_refl _))]
  exact div_ofNat_5632

/-! ## Facts about the concrete inputs -/

theorem computeSimilarity_nil_template (q : List Double) :
    computeSimilarity ieee q [] = Double.nan :=
  computeSimilarity_zero_template q [] (by simp)

theorem constTemplate_length (row : List Double) :
    (constTemplate row).length = NUMBER_OF_VECTORS_PER_TEMPLATE := by
  simp [constTemplate]

theorem constTemplate_rows (row : List Double)
    (h : row.length = NUMBER_OF_ELEMENTS_PER_VECTOR) :
    ∀ r ∈ constTemplate row, r.length = NUMBER_OF_ELEMENTS_PER_VECTOR := by
  intro r hr
  simp only [constTemplate, List.mem_map] at hr
  obtain ⟨_, _, rfl⟩ := hr
  exact h

theorem computeSimilarity_comm (a b : List Double) :
    computeSimilarity ieee a b = computeSimilarity ieee b a := by
  rw [computeSimilarity_ieee a b _ rfl,
    computeSimilarity_ieee b a _ (simLoop_swap a b NUMBER_OF_ELEMENTS_PER_VECTOR)]
  exact congrArg _ (Double.mul_comm' _ _)

/-! ## The order of `std::string` -/

theorem str_cons_lt_cons (a b : Nat) (s t : Str) :
    (a :: s : Str) < b :: t ↔ a < b ∨ (a = b ∧ s < t) := by
  show List.Lex (fun x y => x < y) _ _ ↔ _ ∨ (_ ∧ List.Lex (fun x y => x < y) _ _)
  constructor
  · intro h
    cases h with
    | cons h => exact Or.inr ⟨rfl, h⟩
    | rel h => exact Or.inl h
  · rintro (h | ⟨rfl, h⟩)
    · exact List.Lex.rel h
    · exact List.Lex.cons h

theorem str_nil_lt_cons (b : Nat) (t : Str) : ([] : Str) < b :: t := by
  show List.Lex (fun x y => x < y) _ _
  exact List.Lex.nil

theorem str_not_lt_nil (s : Str) : ¬ s < ([] : Str) := by
  show ¬ List.Lex (fun x y => x < y) _ _
  exact List.Lex.not_nil_right _ _

theorem str_le_iff (s t : Str) : s ≤ t ↔ s = t ∨ s < t := le_iff_eq_or_lt

/-! ## Swapping two elements -/

theorem swapList_length {α : Type} (data : List α) (i j : Nat) :
    (swapList data i j).length = data.length := by
  unfold swapList
  split <;> simp

theorem swapList_getElem? {α : Type} (data : List α) (i j k : Nat) (hi : i < data.length)
    (hj : j < data.length) :
    (swapList data i j)[k]? =
      if k = j then data[i]? else if k = i then data[j]? else data[k]? := by
  have h1 : data[i]? = some data[i] := List.getElem?_eq_getElem hi
  have h2 : data[j]? = some data[j] := List.getElem?_eq_getElem hj
  unfold swapList
  rw [h1, h2]
  simp only [List.getElem?_set, List.length_set]
  by_cases hkj : k = j
  · subst hkj; simp [hj]
  · by_cases hki : k = i
    · subst hki; simp [hkj, hi, Ne.symm hkj]
    · simp [hkj, hki, Ne.symm hkj, Ne.symm hki]

theorem set_cons_perm {α : Type} (t : List α) (j : Nat) (b h : α) (hb : t[j]? = some b) :
    (b :: t.set j h).Perm (h :: t) := by
  induction t generalizing j with
  | nil => simp at hb
  | cons c t ih =>
    cases j with
    | zero =>
      simp only [List.getElem?_cons_zero, Option.some.injEq] at hb
      subst hb
      exact List.Perm.swap _ _ _
    | succ j =>
      simp only [List.getElem?_cons_succ] at hb
      simp only [List.set_cons_succ]
      exact ((List.Perm.swap c b _).trans ((ih j hb).cons c)).trans (List.Perm.swap h c t)

theorem swapList_perm {α : Type} (data : List α) (i j : Nat) :
    (swapList data i j).Perm data := by
  unfold swapList
  split
  · rename_i a b ha hb
    induction data generalizing i j with
    | nil => simp at ha
    | cons h t ih =>
      cases i with
      | zero =>
        simp only [List.getElem?_cons_zero, Option.some.injEq] at ha
        subst ha
        cases j with
        | zero =>
          simp only [List.getElem?_cons_zero, Option.some.injEq] at hb
          subst hb
          simp
        | succ j =>
          simp only [List.getElem?_cons_succ] at hb
          simp only [List.set_cons_zero, List.set_cons_succ]
          exact set_cons_perm t j b _ hb
      | succ i =>
        simp only [List.getElem?_cons_succ] at ha
        cases j with
        | zero =>
          simp only [List.getElem?_cons_zero, Option.some.injEq] at hb
          subst hb
          simp only [List.set_cons_zero, List.set_cons_succ]
          exact set_cons_perm t i a _ ha
        | succ j =>
          simp only [List.getElem?_cons_succ] at hb
          simp only [List.set_cons_succ]
          exact (ih i j ha hb).cons h
  · exact List.Perm.refl _

theorem swapList_self {α : Type} (data : List α) (i : Nat) : swapList data i i = data := by
  unfold swapList
  split
  · rename_i a b ha hb
    rw [ha] at hb
    cases hb
    apply List.ext_getElem?
    intro k
    simp only [List.getElem?_set, List.length_set]
    by_cases hk : i = k
    · subst hk
      have : i < data.length := by
        by_contra hc
        rw [List.getElem?_eq_none (by omega)] at ha
        cases ha
      simp [this, ha]
    · simp [hk]
  · rfl

/-! ## The partition loop -/

theorem within_swap {α : Type} (P : α → Prop) (data : List α) (left right i j : Nat)
    (hi : left ≤ i ∧ i < right) (hj : left ≤ j ∧ j < right) (hr : right ≤ data.length)
    (h : Within P data left right) : Within P (swapList data i j) left right := by
  intro k x hk1 hk2 hx
  rw [swapList_getElem? data i j k (by omega) (by omega)] at hx
  split at hx
  · exact h i x hi.1 hi.2 hx
  · split at hx
    · exact h j x hj.1 hj.2 hx
    · exact h k x hk1 hk2 hx

theorem frame_swap {α : Type} (data : List α) (left right i j : Nat)
    (hi : left ≤ i ∧ i < right) (hj : left ≤ j ∧ j < right) (hr : right ≤ data.length) :
    Frame data (swapList data i j) left right := by
  refine ⟨swapList_length _ _ _, fun k hk => ?_⟩
  rw [swapList_getElem? data i j k (by omega) (by omega), if_neg (by omega), if_neg (by omega)]

theorem frame_trans {α : Type} (a b c : List α) (left right : Nat)
    (h1 : Frame a b left right) (h2 : Frame b c left right) : Frame a c left right :=
  ⟨h2.1.trans h1.1, fun k hk => (h2.2 k hk).trans (h1.2 k hk)⟩

theorem frame_refl {α : Type} (a : List α) (left right : Nat) : Frame a a left right :=
  ⟨rfl, fun _ _ => rfl⟩

theorem leAt_eq {α : Type} [LinearOrder α] (data : List α) (i j : Nat) (x p : α)
    (hx : data[i]? = some x) (hp : data[j]? = some p) : leAt data i j = decide (x ≤ p) := by
  unfold leAt
  rw [hx, hp]

theorem partitionStep_inv {α : Type} [LinearOrder α] (left right : Nat) (p : α)
    (data0 : List α) (tr0 : List Nat) (i : Nat) (s : Mem α × Nat)
    (hr : right ≤ data0.length) (hi : i < right)
    (h : PartInv left right p data0 tr0 i s) :
    PartInv left right p data0 tr0 (i + 1) (partitionStep left s i) := by
  have hlen : s.1.data.length = data0.length := h.frame.1
  have hlo := h.lo
  have hhi := h.hi
  have hix : s.1.data[i]? = some s.1.data[i] := List.getElem?_eq_getElem (by omega)
  have htl : s.1.data[s.2]? = some s.1.data[s.2] := List.getElem?_eq_getElem (by omega)
  have hle := leAt_eq s.1.data i left _ p hix h.pivotAt
  unfold partitionStep
  by_cases hc : s.1.data[i] ≤ p
  · rw [hle, if_pos (by simpa using hc)]
    show PartInv left right p data0 tr0 (i + 1)
      (⟨swapList s.1.data i s.2, s.2 :: i :: left :: i :: s.1.trace⟩, s.2 + 1)
    have hg : ∀ k, (swapList s.1.data i s.2)[k]? =
        if k = s.2 then s.1.data[i]? else if k = i then s.1.data[s.2]? else s.1.data[k]? :=
      fun k => swapList_getElem? s.1.data i s.2 k (by omega) (by omega)
    refine
      { frame := frame_trans _ _ _ _ _ h.frame
          (frame_swap s.1.data left right i s.2 ⟨by omega, hi⟩ ⟨by omega, by omega⟩ (by omega))
        perm := (swapList_perm _ _ _).trans h.perm
        pivotAt := ?_
        lo := by show left < s.2 + 1; omega
        hi := by show s.2 + 1 ≤ i + 1; omega
        small := ?_
        large := ?_
        keep := fun P hP => within_swap P _ left right i s.2 ⟨by omega, hi⟩ ⟨by omega, by omega⟩
          (by omega) (h.keep P hP)
        tr := ?_ }
    · show (swapList s.1.data i s.2)[left]? = some p
      rw [hg, if_neg (by omega), if_neg (by omega)]
      exact h.pivotAt
    · intro k x hk1 hk2 hx
      change (swapList s.1.data i s.2)[k]? = some x at hx
      change k < s.2 + 1 at hk2
      rw [hg] at hx
      split at hx
      · rw [hix] at hx; cases hx; exact hc
      · rw [if_neg (by omega)] at hx
        exact h.small k x hk1 (by omega) hx
    · intro k x hk1 hk2 hx
      change (swapList s.1.data i s.2)[k]? = some x at hx
      change s.2 + 1 ≤ k at hk1
      rw [hg, if_neg (by omega)] at hx
      split at hx
      · exact h.large s.2 x (le_refl _) (by omega) hx
      · exact h.large k x (by omega) (by omega) hx
    · intro t ht
      change t ∈ s.2 :: i :: left :: i :: s.1.trace at ht
      simp only [List.mem_cons] at ht
      rcases ht with rfl | rfl | rfl | rfl | ht
      · right; omega
      · right; omega
      · right; omega
      · right; omega
      · exact h.tr t ht
  · rw [hle, if_neg (by simpa using hc)]
    show PartInv left right p data0 tr0 (i + 1) (⟨s.1.data, left :: i :: s.1.trace⟩, s.2)
    refine
      { frame := h.frame
        perm := h.perm
        pivotAt := h.pivotAt
        lo := h.lo
        hi := by show s.2 ≤ i + 1; omega
        small := h.small
        large := ?_
        keep := h.keep
        tr := ?_ }
    · intro k x hk1 hk2 hx
      change s.1.data[k]? = some x at hx
      change s.2 ≤ k at hk1
      by_cases hki : k = i
      · subst hki; rw [hix] at hx; cases hx; exact lt_of_not_le hc
      · exact h.large k x hk1 (by omega) hx
    · intro t ht
      change t ∈ left :: i :: s.1.trace at ht
      simp only [List.mem_cons] at ht
      rcases ht with rfl | rfl | ht
      · right; omega
      · right; omega
      · exact h.tr t ht

theorem partitionLoop_inv {α : Type} [LinearOrder α] (left right : Nat) (p : α)
    (data0 : List α) (tr0 : List Nat) (n i : Nat) (s : Mem α × Nat)
    (hr : right ≤ data0.length) (hi : i + n = right)
    (h : PartInv left right p data0 tr0 i s) :
    PartInv left right p data0 tr0 right
      ((List.range' i n).foldl (partitionStep left) s) := by
  induction n generalizing i s with
  | zero =>
    have : i = right := by omega
    subst this
    exact h
  | succ n ih =>
    rw [List.range'_succ, List.foldl_cons]
    exact ih (i + 1) _ (by omega) (partitionStep_inv left right p data0 tr0 i s hr (by omega) h)

/-! ## `partition` and `quickSort` -/

theorem partition_spec {α : Type} [LinearOrder α] (m : Mem α) (left right : Nat)
    (hlt : left < right) (hr : right ≤ m.data.length) :
    PartSpec left right m (partition m left right) := by
  have hmid : left ≤ left + (right - left) / 2 ∧ left + (right - left) / 2 < right := by
    constructor
    · omega
    · have : (right - left) / 2 < right - left := Nat.div_lt_self (by omega) (by norm_num)
      omega
  obtain ⟨n, hn⟩ : ∃ n, right - left = n + 1 := ⟨right - left - 1, by omega⟩
  have hlen1 : (swapList m.data (left + (right - left) / 2) left).length = m.data.length :=
    swapList_length _ _ _
  have hp : (swapList m.data (left + (right - left) / 2) left)[left]? =
      some (swapList m.data (left + (right - left) / 2) left)[left] :=
    List.getElem?_eq_getElem (by omega)
  -- the state after the first iteration, at `i = left`
  have hinv1 : PartInv left right (swapList m.data (left + (right - left) / 2) left)[left]
      m.data m.trace (left + 1)
      (partitionStep left (m.swap (left + (right - left) / 2) left, left) left) := by
    have hstep : partitionStep left (m.swap (left + (right - left) / 2) left, left) left =
        (⟨swapList (swapList m.data (left + (right - left) / 2) left) left left,
          left :: left :: left :: left :: left :: (left + (right - left) / 2) :: m.trace⟩,
          left + 1) := by
      unfold partitionStep
      show (if leAt (swapList m.data (left + (right - left) / 2) left) left left = true
        then _ else _) = _
      rw [leAt_eq _ left left _ _ hp hp, if_pos (by simp)]
      rfl
    rw [hstep, swapList_self]
    refine
      { frame := frame_swap m.data left right _ left hmid ⟨le_refl _, hlt⟩ hr
        perm := swapList_perm _ _ _
        pivotAt := hp
        lo := Nat.lt_succ_self _
        hi := le_refl _
        small := ?_
        large := ?_
        keep := fun P hP => within_swap P _ left right _ left hmid ⟨le_refl _, hlt⟩ hr hP
        tr := ?_ }
    · intro k x hk1 hk2 hx
      have : k = left := by
        change k < left + 1 at hk2
        omega
      subst this
      change (swapList m.data (k + (right - k) / 2) k)[k]? = some x at hx
      rw [hp] at hx
      cases hx
      exact le_refl _
    · intro k x hk1 hk2 hx
      change left + 1 ≤ k at hk1
      omega
    · intro t ht
      change t ∈ left :: left :: left :: left :: left :: (left + (right - left) / 2) :: m.trace
        at ht
      simp only [List.mem_cons] at ht
      rcases ht with rfl | rfl | rfl | rfl | rfl | rfl | ht
      · right; omega
      · right; omega
      · right; omega
      · right; omega
      · right; omega
      · right; exact hmid
      · left; exact ht
  have hinv := partitionLoop_inv left right _ m.data m.trace n (left + 1) _ hr (by omega) hinv1
  have hfold : (List.range' left (right - left)).foldl (partitionStep left)
      (m.swap (left + (right - left) / 2) left, left) =
      (List.range' (left + 1) n).foldl (partitionStep left)
        (partitionStep left (m.swap (left + (right - left) / 2) left, left) left) := by
    rw [hn, List.range'_succ, List.foldl_cons]
  unfold partition
  simp only []
  rw [hfold]
  generalize (List.range' (left + 1) n).foldl (partitionStep left)
    (partitionStep left (m.swap (left + (right - left) / 2) left, left) left) = s at hinv
  have hslen : s.1.data.length = m.data.length := hinv.frame.1
  have hlo := hinv.lo
  have hhi := hinv.hi
  have hg : ∀ k, (swapList s.1.data left (s.2 - 1))[k]? =
      if k = s.2 - 1 then s.1.data[left]? else if k = left then s.1.data[s.2 - 1]?
        else s.1.data[k]? :=
    fun k => swapList_getElem? s.1.data left (s.2 - 1) k (by omega) (by omega)
  show PartSpec left right m
    (⟨swapList s.1.data left (s.2 - 1), (s.2 - 1) :: left :: s.1.trace⟩, s.2 - 1)
  refine
    { pivot_ge := by show left ≤ s.2 - 1; omega
      pivot_lt := by show s.2 - 1 < right; omega
      frame := frame_trans _ _ _ _ _ hinv.frame
        (frame_swap s.1.data left right left (s.2 - 1) ⟨le_refl _, hlt⟩
          ⟨by omega, by omega⟩ (by omega))
      perm := (swapList_perm _ _ _).trans hinv.perm
      keep := fun P hP => within_swap P _ left right left (s.2 - 1) ⟨le_refl _, hlt⟩
        ⟨by omega, by omega⟩ (by omega) (hinv.keep P hP)
      tr := ?_
      split := ?_ }
  · intro t ht
    change t ∈ (s.2 - 1) :: left :: s.1.trace at ht
    simp only [List.mem_cons] at ht
    rcases ht with rfl | rfl | ht
    · right; omega
    · right; omega
    · exact hinv.tr t ht
  refine ⟨(swapList m.data (left + (right - left) / 2) left)[left], ?_, ?_, ?_⟩
  · show (swapList s.1.data left (s.2 - 1))[s.2 - 1]? = some _
    rw [hg, if_pos rfl]
    exact hinv.pivotAt
  · intro k x hk1 hk2 hx
    change (swapList s.1.data left (s.2 - 1))[k]? = some x at hx
    change k < s.2 - 1 at hk2
    rw [hg, if_neg (by omega)] at hx
    split at hx
    · exact hinv.small (s.2 - 1) x (by omega) (by omega) hx
    · exact hinv.small k x hk1 (by omega) hx
  · intro k x hk1 hk2 hx
    change (swapList s.1.data left (s.2 - 1))[k]? = some x at hx
    change s.2 - 1 + 1 ≤ k at hk1
    rw [hg, if_neg (by omega), if_neg (by omega)] at hx
    exact hinv.large k x (by omega) hk2 hx

theorem within_mono {α : Type} (P : α → Prop) (data : List α) (l r l1 r1 : Nat)
    (hl : l ≤ l1) (hr : r1 ≤ r) (h : Within P data l r) : Within P data l1 r1 :=
  fun k x hk1 hk2 hx => h k x (by omega) (by omega) hx

theorem within_sub {α : Type} (P : α → Prop) (a b : List α) (l r l1 r1 : Nat)
    (hf : Frame a b l1 r1)
    (hk : ∀ Q : α → Prop, Within Q a l1 r1 → Within Q b l1 r1)
    (hl : l ≤ l1) (hr : r1 ≤ r) (h : Within P a l r) : Within P b l r := by
  intro k x hk1 hk2 hx
  by_cases hin : l1 ≤ k ∧ k < r1
  · exact hk P (within_mono P a l r l1 r1 hl hr h) k x hin.1 hin.2 hx
  · rw [hf.2 k (by omega)] at hx
    exact h k x hk1 hk2 hx

theorem frame_mono {α : Type} (a b : List α) (l r l1 r1 : Nat) (hl : l ≤ l1) (hr : r1 ≤ r)
    (h : Frame a b l1 r1) : Frame a b l r :=
  ⟨h.1, fun k hk => h.2 k (by omega)⟩

theorem quickSortAux_spec {α : Type} [LinearOrder α] (fuel : Nat) (m : Mem α)
    (left right : Nat) (hr : right ≤ m.data.length) (hf : right - left < fuel) :
    ∃ m1, quickSortAux fuel m left right = some m1 ∧ SortSpec left right m m1 := by
  induction fuel generalizing m left right with
  | zero => omega
  | succ fuel ih =>
    unfold quickSortAux
    by_cases hge : left ≥ right
    · rw [if_pos hge]
      refine ⟨m, rfl, ?_⟩
      exact
        { frame := frame_refl _ _ _
          perm := List.Perm.refl _
          keep := fun _ h => h
          tr := fun t ht => Or.inl ht
          sorted := fun i j x y h1 h2 h3 _ _ => by omega }
    · rw [if_neg hge]
      have hlt : left < right := by omega
      have ps := partition_spec m left right hlt hr
      generalize partition m left right = r at ps
      obtain ⟨m', pv⟩ := r
      have hpg : left ≤ pv := ps.pivot_ge
      have hpl : pv < right := ps.pivot_lt
      have hf0 : Frame m.data m'.data left right := ps.frame
      obtain ⟨m2, h2, S1⟩ := ih m' left pv (by rw [hf0.1]; omega) (by omega)
      obtain ⟨m3, h3, S2⟩ := ih m2 (pv + 1) right (by rw [S1.frame.1, hf0.1]; exact hr) (by omega)
      refine ⟨m3, ?_, ?_⟩
      · show (match quickSortAux fuel m' left pv with
          | none => none
          | some m1 => quickSortAux fuel m1 (pv + 1) right) = some m3
        rw [h2]
        exact h3
      · obtain ⟨p, hpv, hsmall, hlarge⟩ := ps.split
        change m'.data[pv]? = some p at hpv
        change Within (fun x => x ≤ p) m'.data left pv at hsmall
        change Within (fun x => p < x) m'.data (pv + 1) right at hlarge
        have hsmall3 : Within (fun x => x ≤ p) m3.data left pv := by
          intro k x hk1 hk2 hx
          rw [S2.frame.2 k (by omega)] at hx
          exact S1.keep _ hsmall k x hk1 hk2 hx
        have hlarge3 : Within (fun x => p < x) m3.data (pv + 1) right := by
          apply S2.keep
          intro k x hk1 hk2 hx
          rw [S1.frame.2 k (by omega)] at hx
          exact hlarge k x hk1 hk2 hx
        have hpv3 : m3.data[pv]? = some p := by
          rw [S2.frame.2 pv (by omega), S1.frame.2 pv (by omega)]
          exact hpv
        refine
          { frame := frame_trans _ _ _ _ _ hf0 (frame_trans _ _ _ _ _
              (frame_mono _ _ left right left pv (le_refl _) (by omega) S1.frame)
              (frame_mono _ _ left right (pv + 1) right (by omega) (le_refl _) S2.frame))
            perm := (S2.perm.trans S1.perm).trans ps.perm
            keep := fun P hP =>
              within_sub P m2.data m3.data left right (pv + 1) right S2.frame S2.keep
                (by omega) (le_refl _)
                (within_sub P m'.data m2.data left right left pv S1.frame S1.keep
                  (le_refl _) (by omega) (ps.keep P hP))
            tr := ?_
            sorted := ?_ }
        · intro t ht
          rcases S2.tr t ht with h | h
          · rcases S1.tr t h with h | h
            · rcases ps.tr t h with h | h
              · exact Or.inl h
              · exact Or.inr h
            · right; omega
          · right; omega
        · intro i j x y hi hij hj hx hy
          rcases Nat.lt_trichotomy j pv with hjp | hjp | hjp
          · -- both before the pivot
            rw [S2.frame.2 i (by omega)] at hx
            rw [S2.frame.2 j (by omega)] at hy
            exact S1.sorted i j x y hi hij hjp hx hy
          · subst hjp
            rw [hpv3] at hy
            cases hy
            rcases Nat.lt_or_ge i j with hip | hip
            · exact hsmall3 i x hi hip hx
            · have : i = j := by omega
              subst this
              rw [hpv3] at hx
              cases hx
              exact le_refl _
          · have hy' := hlarge3 j y (by omega) hj hy
            rcases Nat.lt_trichotomy i pv with hip | hip | hip
            · exact le_of_lt (lt_of_le_of_lt (hsmall3 i x hi hip hx) hy')
            · subst hip
              rw [hpv3] at hx
              cases hx
              exact le_of_lt hy'
            · exact S2.sorted i j x y (by omega) hij hj hx hy

theorem quickSort_spec {α : Type} [LinearOrder α] (data : List α) (left right : Nat)
    (hr : right ≤ data.length) :
    ∃ m1, quickSort data left right = some m1 ∧ SortSpec left right ⟨data, []⟩ m1 :=
  quickSortAux_spec (right - left + 1) ⟨data, []⟩ left right hr (Nat.lt_succ_self _)

theorem sorted_of_sortedOn {α : Type} [LinearOrder α] (data : List α)
    (h : SortedOn data 0 data.length) : List.Sorted (fun a b => a ≤ b) data := by
  rw [List.Sorted, List.pairwise_iff_getElem]
  intro i j hi hj hij
  exact h i j _ _ (Nat.zero_le _) (le_of_lt hij) hj (List.getElem?_eq_getElem hi)
    (List.getElem?_eq_getElem hj)

/-! ## `string::find` and the classification of a file -/

theorem find_isSome_iff (s pat : Str) : (find s pat).isSome = true ↔ pat <:+: s := by
  induction s with
  | nil =>
    unfold find
    by_cases h : pat.isPrefixOf [] = true
    · rw [if_pos h]
      exact ⟨fun _ => (List.isPrefixOf_iff_prefix.1 h).isInfix, fun _ => rfl⟩
    · rw [if_neg h]
      refine ⟨fun h0 => absurd h0 (by simp), fun h0 => ?_⟩
      rw [List.infix_nil] at h0
      subst h0
      exact absurd rfl h
  | cons c s ih =>
    unfold find
    by_cases h : pat.isPrefixOf (c :: s) = true
    · rw [if_pos h]
      exact ⟨fun _ => (List.isPrefixOf_iff_prefix.1 h).isInfix, fun _ => rfl⟩
    · rw [if_neg h, Option.isSome_map', ih, List.infix_cons_iff]
      constructor
      · exact fun h0 => Or.inr h0
      · rintro (h0 | h0)
        · exact absurd (List.isPrefixOf_iff_prefix.2 h0) h
        · exact h0

theorem template_infix_data (name : Str) :
    str TEMPLATE_NAME <:+: str "data/" ++ name ↔ str TEMPLATE_NAME <:+: name := by
  have e1 : str TEMPLATE_NAME = [116, 101, 109, 112, 108, 97, 116, 101] := by decide
  have e2 : str "data/" = [100, 97, 116, 97, 47] := by decide
  rw [e1, e2]
  simp only [List.cons_append, List.nil_append, List.infix_cons_iff, List.cons_prefix_cons]
  constructor
  · rintro (h | h | h | h | h | h)
    · exact absurd h.1 (by decide)
    · exact absurd h.1 (by decide)
    · exact absurd h.2.1 (by decide)
    · exact absurd h.1 (by decide)
    · exact absurd h.1 (by decide)
    · exact h
  · intro h
    exact Or.inr (Or.inr (Or.inr (Or.inr (Or.inr h))))

theorem loadFile_template {T Q : Type} (fs : Files T Q) (s : Store T Q) (name : Str)
    (ho : fs.isOpen (str "data/" ++ name) = true) (ht : str TEMPLATE_NAME <:+: name) :
    loadFile fs s name =
      (setAt s.template_set s.templateCounter (fs.template_image_set (str "data/" ++ name))).map
        (fun v => { s with template_set := v, templateCounter := s.templateCounter + 1 }) := by
  unfold loadFile
  rw [if_pos ho, if_pos ((find_isSome_iff _ _).2 ((template_infix_data name).2 ht))]

theorem loadFile_query {T Q : Type} (fs : Files T Q) (s : Store T Q) (name : Str)
    (ho : fs.isOpen (str "data/" ++ name) = true) (ht : ¬ str TEMPLATE_NAME <:+: name) :
    loadFile fs s name =
      (setAt s.query_set s.queryCounter (fs.query_image (str "data/" ++ name))).map
        (fun v => { s with query_set := v, queryCounter := s.queryCounter + 1 }) := by
  unfold loadFile
  rw [if_pos ho, if_neg]
  intro h
  exact ht ((template_infix_data name).1 ((find_isSome_iff _ _).1 h))

theorem loadFile_closed {T Q : Type} (fs : Files T Q) (s : Store T Q) (name : Str)
    (ho : fs.isOpen (str "data/" ++ name) = false) : loadFile fs s name = some s := by
  unfold loadFile
  rw [if_neg (by rw [ho]; decide)]

theorem quickSort_eq_of_sorted (data sorted : List Str) (hp : data.Perm sorted)
    (hs : sorted.Sorted (fun a b => a ≤ b)) :
    ∃ m, quickSort data 0 data.length = some m ∧ m.data = sorted := by
  obtain ⟨m, hm, spec⟩ := quickSort_spec data 0 data.length (le_refl _)
  have hlen : m.data.length = data.length := spec.frame.1
  have hsorted : SortedOn m.data 0 m.data.length := by
    rw [hlen]
    exact spec.sorted
  exact ⟨m, hm, List.eq_of_perm_of_sorted (spec.perm.trans hp)
    (sorted_of_sortedOn m.data hsorted) hs⟩

/-! ## The loop of `readFile` -/

theorem foldlM_loadFile {T Q : Type} (fs : Files T Q) (l : List Str) (s : Store T Q)
    (ho : ∀ f ∈ l, fs.isOpen (str "data/" ++ f) = true)
    (hT : s.templateCounter + (l.filter isTemplate).length ≤ s.template_set.length)
    (hQ : s.queryCounter + (l.filter (fun f => !isTemplate f)).length ≤ s.query_set.length) :
    ∃ s1, l.foldlM (loadFile fs) s = some s1 ∧
      s1.template_set.length = s.template_set.length ∧
      s1.query_set.length = s.query_set.length ∧
      (∀ k, k < s.templateCounter → s1.template_set[k]? = s.template_set[k]?) ∧
      (∀ k, k < s.queryCounter → s1.query_set[k]? = s.query_set[k]?) ∧
      (∀ k f, (l.filter isTemplate)[k]? = some f →
        s1.template_set[s.templateCounter + k]? =
          some (fs.template_image_set (str "data/" ++ f))) ∧
      (∀ k f, (l.filter (fun f => !isTemplate f))[k]? = some f →
        s1.query_set[s.queryCounter + k]? = some (fs.query_image (str "data/" ++ f))) := by
  induction l generalizing s with
  | nil =>
    refine ⟨s, rfl, rfl, rfl, fun _ _ => rfl, fun _ _ => rfl, ?_, ?_⟩
    · intro k f h
      simp at h
    · intro k f h
      simp at h
  | cons f l ih =>
    have hof := ho f (List.mem_cons_self _ _)
    have hol : ∀ g ∈ l, fs.isOpen (str "data/" ++ g) = true :=
      fun g hg => ho g (List.mem_cons_of_mem _ hg)
    by_cases ht : str TEMPLATE_NAME <:+: f
    · have hit : isTemplate f = true := decide_eq_true ht
      have e1 : (f :: l).filter isTemplate = f :: l.filter isTemplate :=
        List.filter_cons_of_pos hit
      have e2 : (f :: l).filter (fun f => !isTemplate f) =
          l.filter (fun f => !isTemplate f) :=
        List.filter_cons_of_neg (by simp [hit])
      rw [e1] at hT ⊢
      rw [e2] at hQ ⊢
      rw [List.length_cons] at hT
      have hlt : s.templateCounter < s.template_set.length := by omega
      have hload : loadFile fs s f = some
          ⟨s.template_set.set s.templateCounter (fs.template_image_set (str "data/" ++ f)),
            s.query_set, s.templateCounter + 1, s.queryCounter⟩ := by
        rw [loadFile_template fs s f hof ht, setAt, if_pos hlt]
        rfl
      obtain ⟨s1, h1, hl1, hl2, hk1, hk2, hv1, hv2⟩ := ih
        ⟨s.template_set.set s.templateCounter (fs.template_image_set (str "data/" ++ f)),
          s.query_set, s.templateCounter + 1, s.queryCounter⟩ hol
        (by
          show s.templateCounter + 1 + (l.filter isTemplate).length ≤
            (s.template_set.set s.templateCounter _).length
          rw [List.length_set]
          omega)
        hQ
      change s1.template_set.length = (s.template_set.set s.templateCounter _).length at hl1
      change s1.query_set.length = s.query_set.length at hl2
      change ∀ k, k < s.templateCounter + 1 → s1.template_set[k]? =
        (s.template_set.set s.templateCounter _)[k]? at hk1
      change ∀ k, k < s.queryCounter → s1.query_set[k]? = s.query_set[k]? at hk2
      change ∀ k g, (l.filter isTemplate)[k]? = some g →
        s1.template_set[s.templateCounter + 1 + k]? = _ at hv1
      change ∀ k g, (l.filter (fun f => !isTemplate f))[k]? = some g →
        s1.query_set[s.queryCounter + k]? = _ at hv2
      refine ⟨s1, ?_, ?_, hl2, ?_, hk2, ?_, hv2⟩
      · rw [List.foldlM_cons, hload]
        exact h1
      · rw [hl1]
        exact List.length_set _ _ _
      · intro k hk
        rw [hk1 k (by omega)]
        exact List.getElem?_set_ne (by omega)
      · intro k g hg
        cases k with
        | zero =>
          rw [List.getElem?_cons_zero] at hg
          cases hg
          rw [Nat.add_zero, hk1 s.templateCounter (by omega)]
          exact List.getElem?_set_self hlt
        | succ k =>
          rw [List.getElem?_cons_succ] at hg
          have := hv1 k g hg
          rw [show s.templateCounter + (k + 1) = s.templateCounter + 1 + k by omega]
          exact this
    · have hit : isTemplate f = false := decide_eq_false ht
      have e1 : (f :: l).filter isTemplate = l.filter isTemplate :=
        List.filter_cons_of_neg (by simp [hit])
      have e2 : (f :: l).filter (fun f => !isTemplate f) =
          f :: l.filter (fun f => !isTemplate f) :=
        List.filter_cons_of_pos (by simp [hit])
      rw [e1] at hT ⊢
      rw [e2] at hQ ⊢
      rw [List.length_cons] at hQ
      have hlt : s.queryCounter < s.query_set.length := by omega
      have hload : loadFile fs s f = some
          ⟨s.template_set, s.query_set.set s.queryCounter (fs.query_image (str "data/" ++ f)),
            s.templateCounter, s.queryCounter + 1⟩ := by
        rw [loadFile_query fs s f hof ht, setAt, if_pos hlt]
        rfl
      obtain ⟨s1, h1, hl1, hl2, hk1, hk2, hv1, hv2⟩ := ih
        ⟨s.template_set, s.query_set.set s.queryCounter (fs.query_image (str "data/" ++ f)),
          s.templateCounter, s.queryCounter + 1⟩ hol
        hT
        (by
          show s.queryCounter + 1 + (l.filter (fun f => !isTemplate f)).length ≤
            (s.query_set.set s.queryCounter _).length
          rw [List.length_set]
          omega)
      change s1.template_set.length = s.template_set.length at hl1
      change s1.query_set.length = (s.query_set.set s.queryCounter _).length at hl2
      change ∀ k, k < s.templateCounter → s1.template_set[k]? = s.template_set[k]? at hk1
      change ∀ k, k < s.queryCounter + 1 → s1.query_set[k]? =
        (s.query_set.set s.queryCounter _)[k]? at hk2
      change ∀ k g, (l.filter isTemplate)[k]? = some g →
        s1.template_set[s.templateCounter + k]? = _ at hv1
      change ∀ k g, (l.filter (fun f => !isTemplate f))[k]? = some g →
        s1.query_set[s.queryCounter + 1 + k]? = _ at hv2
      refine ⟨s1, ?_, hl1, ?_, hk1, ?_, hv1, ?_⟩
      · rw [List.foldlM_cons, hload]
        exact h1
      · rw [hl2]
        exact List.length_set _ _ _
      · intro k hk
        rw [hk2 k (by omega)]
        exact List.getElem?_set_ne (by omega)
      · intro k g hg
        cases k with
        | zero =>
          rw [List.getElem?_cons_zero] at hg
          cases hg
          rw [Nat.add_zero, hk2 s.queryCounter (by omega)]
          exact List.getElem?_set_self hlt
        | succ k =>
          rw [List.getElem?_cons_succ] at hg
          have := hv2 k g hg
          rw [show s.queryCounter + (k + 1) = s.queryCounter + 1 + k by omega]
          exact this

/-! ## The sorted directory -/

theorem loadedNames_sorted (dir files : List Str)
    (hdir : dir.Perm (str "." :: str ".." :: files)) (hgt : ∀ f ∈ files, str ".." < f) :
    ∃ L, loadedNames dir = some L ∧ L.Sorted (fun a b => a ≤ b) ∧ L.Perm files := by
  have hp := List.perm_insertionSort (fun a b : Str => a ≤ b) files
  have hs := List.sorted_insertionSort (fun a b : Str => a ≤ b) files
  have hdots : str "." < str ".." := by decide
  have hcand : (str "." :: str ".." :: files.insertionSort (fun a b => a ≤ b)).Sorted
      (fun a b => a ≤ b) := by
    refine List.sorted_cons.2 ⟨?_, List.sorted_cons.2 ⟨?_, hs⟩⟩
    · intro b hb
      rcases List.mem_cons.1 hb with rfl | hb
      · exact le_of_lt hdots
      · exact le_of_lt (lt_trans hdots (hgt b (hp.mem_iff.1 hb)))
    · intro b hb
      exact le_of_lt (hgt b (hp.mem_iff.1 hb))
  obtain ⟨m, hm, hd⟩ := quickSort_eq_of_sorted dir _
    (hdir.trans ((hp.symm.cons _).cons _)) hcand
  refine ⟨files.insertionSort (fun a b => a ≤ b), ?_, hs, hp⟩
  unfold loadedNames
  rw [hm, Option.map_some', hd]
  rfl

theorem prefix_of_not_mem (t x y : Str) (c : Nat) (hc : c ∉ t) (h : t <+: x ++ c :: y) :
    t <+: x := by
  rcases Nat.lt_or_ge x.length t.length with hl | hl
  · have h1 : x ++ [c] <+: x ++ c :: y := ⟨y, by simp⟩
    have h2 : x ++ [c] <+: t := List.prefix_of_prefix_length_le h1 h (by simp; omega)
    exact absurd (h2.subset (by simp)) hc
  · exact List.prefix_of_prefix_length_le h (List.prefix_append _ _) hl

theorem infix_of_not_mem (t x y : Str) (c : Nat) (hc : c ∉ t) (h : t <:+: x ++ c :: y) :
    t <:+: x ∨ t <:+: y := by
  induction x with
  | nil =>
    rw [List.nil_append, List.infix_cons_iff] at h
    rcases h with h | h
    · exact Or.inl (prefix_of_not_mem t [] y c hc h).isInfix
    · exact Or.inr h
  | cons a x ih =>
    rw [List.cons_append, List.infix_cons_iff] at h
    rcases h with h | h
    · exact Or.inl (prefix_of_not_mem t (a :: x) y c hc h).isInfix
    · rcases ih h with h | h
      · exact Or.inl (List.infix_cons h)
      · exact Or.inr h

theorem isTemplate_template (x : Str) : isTemplate (x ++ str "_template") = true := by
  refine decide_eq_true ⟨x ++ [95], [], ?_⟩
  have : str "_template" = 95 :: str TEMPLATE_NAME := by decide
  rw [this]
  simp

theorem isTemplate_query (x q : Str) (hx : ¬ str TEMPLATE_NAME <:+: x)
    (hq : ¬ str TEMPLATE_NAME <:+: q) : isTemplate (x ++ 95 :: q) = false := by
  refine decide_eq_false ?_
  intro h
  rcases infix_of_not_mem _ x q 95 (by decide) h with h | h
  · exact hx h
  · exact hq h

theorem subjectFiles_filter_template (ids : List Str)
    (hT : ∀ x ∈ ids, ¬ str TEMPLATE_NAME <:+: x) :
    (subjectFiles ids).filter isTemplate = templateFiles ids := by
  induction ids with
  | nil => rfl
  | cons x xs ih =>
    have hx := hT x (List.mem_cons_self _ _)
    have h1 : isTemplate (x ++ str "_AU01_query") = false :=
      isTemplate_query x (str "AU01_query") hx (by decide)
    have h2 : isTemplate (x ++ str "_AU12_query") = false :=
      isTemplate_query x (str "AU12_query") hx (by decide)
    have h3 : isTemplate (x ++ str "_AU17_query") = false :=
      isTemplate_query x (str "AU17_query") hx (by decide)
    have h4 := isTemplate_template x
    simp only [subjectFiles, List.filter_cons, h1, h2, h3, h4, if_true, Bool.false_eq_true,
      if_false, templateFiles, List.map_cons]
    exact congrArg _ (ih (fun y hy => hT y (List.mem_cons_of_mem _ hy)))

theorem subjectFiles_filter_query (ids : List Str)
    (hT : ∀ x ∈ ids, ¬ str TEMPLATE_NAME <:+: x) :
    (subjectFiles ids).filter (fun f => !isTemplate f) = queryFiles ids := by
  induction ids with
  | nil => rfl
  | cons x xs ih =>
    have hx := hT x (List.mem_cons_self _ _)
    have h1 : isTemplate (x ++ str "_AU01_query") = false :=
      isTemplate_query x (str "AU01_query") hx (by decide)
    have h2 : isTemplate (x ++ str "_AU12_query") = false :=
      isTemplate_query x (str "AU12_query") hx (by decide)
    have h3 : isTemplate (x ++ str "_AU17_query") = false :=
      isTemplate_query x (str "AU17_query") hx (by decide)
    have h4 := isTemplate_template x
    simp only [subjectFiles, List.filter_cons, h1, h2, h3, h4, Bool.not_false, Bool.not_true,
      if_true, Bool.false_eq_true, if_false, queryFiles]
    exact congrArg _ (congrArg _ (congrArg _ (ih (fun y hy => hT y (List.mem_cons_of_mem _ hy)))))

theorem queryFiles_length (ids : List Str) : (queryFiles ids).length = 3 * ids.length := by
  induction ids with
  | nil => rfl
  | cons x xs ih =>
    simp only [queryFiles, List.length_cons, ih]
    omega

theorem queryFiles_getElem (ids : List Str) (i : Nat) (x : Str) (hx : ids[i]? = some x) :
    (queryFiles ids)[3 * i]? = some (x ++ str "_AU01_query") ∧
      (queryFiles ids)[3 * i + 1]? = some (x ++ str "_AU12_query") ∧
      (queryFiles ids)[3 * i + 2]? = some (x ++ str "_AU17_query") := by
  induction ids generalizing i with
  | nil => simp at hx
  | cons y ys ih =>
    cases i with
    | zero =>
      rw [List.getElem?_cons_zero] at hx
      cases hx
      simp [queryFiles]
    | succ i =>
      rw [List.getElem?_cons_succ] at hx
      obtain ⟨h1, h2, h3⟩ := ih i hx
      have e : ∀ n, (queryFiles (y :: ys))[n + 3]? = (queryFiles ys)[n]? := by
        intro n
        simp only [queryFiles, List.getElem?_cons_succ]
      rw [show 3 * (i + 1) = 3 * i + 3 by omega, show 3 * i + 3 + 1 = 3 * i + 1 + 3 by omega,
        show 3 * i + 3 + 2 = 3 * i + 2 + 3 by omega, e, e, e]
      exact ⟨h1, h2, h3⟩

theorem templateFiles_getElem (ids : List Str) (i : Nat) (x : Str) (hx : ids[i]? = some x) :
    (templateFiles ids)[i]? = some (x ++ str "_template") := by
  rw [templateFiles, List.getElem?_map, hx]
  rfl

/-- The slots that `readFile` fills, when `.` and `..` sort before every file: the templates
in the sorted order `TL` of the template names and the queries in the sorted order `QL` of the
other names. -/
theorem readFile_slots {T Q : Type} [Inhabited T] [Inhabited Q] (fs : Files T Q)
    (dir files TL QL : List Str)
    (hdir : dir.Perm (str "." :: str ".." :: files))
    (hopen : ∀ f ∈ files, fs.isOpen (str "data/" ++ f) = true)
    (hgt : ∀ f ∈ files, str ".." < f)
    (hTL : TL.Perm (files.filter isTemplate)) (hTLs : TL.Sorted (fun a b => a ≤ b))
    (hTLn : TL.length ≤ NUMBER_OF_TEMPLATES)
    (hQL : QL.Perm (files.filter (fun f => !isTemplate f)))
    (hQLs : QL.Sorted (fun a b => a ≤ b)) (hQLn : QL.length ≤ NUMBER_OF_QUERIES) :
    ∃ s : Store T Q, readFile fs dir = some s ∧
      (∀ (k : Nat) f, TL[k]? = some f →
        s.template_set[k]? = some (fs.template_image_set (str "data/" ++ f))) ∧
      (∀ (k : Nat) f, QL[k]? = some f →
        s.query_set[k]? = some (fs.query_image (str "data/" ++ f))) := by
  obtain ⟨L, hL, hLs, hLp⟩ := loadedNames_sorted dir files hdir hgt
  have eT : L.filter isTemplate = TL :=
    List.eq_of_perm_of_sorted ((hLp.filter _).trans hTL.symm) (hLs.filter _) hTLs
  have eQ : L.filter (fun f => !isTemplate f) = QL :=
    List.eq_of_perm_of_sorted ((hLp.filter _).trans hQL.symm) (hLs.filter _) hQLs
  obtain ⟨s, hs, _, _, _, _, hv1, hv2⟩ := foldlM_loadFile fs L (Store.init T Q)
    (fun f hf => hopen f (hLp.mem_iff.1 hf))
    (by
      show 0 + (L.filter isTemplate).length ≤ (List.replicate NUMBER_OF_TEMPLATES default).length
      rw [eT, List.length_replicate]
      omega)
    (by
      show 0 + (L.filter (fun f => !isTemplate f)).length ≤
        (List.replicate NUMBER_OF_QUERIES default).length
      rw [eQ, List.length_replicate]
      omega)
  refine ⟨s, ?_, ?_, ?_⟩
  · unfold readFile
    rw [hL]
    exact hs
  · intro k f hk
    rw [← eT] at hk
    have := hv1 k f hk
    rw [show (Store.init T Q).templateCounter + k = k by
      show 0 + k = k
      omega] at this
    exact this
  · intro k f hk
    rw [← eQ] at hk
    have := hv2 k f hk
    rw [show (Store.init T Q).queryCounter + k = k by
      show 0 + k = k
      omega] at this
    exact this

theorem chain_of_ascending (l : List Str) (h : ascending l = true) :
    l.Chain' (fun a b => a < b) := by
  induction l with
  | nil => exact List.chain'_nil
  | cons a l ih =>
    cases l with
    | nil => exact List.chain'_singleton a
    | cons b l =>
      simp only [ascending, Bool.and_eq_true, decide_eq_true_eq] at h
      exact List.chain'_cons.2 ⟨h.1, ih h.2⟩

theorem sorted_of_ascending (l : List Str) (h : ascending l = true) :
    l.Sorted (fun a b => a < b) :=
  List.chain'_iff_pairwise.1 (chain_of_ascending l h)

theorem sorted_le_of_lt (l : List Str) (h : l.Sorted (fun a b => a < b)) :
    l.Sorted (fun a b => a ≤ b) :=
  h.imp (fun h => le_of_lt h)

set_option maxRecDepth 100000 in
theorem prefixIds_slots :
    ∃ s : Store Str Str,
      readFile labelled (str "." :: str ".." :: subjectFiles prefixIds) = some s ∧
      s.template_set[0]? = some (str "data/" ++ str "a_b_template") ∧
      s.query_set[0]? = some (str "data/" ++ str "a_AU01_query") := by
  have hT : ∀ x ∈ prefixIds, ¬ str TEMPLATE_NAME <:+: x := by decide
  obtain ⟨s, hs, h1, h2⟩ := readFile_slots labelled
    (str "." :: str ".." :: subjectFiles prefixIds) (subjectFiles prefixIds)
    (str "a_b_template" :: str "a_template" :: templateFiles otherIds) (queryFiles prefixIds)
    (List.Perm.refl _) (fun _ _ => rfl) (by decide)
    (by
      rw [subjectFiles_filter_template prefixIds hT]
      exact List.Perm.swap _ _ _)
    (sorted_le_of_lt _ (sorted_of_ascending _ (by decide))) (by decide)
    (by rw [subjectFiles_filter_query prefixIds hT])
    (sorted_le_of_lt _ (sorted_of_ascending _ (by decide))) (by decide)
  exact ⟨s, hs, h1 0 _ rfl, h2 0 _ rfl⟩

/-! ## The multimap and the erase loop -/

theorem strictWeak_of_no_lt {K : Type} (lt : K → K → Bool) (ks : List K)
    (h : ∀ a ∈ ks, ∀ b ∈ ks, lt a b = false) : strictWeak lt ks = true := by
  unfold strictWeak
  rw [List.all_eq_true]
  intro a ha
  rw [Bool.and_eq_true, List.all_eq_true]
  refine ⟨by rw [h a ha a ha]; rfl, fun b hb => ?_⟩
  rw [List.all_eq_true]
  intro c hc
  rw [h a ha b hb, h a ha c hc, h c hc a ha]
  simp

theorem insertAtUpperBound_of_no_lt {K : Type} (lt : K → K → Bool) (p : K × Nat)
    (l : List (K × Nat)) (h : ∀ y ∈ l, lt p.1 y.1 = false) :
    insertAtUpperBound lt p l = l ++ [p] := by
  induction l with
  | nil => rfl
  | cons x xs ih =>
    rw [insertAtUpperBound, if_neg (by simp [h x (List.mem_cons_self _ _)]),
      ih (fun y hy => h y (List.mem_cons_of_mem _ hy))]
    rfl

theorem insertRows_succ {F : Type} (A : Arith F) (lt : F → F → Bool) (q : List F)
    (t : List (List F)) (n : Nat) :
    insertRows A lt q t (n + 1) = (insertRows A lt q t n).bind (fun l => insertRow A lt q t l n) := by
  simp [insertRows, List.range_succ, List.foldlM_append]

/-- When no two of the similarities compare, the first loop leaves the rows in row order. -/
theorem insertRows_of_no_lt {F : Type} (A : Arith F) (lt : F → F → Bool) (q : List F)
    (t : List (List F)) (n : Nat) (hn : n ≤ t.length)
    (hq : NUMBER_OF_ELEMENTS_PER_VECTOR ≤ q.length)
    (ht : ∀ r ∈ t, NUMBER_OF_ELEMENTS_PER_VECTOR ≤ r.length)
    (h : ∀ i j, lt (computeSimilarity A q (t.getD i [])) (computeSimilarity A q (t.getD j []))
      = false) :
    insertRows A lt q t n =
      some ((List.range n).map (fun i => (computeSimilarity A q (t.getD i []), i + 1))) := by
  induction n with
  | zero => rfl
  | succ n ih =>
    have hlt : n < t.length := by omega
    have hrow : t[n]? = some t[n] := List.getElem?_eq_getElem hlt
    have hD : t.getD n [] = t[n] := by
      rw [List.getD_eq_getElem?_getD, hrow]
      rfl
    rw [insertRows_succ, ih (by omega), Option.some_bind, insertRow, hrow]
    simp only []
    rw [if_pos ⟨hq, ht _ (List.getElem_mem _)⟩, multimapInsert, if_pos, ← hD,
      insertAtUpperBound_of_no_lt, List.range_succ, List.map_append]
    · rfl
    · intro y hy
      obtain ⟨j, _, rfl⟩ := List.mem_map.1 hy
      exact h n j
    · apply strictWeak_of_no_lt
      have hk : ∀ a ∈ computeSimilarity A q t[n] ::
          ((List.range n).map (fun i => (computeSimilarity A q (t.getD i []), i + 1))).map
            Prod.fst, ∃ i, a = computeSimilarity A q (t.getD i []) := by
        intro a ha
        rcases List.mem_cons.1 ha with rfl | ha
        · exact ⟨n, by rw [hD]⟩
        · obtain ⟨y, hy, rfl⟩ := List.mem_map.1 ha
          obtain ⟨j, _, rfl⟩ := List.mem_map.1 hy
          exact ⟨j, rfl⟩
      intro a ha b hb
      obtain ⟨i, rfl⟩ := hk a ha
      obtain ⟨j, rfl⟩ := hk b hb
      exact h i j

theorem eraseAdvance_none {K : Type} (s : List (K × Nat) × Iter) : eraseAdvance s = none := by
  unfold eraseAdvance erase
  cases hs : s.2 with
  | pos k =>
    by_cases hk : k < s.1.length
    · simp only [hs, if_pos hk, Option.some_bind]
      rfl
    · simp only [hs, if_neg hk, Option.none_bind]
  | invalidated => simp only [hs, Option.none_bind]

theorem eraseLoop_succ_none {K : Type} (k : Nat) (s : List (K × Nat) × Iter) :
    eraseLoop (k + 1) s = none := by
  rw [eraseLoop, eraseAdvance_none]
  rfl

/-- With more than 10 rows the second loop runs at least once, and the function has no defined
result, whatever the arithmetic, the query and the template. -/
theorem nearestNeighbors_none {F : Type} (A : Arith F) (lt : F → F → Bool) (n : Nat)
    (q : List F) (t : List (List F)) : nearestNeighbors A lt (n + 11) q t = none := by
  unfold nearestNeighbors
  cases insertRows A lt q t (n + 11) with
  | none => rfl
  | some l =>
    rw [Option.some_bind, show n + 11 - 10 = n + 1 by omega, eraseLoop_succ_none]
    rfl

theorem find10NearestNeighbors_none {F : Type} (A : Arith F) (lt : F → F → Bool)
    (q : List F) (t : List (List F)) : find10NearestNeighbors A lt q t = none := by
  rw [find10NearestNeighbors, rows_eq]
  exact nearestNeighbors_none A lt 127 q t

theorem reportLine_none (ts : List (List (List Double))) (qs : List (List Double)) (i j : Nat)
    (name : String) : reportLine ts qs i j name = none := by
  unfold reportLine
  split
  · rw [find10NearestNeighbors_none]
    rfl
  · rfl

theorem mainStep_none (ts : List (List (List Double))) (qs : List (List Double)) (i : Nat) :
    mainStep ts qs i = none := by
  rw [mainStep, reportLine_none]
  rfl

theorem main_none (ts : List (List (List Double))) (qs : List (List Double))
    (h : ts ≠ []) : main ts qs = none := by
  unfold main
  obtain ⟨n, hn⟩ : ∃ n, ts.length = n + 1 :=
    ⟨ts.length - 1, by have := List.length_pos.2 h; omega⟩
  rw [hn, List.range_succ_eq_map, List.foldlM_cons, mainStep_none]
  rfl

/-! ## The first loop on the concrete templates -/

theorem constTemplate_no_lt (q row : List Double) (i j : Nat) :
    Double.lt (computeSimilarity ieee q ((constTemplate row).getD i []))
      (computeSimilarity ieee q ((constTemplate row).getD j [])) = false := by
  have hnil := computeSimilarity_zero_template q [] (by simp)
  rw [constTemplate, map_range_getD, map_range_getD]
  by_cases hi : i < NUMBER_OF_VECTORS_PER_TEMPLATE
  · by_cases hj : j < NUMBER_OF_VECTORS_PER_TEMPLATE
    · rw [if_pos hi, if_pos hj]; exact Double.lt_self _
    · rw [if_neg hj, hnil]; exact Double.lt_nan_right _
  · rw [if_neg hi, hnil]; exact Double.lt_nan_left _

theorem insertRows_const (q row : List Double) (hq : q.length = NUMBER_OF_ELEMENTS_PER_VECTOR)
    (hrow : row.length = NUMBER_OF_ELEMENTS_PER_VECTOR) :
    insertRows ieee Double.lt q (constTemplate row) NUMBER_OF_VECTORS_PER_TEMPLATE =
      some ((List.range NUMBER_OF_VECTORS_PER_TEMPLATE).map
        (fun i => (computeSimilarity ieee q row, i + 1))) := by
  rw [insertRows_of_no_lt ieee Double.lt q (constTemplate row) _ (constTemplate_length row).ge
    hq.ge (fun r hr => (constTemplate_rows row hrow r hr).ge) (constTemplate_no_lt q row)]
  congr 1
  apply List.map_congr_left
  intro i hi
  rw [constTemplate_getD row i (List.mem_range.1 hi)]

theorem scenarioTemplate_getD (r i : Nat) :
    computeSimilarity ieee onesVector ((scenarioTemplate r).getD i []) =
      if i = r ∧ i < NUMBER_OF_VECTORS_PER_TEMPLATE then Double.one else Double.nan := by
  rw [scenarioTemplate, map_range_getD]
  by_cases hi : i < NUMBER_OF_VECTORS_PER_TEMPLATE
  · rw [if_pos hi]
    by_cases hr : i = r
    · rw [if_pos hr, if_pos ⟨hr, hi⟩, computeSimilarity_ones]
    · rw [if_neg hr, if_neg (fun h => hr h.1)]
      exact computeSimilarity_zero_template _ _ zeroVector_isZero
  · rw [if_neg hi, if_neg (fun h => hi h.2)]
    exact computeSimilarity_zero_template _ _ (by simp)

theorem scenarioTemplate_no_lt (r i j : Nat) :
    Double.lt (computeSimilarity ieee onesVector ((scenarioTemplate r).getD i []))
      (computeSimilarity ieee onesVector ((scenarioTemplate r).getD j [])) = false := by
  rw [scenarioTemplate_getD, scenarioTemplate_getD]
  split <;> split <;> rfl

theorem scenarioTemplate_length (r : Nat) :
    (scenarioTemplate r).length = NUMBER_OF_VECTORS_PER_TEMPLATE := by
  simp [scenarioTemplate]

theorem scenarioTemplate_rows (r : Nat) :
    ∀ row ∈ scenarioTemplate r, NUMBER_OF_ELEMENTS_PER_VECTOR ≤ row.length := by
  intro row hrow
  simp only [scenarioTemplate, List.mem_map] at hrow
  obtain ⟨i, _, rfl⟩ := hrow
  split
  · exact (vec_length _).ge
  · exact (vec_length _).ge

/-! ## Rounding error -/

/-- Rounding `m` to a multiple of `2^sh`, to nearest, ties to even, moves it by at most half of
`2^sh`. -/
theorem nearest_error (m sh : Nat) (hsh : 0 < sh) :
    let q := m / 2 ^ sh
    let r := m % 2 ^ sh
    let q1 := if 2 ^ (sh - 1) < r ∨ (r = 2 ^ (sh - 1) ∧ q % 2 = 1) then q + 1 else q
    q1 * 2 ^ sh ≤ m + 2 ^ (sh - 1) ∧ m ≤ q1 * 2 ^ sh + 2 ^ (sh - 1) := by
  intro q r q1
  have hP : 2 ^ sh = 2 * 2 ^ (sh - 1) := by
    rw [← pow_succ']
    congr 1
    omega
  have hdm : 2 ^ sh * q + r = m := Nat.div_add_mod m (2 ^ sh)
  have hr : r < 2 ^ sh := Nat.mod_lt _ (Nat.pow_pos (by norm_num))
  obtain ⟨t, ht⟩ : ∃ t, t = q * 2 ^ sh := ⟨_, rfl⟩
  have hdm' : t + r = m := by rw [ht, mul_comm]; exact hdm
  by_cases hc : 2 ^ (sh - 1) < r ∨ (r = 2 ^ (sh - 1) ∧ q % 2 = 1)
  · have hq1 : q1 * 2 ^ sh = t + 2 ^ sh := by
      show (if _ then q + 1 else q) * 2 ^ sh = _
      rw [if_pos hc, ht]
      ring
    rw [hq1]
    constructor
    · rcases hc with h | h
      · omega
      · omega
    · omega
  · have hq1 : q1 * 2 ^ sh = t := by
      show (if _ then q + 1 else q) * 2 ^ sh = _
      rw [if_neg hc, ht]
    rw [hq1]
    have : ¬ 2 ^ (sh - 1) < r := fun h => hc (Or.inl h)
    constructor
    · omega
    · omega

namespace Double

/-- The magnitude of a finite double is `m * 2^e`. -/
theorem toRat_abs (s : Bool) (m : Nat) (e : Int) :
    |toRat (fin s m e)| = (m : ℚ) * (2 : ℚ) ^ e := by
  have hp : (0 : ℚ) < (2 : ℚ) ^ e := zpow_pos (by norm_num) e
  have hm : (0 : ℚ) ≤ (m : ℚ) := Nat.cast_nonneg m
  unfold toRat
  cases s
  · simp only [Bool.false_eq_true, if_false]
    exact abs_of_nonneg (mul_nonneg hm hp.le)
  · simp only [if_true]
    rw [neg_mul, abs_neg]
    exact abs_of_nonneg (mul_nonneg hm hp.le)

theorem toRat_signed (s : Bool) (m : Nat) (e : Int) :
    toRat (fin s m e) = (if s then -1 else 1) * ((m : ℚ) * (2 : ℚ) ^ e) := by
  unfold toRat
  cases s <;> simp

/-- The result of `round` on a nonzero mantissa, when the exponent of the last place kept,
`e1`, is at most 970: a finite double, equal to the exact value when no bit is dropped, and
within `2^(e1 - 1)` of it otherwise. -/
theorem round_main (s : Bool) (m : Nat) (e : Int) (hm : m ≠ 0)
    (hhi : max (e + (bitLen m : Int) - 53) (-1074) ≤ 970) :
    ∃ (q : Nat) (e' : Int), round s m e = fin s q e' ∧ -1074 ≤ e' ∧
      (max (e + (bitLen m : Int) - 53) (-1074) ≤ e →
        (q : ℚ) * (2 : ℚ) ^ e' = (m : ℚ) * (2 : ℚ) ^ e) ∧
      |(q : ℚ) * (2 : ℚ) ^ e' - (m : ℚ) * (2 : ℚ) ^ e| ≤
        (2 : ℚ) ^ (max (e + (bitLen m : Int) - 53) (-1074) - 1) := by
  have h2 : (2 : ℚ) ≠ 0 := by norm_num
  have hB1 := lt_two_pow_bitLen m
  obtain ⟨e1, he1⟩ : ∃ e1 : Int, e1 = max (e + (bitLen m : Int) - 53) (-1074) := ⟨_, rfl⟩
  rw [← he1] at hhi ⊢
  have hge1 : e + (bitLen m : Int) - 53 ≤ e1 := by rw [he1]; exact le_max_left _ _
  have hge2 : -1074 ≤ e1 := by rw [he1]; exact le_max_right _ _
  have hpos : (0 : ℚ) < (2 : ℚ) ^ (e1 - 1) := zpow_pos (by norm_num) _
  by_cases hcase : e1 ≤ e
  · -- no bit is dropped
    obtain ⟨k, hk⟩ : ∃ k : Nat, (k : Int) = e - e1 := ⟨(e - e1).toNat, by omega⟩
    have hsh : (e1 - e).toNat = 0 := by omega
    have hup : (e - e1).toNat = k := by omega
    have hq : m * 2 ^ k < 2 ^ 53 := by
      have hk53 : bitLen m + k ≤ 53 := by omega
      calc m * 2 ^ k < 2 ^ bitLen m * 2 ^ k :=
            Nat.mul_lt_mul_of_pos_right hB1 (Nat.pow_pos (by norm_num))
        _ = 2 ^ (bitLen m + k) := by rw [pow_add]
        _ ≤ 2 ^ 53 := Nat.pow_le_pow_right (by norm_num) hk53
    have hval : ((m * 2 ^ k : Nat) : ℚ) * (2 : ℚ) ^ e1 = (m : ℚ) * (2 : ℚ) ^ e := by
      have : e = (k : Int) + e1 := by omega
      rw [this, zpow_add₀ h2, zpow_natCast]
      push_cast
      ring
    refine ⟨m * 2 ^ k, e1, ?_, hge2, fun _ => hval, ?_⟩
    · simp only [round, hm, if_false, ← he1, hsh, hup, pow_zero, Nat.div_one, if_true,
        Nat.ne_of_lt hq, not_lt.2 (show e1 ≤ 971 by omega)]
    · rw [hval, sub_self, abs_zero]
      exact hpos.le
  · -- the last `sh` bits are dropped
    have hcase' : e < e1 := not_le.1 hcase
    obtain ⟨sh, hshd⟩ : ∃ sh : Nat, (sh : Int) = e1 - e := ⟨(e1 - e).toNat, by omega⟩
    have hsh : (e1 - e).toNat = sh := by omega
    have hup : (e - e1).toNat = 0 := by omega
    have hsh0 : 0 < sh := by omega
    have hne : sh ≠ 0 := by omega
    have hnear := nearest_error m sh hsh0
    obtain ⟨q1, hq1⟩ : ∃ q1, q1 = (if 2 ^ (sh - 1) < m % 2 ^ sh ∨
        (m % 2 ^ sh = 2 ^ (sh - 1) ∧ m / 2 ^ sh % 2 = 1) then m / 2 ^ sh + 1 else m / 2 ^ sh) :=
      ⟨_, rfl⟩
    simp only [] at hnear
    rw [← hq1] at hnear
    have hq0 : m / 2 ^ sh < 2 ^ 53 := by
      rw [Nat.div_lt_iff_lt_mul (Nat.pow_pos (by norm_num)), ← pow_add]
      have : bitLen m ≤ 53 + sh := by omega
      exact lt_of_lt_of_le hB1 (Nat.pow_le_pow_right (by norm_num) this)
    have hq1le : q1 ≤ 2 ^ 53 := by
      rw [hq1]
      split <;> omega
    -- the value of the result, in both cases of the carry
    have herr : |(q1 : ℚ) * (2 : ℚ) ^ e1 - (m : ℚ) * (2 : ℚ) ^ e| ≤ (2 : ℚ) ^ (e1 - 1) := by
      have he1e : e1 = (sh : Int) + e := by omega
      have hpe : (0 : ℚ) < (2 : ℚ) ^ e := zpow_pos (by norm_num) e
      have h1 : (q1 : ℚ) * (2 : ℚ) ^ e1 - (m : ℚ) * (2 : ℚ) ^ e =
          ((q1 : ℚ) * 2 ^ sh - m) * (2 : ℚ) ^ e := by
        rw [he1e, zpow_add₀ h2, zpow_natCast]
        ring
      have h2' : (2 : ℚ) ^ (e1 - 1) = (2 : ℚ) ^ (sh - 1) * (2 : ℚ) ^ e := by
        have : e1 - 1 = ((sh - 1 : Nat) : Int) + e := by omega
        rw [this, zpow_add₀ h2, zpow_natCast]
      rw [h1, h2', abs_mul, abs_of_pos hpe]
      apply mul_le_mul_of_nonneg_right _ hpe.le
      rw [abs_le]
      have ha : ((q1 * 2 ^ sh : Nat) : ℚ) ≤ ((m + 2 ^ (sh - 1) : Nat) : ℚ) :=
        Nat.cast_le.2 hnear.1
      have hb : ((m : Nat) : ℚ) ≤ ((q1 * 2 ^ sh + 2 ^ (sh - 1) : Nat) : ℚ) :=
        Nat.cast_le.2 hnear.2
      push_cast at ha hb
      constructor <;> linarith
    by_cases hcarry : q1 = 2 ^ 53
    · refine ⟨2 ^ 52, e1 + 1, ?_, by omega, fun h => absurd h hcase, ?_⟩
      · simp only [round, hm, if_false, ← he1, hsh, hup, hne, pow_zero, Nat.mul_one, ← hq1,
          hcarry, if_true, not_lt.2 (show e1 + 1 ≤ 971 by omega)]
      · have : ((2 ^ 52 : Nat) : ℚ) * (2 : ℚ) ^ (e1 + 1) = (q1 : ℚ) * (2 : ℚ) ^ e1 := by
          rw [hcarry, zpow_add₀ h2]
          push_cast
          ring
        rw [this]
        exact herr
    · refine ⟨q1, e1, ?_, hge2, fun h => absurd h hcase, herr⟩
      simp only [round, hm, if_false, ← he1, hsh, hup, hne, pow_zero, Nat.mul_one, ← hq1,
        hcarry, not_lt.2 (show e1 ≤ 971 by omega)]

/-- The magnitude `m * 2^e` lies between the powers of two given by the bit length of `m`. -/
theorem val_bounds (m : Nat) (e : Int) (hm : m ≠ 0) :
    (2 : ℚ) ^ ((bitLen m : Int) - 1 + e) ≤ (m : ℚ) * (2 : ℚ) ^ e ∧
      (m : ℚ) * (2 : ℚ) ^ e < (2 : ℚ) ^ ((bitLen m : Int) + e) := by
  have h2 : (2 : ℚ) ≠ 0 := by norm_num
  have hpe : (0 : ℚ) < (2 : ℚ) ^ e := zpow_pos (by norm_num) e
  have hB := bitLen_pos m (Nat.pos_of_ne_zero hm)
  have h1 : ((2 ^ (bitLen m - 1) : Nat) : ℚ) ≤ (m : ℚ) :=
    Nat.cast_le.2 (two_pow_bitLen_le m (Nat.pos_of_ne_zero hm))
  have h3 : (m : ℚ) < ((2 ^ bitLen m : Nat) : ℚ) := Nat.cast_lt.2 (lt_two_pow_bitLen m)
  push_cast at h1 h3
  constructor
  · have : (bitLen m : Int) - 1 + e = ((bitLen m - 1 : Nat) : Int) + e := by omega
    rw [this, zpow_add₀ h2, zpow_natCast]
    exact mul_le_mul_of_nonneg_right h1 hpe.le
  · rw [zpow_add₀ h2, zpow_natCast]
    exact mul_lt_mul_of_pos_right h3 hpe

theorem zpow_lt_imp (a b : Int) (h : (2 : ℚ) ^ a < (2 : ℚ) ^ b) : a < b :=
  (zpow_lt_zpow_iff_right₀ (by norm_num : (1 : ℚ) < 2)).1 h

/-- Rounding in the normal range: the relative error is at most `2^-53`. -/
theorem round_normal (s : Bool) (m : Nat) (e : Int) (hm : m ≠ 0)
    (hlo : (2 : ℚ) ^ (-1022 : ℤ) ≤ (m : ℚ) * (2 : ℚ) ^ e)
    (hhi : (m : ℚ) * (2 : ℚ) ^ e < (2 : ℚ) ^ (1023 : ℤ)) :
    ∃ (q : Nat) (e' : Int), round s m e = fin s q e' ∧ -1074 ≤ e' ∧
      |(q : ℚ) * (2 : ℚ) ^ e' - (m : ℚ) * (2 : ℚ) ^ e| ≤
        (2 : ℚ) ^ (-53 : ℤ) * ((m : ℚ) * (2 : ℚ) ^ e) := by
  have h2 : (2 : ℚ) ≠ 0 := by norm_num
  obtain ⟨hb1, hb2⟩ := val_bounds m e hm
  have hlo' : (-1022 : ℤ) < (bitLen m : Int) + e := zpow_lt_imp _ _ (lt_of_le_of_lt hlo hb2)
  have hhi' : (bitLen m : Int) - 1 + e < 1023 := zpow_lt_imp _ _ (lt_of_le_of_lt hb1 hhi)
  have hmax : max (e + (bitLen m : Int) - 53) (-1074) = e + (bitLen m : Int) - 53 :=
    max_eq_left (by omega)
  obtain ⟨q, e', hr, he', _, herr⟩ := round_main s m e hm (by rw [hmax]; omega)
  refine ⟨q, e', hr, he', le_trans herr ?_⟩
  rw [hmax]
  have : e + (bitLen m : Int) - 53 - 1 = (-53 : ℤ) + ((bitLen m : Int) - 1 + e) := by omega
  rw [this, zpow_add₀ h2]
  exact mul_le_mul_of_nonneg_left hb1 (zpow_pos (by norm_num) _).le

/-- Rounding below the normal range, of a value with no bit below `2^-1074`: exact. -/
theorem round_exact (s : Bool) (m : Nat) (e : Int) (hm : m ≠ 0) (he : -1074 ≤ e)
    (hsmall : (m : ℚ) * (2 : ℚ) ^ e < (2 : ℚ) ^ (-1022 : ℤ)) :
    ∃ (q : Nat) (e' : Int), round s m e = fin s q e' ∧ -1074 ≤ e' ∧
      (q : ℚ) * (2 : ℚ) ^ e' = (m : ℚ) * (2 : ℚ) ^ e := by
  obtain ⟨hb1, _⟩ := val_bounds m e hm
  have hlt : (bitLen m : Int) - 1 + e < -1022 := zpow_lt_imp _ _ (lt_of_le_of_lt hb1 hsmall)
  have hmax : max (e + (bitLen m : Int) - 53) (-1074) = -1074 := max_eq_right (by omega)
  obtain ⟨q, e', hr, he', hex, _⟩ := round_main s m e hm (by rw [hmax]; norm_num)
  exact ⟨q, e', hr, he', hex (by rw [hmax]; exact he)⟩

/-- Rounding below the normal range: the result is at most `2^-1021`. -/
theorem round_tiny (s : Bool) (m : Nat) (e : Int) (hm : m ≠ 0)
    (hsmall : (m : ℚ) * (2 : ℚ) ^ e < (2 : ℚ) ^ (-1022 : ℤ)) :
    ∃ (q : Nat) (e' : Int), round s m e = fin s q e' ∧ -1074 ≤ e' ∧
      (q : ℚ) * (2 : ℚ) ^ e' ≤ (2 : ℚ) ^ (-1021 : ℤ) := by
  obtain ⟨hb1, _⟩ := val_bounds m e hm
  have hlt : (bitLen m : Int) - 1 + e < -1022 := zpow_lt_imp _ _ (lt_of_le_of_lt hb1 hsmall)
  have hmax : max (e + (bitLen m : Int) - 53) (-1074) = -1074 := max_eq_right (by omega)
  obtain ⟨q, e', hr, he', _, herr⟩ := round_main s m e hm (by rw [hmax]; norm_num)
  refine ⟨q, e', hr, he', ?_⟩
  rw [hmax] at herr
  have h1 := (abs_le.1 herr).2
  have h3 : (2 : ℚ) ^ (-1074 - 1 : ℤ) + (2 : ℚ) ^ (-1022 : ℤ) ≤ (2 : ℚ) ^ (-1021 : ℤ) := by
    norm_num
  linarith

/-- The operator `+` on finite doubles with no bit below `2^-1074`, when the exact sum is
below `2^1023`: the result is finite and within the relative error `2^-53` of the exact
sum. -/
theorem add_spec (s1 s2 : Bool) (m1 m2 : Nat) (e1 e2 : Int) (h1 : -1074 ≤ e1)
    (h2 : -1074 ≤ e2)
    (hov : |toRat (fin s1 m1 e1) + toRat (fin s2 m2 e2)| < (2 : ℚ) ^ (1023 : ℤ)) :
    ∃ (s : Bool) (m : Nat) (e : Int), add (fin s1 m1 e1) (fin s2 m2 e2) = fin s m e ∧
      -1074 ≤ e ∧
      |toRat (fin s m e) - (toRat (fin s1 m1 e1) + toRat (fin s2 m2 e2))| ≤
        (2 : ℚ) ^ (-53 : ℤ) * |toRat (fin s1 m1 e1) + toRat (fin s2 m2 e2)| := by
  obtain ⟨c, hc⟩ : ∃ c : Int, c = signed s1 m1 (e1 - min e1 e2) + signed s2 m2 (e2 - min e1 e2) :=
    ⟨_, rfl⟩
  have hsum : ((c : Int) : ℚ) * (2 : ℚ) ^ (min e1 e2) =
      toRat (fin s1 m1 e1) + toRat (fin s2 m2 e2) := by
    rw [hc, ← signed_cast s1 m1 e1 (min e1 e2) (min_le_left _ _),
      ← signed_cast s2 m2 e2 (min e1 e2) (min_le_right _ _)]
    push_cast
    ring
  have hpe : (0 : ℚ) < (2 : ℚ) ^ (min e1 e2) := zpow_pos (by norm_num) _
  have hadd : add (fin s1 m1 e1) (fin s2 m2 e2) =
      if c = 0 then fin (s1 && s2) 0 (-1074) else round (decide (c < 0)) c.natAbs (min e1 e2) := by
    rw [hc]
    rfl
  rw [← hsum] at hov ⊢
  by_cases hc0 : c = 0
  · refine ⟨s1 && s2, 0, -1074, by rw [hadd, if_pos hc0], le_refl _, ?_⟩
    rw [hc0]
    simp [toRat]
  · have hna : c.natAbs ≠ 0 := Int.natAbs_ne_zero.2 hc0
    have hcast : ((c.natAbs : Nat) : ℚ) = |(c : ℚ)| := by
      rw [Nat.cast_natAbs, Int.cast_abs]
    have habs : |(c : ℚ) * (2 : ℚ) ^ (min e1 e2)| = (c.natAbs : ℚ) * (2 : ℚ) ^ (min e1 e2) := by
      rw [abs_mul, abs_of_pos hpe, hcast]
    rw [habs] at hov ⊢
    have hval : ∀ (q : Nat) (e' : Int),
        toRat (fin (decide (c < 0)) q e') - (c : ℚ) * (2 : ℚ) ^ (min e1 e2) =
          (if c < 0 then -1 else 1) *
            ((q : ℚ) * (2 : ℚ) ^ e' - (c.natAbs : ℚ) * (2 : ℚ) ^ (min e1 e2)) := by
      intro q e'
      rw [toRat_signed, hcast]
      by_cases hneg : c < 0
      · have : (c : ℚ) < 0 := Int.cast_lt_zero.2 hneg
        simp only [hneg, decide_True, if_true, abs_of_neg this]
        ring
      · have : (0 : ℚ) ≤ (c : ℚ) := Int.cast_nonneg.2 (not_lt.1 hneg)
        simp only [hneg, decide_False, Bool.false_eq_true, if_false, abs_of_nonneg this]
        ring
    have hsgn : ∀ z : ℚ, |(if c < 0 then (-1 : ℚ) else 1) * z| = |z| := by
      intro z
      split
      · rw [neg_one_mul, abs_neg]
      · rw [one_mul]
    by_cases hn : (2 : ℚ) ^ (-1022 : ℤ) ≤ (c.natAbs : ℚ) * (2 : ℚ) ^ (min e1 e2)
    · obtain ⟨q, e', hr, he', herr⟩ := round_normal (decide (c < 0)) c.natAbs (min e1 e2) hna hn hov
      refine ⟨_, q, e', by rw [hadd, if_neg hc0, hr], he', ?_⟩
      rw [hval, hsgn]
      exact herr
    · obtain ⟨q, e', hr, he', hex⟩ := round_exact (decide (c < 0)) c.natAbs (min e1 e2) hna
        (le_min h1 h2) (not_le.1 hn)
      refine ⟨_, q, e', by rw [hadd, if_neg hc0, hr], he', ?_⟩
      rw [hval, hsgn, hex, sub_self, abs_zero]
      exact mul_nonneg (zpow_pos (by norm_num) _).le
        (mul_nonneg (Nat.cast_nonneg _) hpe.le)

/-- The product of the values of two finite doubles. -/
theorem toRat_mul (s1 s2 : Bool) (m1 m2 : Nat) (e1 e2 : Int) :
    toRat (fin s1 m1 e1) * toRat (fin s2 m2 e2) =
      (if xor s1 s2 then -1 else 1) * (((m1 * m2 : Nat) : ℚ) * (2 : ℚ) ^ (e1 + e2)) := by
  rw [toRat_signed, toRat_signed, zpow_add₀ (by norm_num : (2 : ℚ) ≠ 0)]
  push_cast
  cases s1 <;> cases s2 <;> simp <;> ring

theorem abs_sign_mul (b : Bool) (z : ℚ) : |(if b then (-1 : ℚ) else 1) * z| = |z| := by
  cases b
  · simp
  · simp

/-- The operator `*` on two doubles in range: the result is finite, with no bit below
`2^-1074`, and within the relative error `2^-53` of the exact product. -/
theorem mul_spec (x y : Double) (hx : InRange x) (hy : InRange y) :
    ∃ (s : Bool) (m : Nat) (e : Int), mul x y = fin s m e ∧ -1074 ≤ e ∧
      |toRat (fin s m e) - toRat x * toRat y| ≤ (2 : ℚ) ^ (-53 : ℤ) * |toRat x * toRat y| := by
  cases x with
  | nan => exact absurd hx (by simp [InRange])
  | inf _ => exact absurd hx (by simp [InRange])
  | fin s1 m1 e1 =>
    cases y with
    | nan => exact absurd hy (by simp [InRange])
    | inf _ => exact absurd hy (by simp [InRange])
    | fin s2 m2 e2 =>
      have hmul : mul (fin s1 m1 e1) (fin s2 m2 e2) = round (xor s1 s2) (m1 * m2) (e1 + e2) := rfl
      rw [toRat_mul]
      by_cases h0 : m1 * m2 = 0
      · refine ⟨xor s1 s2, 0, -1074, by rw [hmul, h0, round_zero], le_refl _, ?_⟩
        rw [h0]
        simp [toRat]
      · have hm1 : m1 ≠ 0 := fun h => h0 (by rw [h, Nat.zero_mul])
        have hm2 : m2 ≠ 0 := fun h => h0 (by rw [h, Nat.mul_zero])
        have hx' := (hx.resolve_left hm1)
        have hy' := (hy.resolve_left hm2)
        have hprod : ((m1 * m2 : Nat) : ℚ) * (2 : ℚ) ^ (e1 + e2) =
            ((m1 : ℚ) * (2 : ℚ) ^ e1) * ((m2 : ℚ) * (2 : ℚ) ^ e2) := by
          rw [zpow_add₀ (by norm_num : (2 : ℚ) ≠ 0)]
          push_cast
          ring
        have hp1 : (0 : ℚ) < (2 : ℚ) ^ (-500 : ℤ) := zpow_pos (by norm_num) _
        have hlo : (2 : ℚ) ^ (-1022 : ℤ) ≤ ((m1 * m2 : Nat) : ℚ) * (2 : ℚ) ^ (e1 + e2) := by
          rw [hprod]
          calc (2 : ℚ) ^ (-1022 : ℤ) ≤ (2 : ℚ) ^ (-500 : ℤ) * (2 : ℚ) ^ (-500 : ℤ) := by norm_num
            _ ≤ _ := mul_le_mul hx'.1 hy'.1 hp1.le (le_trans hp1.le hx'.1)
        have hhi : ((m1 * m2 : Nat) : ℚ) * (2 : ℚ) ^ (e1 + e2) < (2 : ℚ) ^ (1023 : ℤ) := by
          rw [hprod]
          calc _ ≤ (2 : ℚ) ^ (500 : ℤ) * (2 : ℚ) ^ (500 : ℤ) :=
                mul_le_mul hx'.2 hy'.2 (le_trans hp1.le hy'.1) (by positivity)
            _ < _ := by norm_num
        obtain ⟨q, e', hr, he', herr⟩ := round_normal (xor s1 s2) (m1 * m2) (e1 + e2) h0 hlo hhi
        refine ⟨xor s1 s2, q, e', by rw [hmul, hr], he', ?_⟩
        rw [toRat_signed, ← mul_sub, abs_sign_mul, abs_sign_mul,
          abs_of_nonneg (le_trans (zpow_pos (by norm_num) _).le hlo)]
        exact herr

theorem inRange_abs (x : Double) (hx : InRange x) :
    |toRat x| ≤ (2 : ℚ) ^ (500 : ℤ) ∧ (toRat x ≠ 0 → (2 : ℚ) ^ (-500 : ℤ) ≤ |toRat x|) := by
  cases x with
  | nan => exact absurd hx (by simp [InRange])
  | inf _ => exact absurd hx (by simp [InRange])
  | fin s m e =>
    rw [toRat_abs]
    rcases hx with h0 | h
    · subst h0
      refine ⟨by simp; positivity, fun hne => absurd ?_ hne⟩
      simp [toRat]
    · exact ⟨h.2, fun _ => h.1⟩

theorem inRange_zero : InRange zero := Or.inl rfl

end Double

/-- `(1 + u)^k <= 1 + 2 k u` as long as `k u <= 1/2`. -/
theorem pow_le_linear (u : ℚ) (hu : 0 ≤ u) (k : Nat) (hk : (k : ℚ) * u ≤ 1 / 2) :
    (1 + u) ^ k ≤ 1 + 2 * k * u := by
  induction k with
  | zero => simp
  | succ k ih =>
    have hk' : (k : ℚ) * u ≤ 1 / 2 := by
      push_cast at hk
      nlinarith
    have h1 := ih hk'
    have h2 : (0 : ℚ) ≤ (k : ℚ) := Nat.cast_nonneg k
    rw [pow_succ]
    push_cast
    have h3 : (1 + u) ^ k * (1 + u) ≤ (1 + 2 * k * u) * (1 + u) :=
      mul_le_mul_of_nonneg_right h1 (by linarith)
    nlinarith

/-- The accumulated relative error of a sum of at most 5632 rounded products. -/
theorem sumError_le (n : Nat) (hn : n ≤ 5632) :
    (1 + (2 : ℚ) ^ (-53 : ℤ)) ^ (2 * n) - 1 ≤ (2 : ℚ) ^ (-38 : ℤ) := by
  have hu : (0 : ℚ) ≤ (2 : ℚ) ^ (-53 : ℤ) := (zpow_pos (by norm_num) _).le
  have hn' : ((2 * n : Nat) : ℚ) ≤ 11264 := by
    have : 2 * n ≤ 11264 := by omega
    exact_mod_cast this
  have hk : ((2 * n : Nat) : ℚ) * (2 : ℚ) ^ (-53 : ℤ) ≤ 1 / 2 := by
    calc ((2 * n : Nat) : ℚ) * (2 : ℚ) ^ (-53 : ℤ) ≤ 11264 * (2 : ℚ) ^ (-53 : ℤ) :=
          mul_le_mul_of_nonneg_right hn' hu
      _ ≤ 1 / 2 := by norm_num
  have h := pow_le_linear _ hu (2 * n) hk
  have h2 : 2 * ((2 * n : Nat) : ℚ) * (2 : ℚ) ^ (-53 : ℤ) ≤ 2 * 11264 * (2 : ℚ) ^ (-53 : ℤ) :=
    mul_le_mul_of_nonneg_right (by linarith) hu
  have h3 : 2 * 11264 * (2 : ℚ) ^ (-53 : ℤ) ≤ (2 : ℚ) ^ (-38 : ℤ) := by norm_num
  linarith

/-- One step of the error analysis of a rounded sum of rounded products. -/
theorem sumError_step (u a S T F t P F' : ℚ) (hu : 0 ≤ u) (ha : 0 ≤ a) (hTS : |T| ≤ S)
    (hF : |F - T| ≤ a * S) (hP : |P - t| ≤ u * |t|) (hF' : |F' - (F + P)| ≤ u * |F + P|) :
    |F' - (T + t)| ≤ ((1 + u) ^ 2 * (1 + a) - 1) * (S + |t|) := by
  have hS : 0 ≤ S := le_trans (abs_nonneg _) hTS
  have ht : 0 ≤ |t| := abs_nonneg _
  have h1 : |F + P| ≤ (1 + a) * S + (1 + u) * |t| := by
    have e1 : F + P = (F - T) + T + (P - t) + t := by ring
    rw [e1]
    have := abs_add (F - T + T + (P - t)) t
    have := abs_add (F - T + T) (P - t)
    have := abs_add (F - T) T
    nlinarith
  have h2 : |F' - (T + t)| ≤ |F' - (F + P)| + |F - T| + |P - t| := by
    have e2 : F' - (T + t) = (F' - (F + P)) + (F - T) + (P - t) := by ring
    rw [e2]
    have := abs_add (F' - (F + P) + (F - T)) (P - t)
    have := abs_add (F' - (F + P)) (F - T)
    linarith
  have h3 : u * |F + P| ≤ u * ((1 + a) * S + (1 + u) * |t|) := mul_le_mul_of_nonneg_left h1 hu
  have h4 : 0 ≤ u * S := mul_nonneg hu hS
  have h5 : 0 ≤ u * u * S := mul_nonneg (mul_nonneg hu hu) hS
  have h6 : 0 ≤ u * a * S := mul_nonneg (mul_nonneg hu ha) hS
  have h7 : 0 ≤ u * u * a * S := mul_nonneg (mul_nonneg (mul_nonneg hu hu) ha) hS
  have h8 : 0 ≤ a * |t| := mul_nonneg ha ht
  have h9 : 0 ≤ u * a * |t| := mul_nonneg (mul_nonneg hu ha) ht
  have h10 : 0 ≤ u * u * a * |t| := mul_nonneg (mul_nonneg (mul_nonneg hu hu) ha) ht
  nlinarith

open Finset in
/-- The sum `Σ a_i * b_i` of `computeSimilarity` over the first `n <= 5632` indices, in
binary64, for vectors in range: a finite double, within the relative error
`(1 + 2^-53)^(2n) - 1` (of the sum of the magnitudes) of the exact sum. -/
theorem dotSum_spec (x y : List Double) (hx : ∀ i, (x.getD i Double.zero).InRange)
    (hy : ∀ i, (y.getD i Double.zero).InRange) (n : Nat) (hn : n ≤ 5632) :
    ∃ (s : Bool) (m : Nat) (e : Int), dotSum ieee x y n = Double.fin s m e ∧ -1074 ≤ e ∧
      |Double.toRat (Double.fin s m e) -
          ∑ i in range n, (x.getD i Double.zero).toRat * (y.getD i Double.zero).toRat| ≤
        ((1 + (2 : ℚ) ^ (-53 : ℤ)) ^ (2 * n) - 1) *
          ∑ i in range n, |(x.getD i Double.zero).toRat * (y.getD i Double.zero).toRat| := by
  have hu : (0 : ℚ) ≤ (2 : ℚ) ^ (-53 : ℤ) := (zpow_pos (by norm_num) _).le
  have hterm : ∀ i, |(x.getD i Double.zero).toRat * (y.getD i Double.zero).toRat| ≤
      (2 : ℚ) ^ (1000 : ℤ) := by
    intro i
    rw [abs_mul]
    calc _ ≤ (2 : ℚ) ^ (500 : ℤ) * (2 : ℚ) ^ (500 : ℤ) :=
          mul_le_mul (Double.inRange_abs _ (hx i)).1 (Double.inRange_abs _ (hy i)).1
            (abs_nonneg _) (by positivity)
      _ = _ := by norm_num
  induction n with
  | zero =>
    refine ⟨false, 0, -1074, rfl, le_refl _, ?_⟩
    simp [Double.toRat]
  | succ n ih =>
    obtain ⟨s, m, e, hd, he, herr⟩ := ih (by omega)
    obtain ⟨sp, mp, ep, hmul, hep, hperr⟩ :=
      Double.mul_spec _ _ (hx n) (hy n)
    have ha : 0 ≤ (1 + (2 : ℚ) ^ (-53 : ℤ)) ^ (2 * n) - 1 := by
      have : (1 : ℚ) ≤ (1 + (2 : ℚ) ^ (-53 : ℤ)) ^ (2 * n) := one_le_pow₀ (by linarith)
      linarith
    have ha1 := sumError_le n (by omega)
    have hTS := abs_sum_le_sum_abs
      (fun i => (x.getD i Double.zero).toRat * (y.getD i Double.zero).toRat) (range n)
    have hS : ∑ i in range n, |(x.getD i Double.zero).toRat * (y.getD i Double.zero).toRat| ≤
        (n : ℚ) * (2 : ℚ) ^ (1000 : ℤ) := by
      have := sum_le_card_nsmul (range n)
        (fun i => |(x.getD i Double.zero).toRat * (y.getD i Double.zero).toRat|)
        ((2 : ℚ) ^ (1000 : ℤ)) (fun i _ => hterm i)
      rw [card_range, nsmul_eq_mul] at this
      exact this
    have hS0 : 0 ≤ ∑ i in range n,
        |(x.getD i Double.zero).toRat * (y.getD i Double.zero).toRat| :=
      sum_nonneg (fun i _ => abs_nonneg _)
    have hn' : (n : ℚ) ≤ 5631 := by
      have : n ≤ 5631 := by omega
      exact_mod_cast this
    -- no overflow in the addition
    have hov : |Double.toRat (Double.fin s m e) + Double.toRat (Double.fin sp mp ep)| <
        (2 : ℚ) ^ (1023 : ℤ) := by
      have hF := abs_sub_abs_le_abs_sub (Double.toRat (Double.fin s m e))
        (∑ i in range n, (x.getD i Double.zero).toRat * (y.getD i Double.zero).toRat)
      have hP := abs_sub_abs_le_abs_sub (Double.toRat (Double.fin sp mp ep))
        ((x.getD n Double.zero).toRat * (y.getD n Double.zero).toRat)
      have hadd := abs_add (Double.toRat (Double.fin s m e)) (Double.toRat (Double.fin sp mp ep))
      have ht := hterm n
      have h38 : (2 : ℚ) ^ (-38 : ℤ) ≤ 1 := by norm_num
      have h53 : (2 : ℚ) ^ (-53 : ℤ) ≤ 1 := by norm_num
      have hb1 : ((1 + (2 : ℚ) ^ (-53 : ℤ)) ^ (2 * n) - 1) *
          ∑ i in range n, |(x.getD i Double.zero).toRat * (y.getD i Double.zero).toRat| ≤
          1 * ((n : ℚ) * (2 : ℚ) ^ (1000 : ℤ)) :=
        mul_le_mul (le_trans ha1 h38) hS hS0 (by norm_num)
      have hb2 : (2 : ℚ) ^ (-53 : ℤ) *
          |(x.getD n Double.zero).toRat * (y.getD n Double.zero).toRat| ≤
          1 * (2 : ℚ) ^ (1000 : ℤ) := mul_le_mul h53 ht (abs_nonneg _) (by norm_num)
      have hpos : (0 : ℚ) < (2 : ℚ) ^ (1000 : ℤ) := zpow_pos (by norm_num) _
      have hfin : (2 * 5631 + 2) * (2 : ℚ) ^ (1000 : ℤ) < (2 : ℚ) ^ (1023 : ℤ) := by norm_num
      have hn2 : (n : ℚ) * (2 : ℚ) ^ (1000 : ℤ) ≤ 5631 * (2 : ℚ) ^ (1000 : ℤ) :=
        mul_le_mul_of_nonneg_right hn' hpos.le
      linarith
    obtain ⟨s', m', e', hadd, he', haerr⟩ := Double.add_spec s sp m mp e ep he hep hov
    refine ⟨s', m', e', ?_, he', ?_⟩
    · rw [dotSum_succ, hd]
      show Double.add (Double.fin s m e)
        (Double.mul (x.getD n Double.zero) (y.getD n Double.zero)) = _
      rw [hmul, hadd]
    · rw [sum_range_succ, sum_range_succ]
      have hstep := sumError_step ((2 : ℚ) ^ (-53 : ℤ)) _ _ _ _ _ _ _ hu ha hTS herr hperr haerr
      have hg : (1 + (2 : ℚ) ^ (-53 : ℤ)) ^ (2 * (n + 1)) - 1 =
          (1 + (2 : ℚ) ^ (-53 : ℤ)) ^ 2 * (1 + ((1 + (2 : ℚ) ^ (-53 : ℤ)) ^ (2 * n) - 1)) - 1 := by
        rw [show 2 * (n + 1) = 2 * n + 2 by ring, pow_add]
        ring
      rw [hg]
      exact hstep

namespace Double

/-- The operator `*` on two positive finite doubles whose exact product is in the normal
range. -/
theorem mul_normal (m1 m2 : Nat) (e1 e2 : Int) (h0 : m1 * m2 ≠ 0)
    (hlo : (2 : ℚ) ^ (-1022 : ℤ) ≤ ((m1 : ℚ) * (2 : ℚ) ^ e1) * ((m2 : ℚ) * (2 : ℚ) ^ e2))
    (hhi : ((m1 : ℚ) * (2 : ℚ) ^ e1) * ((m2 : ℚ) * (2 : ℚ) ^ e2) < (2 : ℚ) ^ (1023 : ℤ)) :
    ∃ (q : Nat) (e' : Int), mul (fin false m1 e1) (fin false m2 e2) = fin false q e' ∧
      -1074 ≤ e' ∧
      |(q : ℚ) * (2 : ℚ) ^ e' - ((m1 : ℚ) * (2 : ℚ) ^ e1) * ((m2 : ℚ) * (2 : ℚ) ^ e2)| ≤
        (2 : ℚ) ^ (-53 : ℤ) * (((m1 : ℚ) * (2 : ℚ) ^ e1) * ((m2 : ℚ) * (2 : ℚ) ^ e2)) := by
  have hprod : ((m1 * m2 : Nat) : ℚ) * (2 : ℚ) ^ (e1 + e2) =
      ((m1 : ℚ) * (2 : ℚ) ^ e1) * ((m2 : ℚ) * (2 : ℚ) ^ e2) := by
    rw [zpow_add₀ (by norm_num : (2 : ℚ) ≠ 0)]
    push_cast
    ring
  rw [← hprod] at hlo hhi ⊢
  obtain ⟨q, e', hr, he', herr⟩ := round_normal false (m1 * m2) (e1 + e2) h0 hlo hhi
  exact ⟨q, e', hr, he', herr⟩

/-- The function `sqrt` on a positive finite double in the normal range: the square of the
result is within the relative error `2^-51` of the argument. -/
theorem sqrt_spec (m : Nat) (e : Int) (hm : m ≠ 0)
    (hlo : (2 : ℚ) ^ (-1022 : ℤ) ≤ (m : ℚ) * (2 : ℚ) ^ e)
    (hhi : (m : ℚ) * (2 : ℚ) ^ e < (2 : ℚ) ^ (1023 : ℤ)) :
    ∃ (q : Nat) (e' : Int), sqrt (fin false m e) = fin false q e' ∧ -1074 ≤ e' ∧
      0 < (q : ℚ) * (2 : ℚ) ^ e' ∧
      (1 - (2 : ℚ) ^ (-51 : ℤ)) * ((m : ℚ) * (2 : ℚ) ^ e) ≤ ((q : ℚ) * (2 : ℚ) ^ e') ^ 2 ∧
      ((q : ℚ) * (2 : ℚ) ^ e') ^ 2 ≤ (1 + (2 : ℚ) ^ (-51 : ℤ)) * ((m : ℚ) * (2 : ℚ) ^ e) := by
  have h2 : (2 : ℚ) ≠ 0 := by norm_num
  obtain ⟨k, hk⟩ : ∃ k : Nat, k = if (e - 110) % 2 = 0 then 110 else 111 := ⟨_, rfl⟩
  have hk110 : 110 ≤ k := by rw [hk]; split <;> omega
  obtain ⟨h, hh⟩ : ∃ h : Int, e - (k : Int) = 2 * h := by
    refine ⟨(e - (k : Int)) / 2, ?_⟩
    rw [hk]
    split <;> omega
  obtain ⟨r, hr⟩ : ∃ r, r = isqrt (m * 2 ^ k) := ⟨_, rfl⟩
  obtain ⟨s0, hs0⟩ : ∃ s0 : Nat, s0 = if r * r = m * 2 ^ k then 0 else 1 := ⟨_, rfl⟩
  have hsq : sqrt (fin false m e) = round false (2 * r + s0) (h - 1) := by
    have hdiv : (e - (k : Int)) / 2 - 1 = h - 1 := by omega
    simp only [sqrt, hm, if_false, Bool.false_eq_true]
    rw [← hk, ← hr, ← hs0, hdiv]
  have hspec := isqrt_spec (m * 2 ^ k)
  rw [← hr] at hspec
  -- the root has at least 56 bits
  have hn110 : 2 ^ 110 ≤ m * 2 ^ k := by
    calc 2 ^ 110 ≤ 2 ^ k := Nat.pow_le_pow_right (by norm_num) hk110
      _ ≤ m * 2 ^ k := Nat.le_mul_of_pos_left _ (Nat.pos_of_ne_zero hm)
  have hr55 : 2 ^ 55 ≤ r := by
    by_contra hc
    have h1 : r + 1 ≤ 2 ^ 55 := by omega
    have h3 : (r + 1) * (r + 1) ≤ 2 ^ 55 * 2 ^ 55 := Nat.mul_le_mul h1 h1
    have h4 : (2 : Nat) ^ 55 * 2 ^ 55 = 2 ^ 110 := by norm_num
    omega
  -- in rationals
  have hrQ : ((2 : ℚ) ^ 55) ≤ (r : ℚ) := by exact_mod_cast hr55
  have hnQ1 : (r : ℚ) * r ≤ (m : ℚ) * 2 ^ k := by exact_mod_cast hspec.1
  have hnQ2 : (m : ℚ) * 2 ^ k < ((r : ℚ) + 1) * (r + 1) := by exact_mod_cast hspec.2
  have hs0' : ((s0 : ℚ) = 0 ∧ (r : ℚ) * r = (m : ℚ) * 2 ^ k) ∨
      ((s0 : ℚ) = 1 ∧ (r : ℚ) * r + 1 ≤ (m : ℚ) * 2 ^ k) := by
    by_cases hc : r * r = m * 2 ^ k
    · left
      rw [hs0, if_pos hc]
      exact ⟨by simp, by exact_mod_cast hc⟩
    · right
      rw [hs0, if_neg hc]
      have : r * r + 1 ≤ m * 2 ^ k := by
        have := hspec.1
        omega
      exact ⟨by simp, by exact_mod_cast this⟩
  -- the value handed to `round` and its square
  have hV : (m : ℚ) * (2 : ℚ) ^ e = ((m : ℚ) * 2 ^ k) * ((2 : ℚ) ^ h) ^ 2 := by
    have : e = (k : Int) + (h + h) := by omega
    rw [this, zpow_add₀ h2, zpow_add₀ h2, zpow_natCast]
    ring
  have hW : ((2 * r + s0 : Nat) : ℚ) * (2 : ℚ) ^ (h - 1) = ((r : ℚ) + s0 / 2) * (2 : ℚ) ^ h := by
    rw [zpow_sub₀ h2, zpow_one]
    push_cast
    ring
  have hph : (0 : ℚ) < (2 : ℚ) ^ h := zpow_pos (by norm_num) h
  have hn0 : (0 : ℚ) < (m : ℚ) * 2 ^ k := by
    have : (0 : ℚ) < r := lt_of_lt_of_le (by positivity) hrQ
    exact lt_of_lt_of_le (mul_pos this this) hnQ1
  have hWpos : (0 : ℚ) < ((r : ℚ) + s0 / 2) * (2 : ℚ) ^ h := by
    have : (0 : ℚ) < r := lt_of_lt_of_le (by positivity) hrQ
    have : (0 : ℚ) ≤ (s0 : ℚ) / 2 := by positivity
    exact mul_pos (by linarith) hph
  -- `(r + s0/2)^2` is within `2^-54` of `n`
  have hclose : |((r : ℚ) + s0 / 2) ^ 2 - (m : ℚ) * 2 ^ k| ≤
      (2 : ℚ) ^ (-54 : ℤ) * ((m : ℚ) * 2 ^ k) := by
    have hrpos : (0 : ℚ) < r := lt_of_lt_of_le (by positivity) hrQ
    have h54 : (2 : ℚ) ^ (-54 : ℤ) * (2 : ℚ) ^ 55 = 2 := by norm_num
    have hbig : 2 * (r : ℚ) ≤ (2 : ℚ) ^ (-54 : ℤ) * ((m : ℚ) * 2 ^ k) := by
      have h1 : (2 : ℚ) ^ (-54 : ℤ) * ((r : ℚ) * r) ≤ (2 : ℚ) ^ (-54 : ℤ) * ((m : ℚ) * 2 ^ k) :=
        mul_le_mul_of_nonneg_left hnQ1 (zpow_pos (by norm_num) _).le
      have h3 : (2 : ℚ) ^ (-54 : ℤ) * ((2 : ℚ) ^ 55 * r) ≤ (2 : ℚ) ^ (-54 : ℤ) * ((r : ℚ) * r) :=
        mul_le_mul_of_nonneg_left (mul_le_mul_of_nonneg_right hrQ hrpos.le)
          (zpow_pos (by norm_num) _).le
      have h4 : (2 : ℚ) ^ (-54 : ℤ) * ((2 : ℚ) ^ 55 * r) = 2 * r := by
        rw [← mul_assoc, h54]
      linarith
    rcases hs0' with ⟨hz, heq⟩ | ⟨ho, hge⟩
    · rw [hz, zero_div, add_zero, sq, heq, sub_self, abs_zero]
      exact le_trans (by positivity) hbig
    · rw [ho, abs_le]
      have e1 : ((r : ℚ) + 1 / 2) ^ 2 = (r : ℚ) * r + r + 1 / 4 := by ring
      have e2 : ((r : ℚ) + 1) * (r + 1) = (r : ℚ) * r + 2 * r + 1 := by ring
      rw [e1]
      rw [e2] at hnQ2
      generalize (2 : ℚ) ^ (-54 : ℤ) * ((m : ℚ) * 2 ^ k) = B at hbig ⊢
      generalize (m : ℚ) * 2 ^ k = n at hnQ2 hge ⊢
      generalize (r : ℚ) * r = rr at hnQ2 hge ⊢
      constructor <;> linarith
  have hphsq : (0 : ℚ) < ((2 : ℚ) ^ h) ^ 2 := by positivity
  have hWV : |(((r : ℚ) + s0 / 2) * (2 : ℚ) ^ h) ^ 2 - (m : ℚ) * (2 : ℚ) ^ e| ≤
      (2 : ℚ) ^ (-54 : ℤ) * ((m : ℚ) * (2 : ℚ) ^ e) := by
    rw [hV, mul_pow, ← sub_mul, abs_mul, abs_of_pos hphsq, ← mul_assoc]
    exact mul_le_mul_of_nonneg_right hclose hphsq.le
  obtain ⟨hWV1, hWV2⟩ := abs_le.1 hWV
  have hVpos : (0 : ℚ) < (m : ℚ) * (2 : ℚ) ^ e := lt_of_lt_of_le (zpow_pos (by norm_num) _) hlo
  -- the value handed to `round` is in the normal range
  have hM0 : 2 * r + s0 ≠ 0 := by
    have : 0 < r := lt_of_lt_of_le (by norm_num) hr55
    omega
  have hWlo : (2 : ℚ) ^ (-1022 : ℤ) ≤ ((2 * r + s0 : Nat) : ℚ) * (2 : ℚ) ^ (h - 1) := by
    rw [hW]
    by_contra hc
    have hc' := not_le.1 hc
    have h1 : (((r : ℚ) + s0 / 2) * (2 : ℚ) ^ h) ^ 2 < ((2 : ℚ) ^ (-1022 : ℤ)) ^ 2 :=
      pow_lt_pow_left₀ hc' hWpos.le (by norm_num)
    have h3 : ((2 : ℚ) ^ (-1022 : ℤ)) ^ 2 ≤ (1 - (2 : ℚ) ^ (-54 : ℤ)) * (2 : ℚ) ^ (-1022 : ℤ) := by
      norm_num
    have h4 : (1 - (2 : ℚ) ^ (-54 : ℤ)) * (2 : ℚ) ^ (-1022 : ℤ) ≤
        (1 - (2 : ℚ) ^ (-54 : ℤ)) * ((m : ℚ) * (2 : ℚ) ^ e) :=
      mul_le_mul_of_nonneg_left hlo (by norm_num)
    have h5 : (1 - (2 : ℚ) ^ (-54 : ℤ)) * ((m : ℚ) * (2 : ℚ) ^ e) ≤
        (((r : ℚ) + s0 / 2) * (2 : ℚ) ^ h) ^ 2 := by linarith
    exact absurd (lt_of_lt_of_le h1 (h3.trans (h4.trans h5))) (lt_irrefl _)
  have hWhi : ((2 * r + s0 : Nat) : ℚ) * (2 : ℚ) ^ (h - 1) < (2 : ℚ) ^ (1023 : ℤ) := by
    rw [hW]
    by_contra hc
    have hc' := not_lt.1 hc
    have h1 : ((2 : ℚ) ^ (1023 : ℤ)) ^ 2 ≤ (((r : ℚ) + s0 / 2) * (2 : ℚ) ^ h) ^ 2 :=
      pow_le_pow_left₀ (by positivity) hc' 2
    have h3 : (1 + (2 : ℚ) ^ (-54 : ℤ)) * (2 : ℚ) ^ (1023 : ℤ) < ((2 : ℚ) ^ (1023 : ℤ)) ^ 2 := by
      norm_num
    have h4 : (1 + (2 : ℚ) ^ (-54 : ℤ)) * ((m : ℚ) * (2 : ℚ) ^ e) ≤
        (1 + (2 : ℚ) ^ (-54 : ℤ)) * (2 : ℚ) ^ (1023 : ℤ) :=
      mul_le_mul_of_nonneg_left hhi.le (by norm_num)
    have h5 : (((r : ℚ) + s0 / 2) * (2 : ℚ) ^ h) ^ 2 ≤
        (1 + (2 : ℚ) ^ (-54 : ℤ)) * ((m : ℚ) * (2 : ℚ) ^ e) := by linarith
    exact absurd (lt_of_le_of_lt (h1.trans (h5.trans h4)) h3) (lt_irrefl _)
  obtain ⟨q, e', hrd, he', herr⟩ := round_normal false (2 * r + s0) (h - 1) hM0 hWlo hWhi
  rw [hW] at herr
  obtain ⟨herr1, herr2⟩ := abs_le.1 herr
  have hu : (2 : ℚ) ^ (-53 : ℤ) = 1 / 9007199254740992 := by norm_num
  have hRlo : (1 - (2 : ℚ) ^ (-53 : ℤ)) * (((r : ℚ) + s0 / 2) * (2 : ℚ) ^ h) ≤
      (q : ℚ) * (2 : ℚ) ^ e' := by linarith
  have hRhi : (q : ℚ) * (2 : ℚ) ^ e' ≤
      (1 + (2 : ℚ) ^ (-53 : ℤ)) * (((r : ℚ) + s0 / 2) * (2 : ℚ) ^ h) := by linarith
  have hRpos : 0 < (q : ℚ) * (2 : ℚ) ^ e' :=
    lt_of_lt_of_le (mul_pos (by norm_num) hWpos) hRlo
  refine ⟨q, e', by rw [hsq, hrd], he', hRpos, ?_, ?_⟩
  · have h1 : ((1 - (2 : ℚ) ^ (-53 : ℤ)) * (((r : ℚ) + s0 / 2) * (2 : ℚ) ^ h)) ^ 2 ≤
        ((q : ℚ) * (2 : ℚ) ^ e') ^ 2 :=
      pow_le_pow_left₀ (mul_nonneg (by norm_num) hWpos.le) hRlo 2
    have h3 : (1 - (2 : ℚ) ^ (-51 : ℤ)) ≤
        (1 - (2 : ℚ) ^ (-53 : ℤ)) ^ 2 * (1 - (2 : ℚ) ^ (-54 : ℤ)) := by norm_num
    have h4 : (1 - (2 : ℚ) ^ (-54 : ℤ)) * ((m : ℚ) * (2 : ℚ) ^ e) ≤
        (((r : ℚ) + s0 / 2) * (2 : ℚ) ^ h) ^ 2 := by linarith
    calc (1 - (2 : ℚ) ^ (-51 : ℤ)) * ((m : ℚ) * (2 : ℚ) ^ e)
        ≤ ((1 - (2 : ℚ) ^ (-53 : ℤ)) ^ 2 * (1 - (2 : ℚ) ^ (-54 : ℤ))) *
            ((m : ℚ) * (2 : ℚ) ^ e) := mul_le_mul_of_nonneg_right h3 hVpos.le
      _ = (1 - (2 : ℚ) ^ (-53 : ℤ)) ^ 2 *
            ((1 - (2 : ℚ) ^ (-54 : ℤ)) * ((m : ℚ) * (2 : ℚ) ^ e)) := by ring
      _ ≤ (1 - (2 : ℚ) ^ (-53 : ℤ)) ^ 2 * (((r : ℚ) + s0 / 2) * (2 : ℚ) ^ h) ^ 2 :=
          mul_le_mul_of_nonneg_left h4 (by positivity)
      _ = ((1 - (2 : ℚ) ^ (-53 : ℤ)) * (((r : ℚ) + s0 / 2) * (2 : ℚ) ^ h)) ^ 2 := by ring
      _ ≤ _ := h1
  · have h1 : ((q : ℚ) * (2 : ℚ) ^ e') ^ 2 ≤
        ((1 + (2 : ℚ) ^ (-53 : ℤ)) * (((r : ℚ) + s0 / 2) * (2 : ℚ) ^ h)) ^ 2 :=
      pow_le_pow_left₀ hRpos.le hRhi 2
    have h3 : (1 + (2 : ℚ) ^ (-53 : ℤ)) ^ 2 * (1 + (2 : ℚ) ^ (-54 : ℤ)) ≤
        (1 + (2 : ℚ) ^ (-51 : ℤ)) := by norm_num
    have h4 : (((r : ℚ) + s0 / 2) * (2 : ℚ) ^ h) ^ 2 ≤
        (1 + (2 : ℚ) ^ (-54 : ℤ)) * ((m : ℚ) * (2 : ℚ) ^ e) := by linarith
    calc ((q : ℚ) * (2 : ℚ) ^ e') ^ 2
        ≤ ((1 + (2 : ℚ) ^ (-53 : ℤ)) * (((r : ℚ) + s0 / 2) * (2 : ℚ) ^ h)) ^ 2 := h1
      _ = (1 + (2 : ℚ) ^ (-53 : ℤ)) ^ 2 * (((r : ℚ) + s0 / 2) * (2 : ℚ) ^ h) ^ 2 := by ring
      _ ≤ (1 + (2 : ℚ) ^ (-53 : ℤ)) ^ 2 *
            ((1 + (2 : ℚ) ^ (-54 : ℤ)) * ((m : ℚ) * (2 : ℚ) ^ e)) :=
          mul_le_mul_of_nonneg_left h4 (by positivity)
      _ = ((1 + (2 : ℚ) ^ (-53 : ℤ)) ^ 2 * (1 + (2 : ℚ) ^ (-54 : ℤ))) *
            ((m : ℚ) * (2 : ℚ) ^ e) := by ring
      _ ≤ _ := mul_le_mul_of_nonneg_right h3 hVpos.le

end Double

/-- Two relative errors in a row. -/
theorem relError_trans (u c d R W X : ℚ) (hu : 0 ≤ u) (hd : u * (1 + c) + c ≤ d) (hX : 0 ≤ X)
    (h1 : |W - X| ≤ c * X) (h2 : |R - W| ≤ u * W) : |R - X| ≤ d * X := by
  obtain ⟨h1a, h1b⟩ := abs_le.1 h1
  obtain ⟨h2a, h2b⟩ := abs_le.1 h2
  have hW : W ≤ (1 + c) * X := by linarith
  have h5 : u * W ≤ u * ((1 + c) * X) := mul_le_mul_of_nonneg_left hW hu
  have h6 : (u * (1 + c) + c) * X ≤ d * X := mul_le_mul_of_nonneg_right hd hX
  rw [abs_le]
  constructor <;> linarith

namespace Double

/-- The operator `/` on two finite nonzero doubles whose exact quotient is below `2^1022`: a
finite result, at most `(1 + 2^-52)` times the exact quotient or at most `2^-1021`, and within
the relative error `2^-52` when the exact quotient is at least `2^-1021`. -/
theorem div_spec (s1 s2 : Bool) (m1 m2 : Nat) (e1 e2 : Int) (h1 : m1 ≠ 0) (h2 : m2 ≠ 0)
    (hhi : ((m1 : ℚ) * (2 : ℚ) ^ e1) / ((m2 : ℚ) * (2 : ℚ) ^ e2) < (2 : ℚ) ^ (1022 : ℤ)) :
    ∃ (q : Nat) (e' : Int),
      div (fin s1 m1 e1) (fin s2 m2 e2) = fin (xor s1 s2) q e' ∧ -1074 ≤ e' ∧
      ((q : ℚ) * (2 : ℚ) ^ e' ≤
          (1 + (2 : ℚ) ^ (-52 : ℤ)) * (((m1 : ℚ) * (2 : ℚ) ^ e1) / ((m2 : ℚ) * (2 : ℚ) ^ e2)) ∨
        (q : ℚ) * (2 : ℚ) ^ e' ≤ (2 : ℚ) ^ (-1021 : ℤ)) ∧
      ((2 : ℚ) ^ (-1021 : ℤ) ≤ ((m1 : ℚ) * (2 : ℚ) ^ e1) / ((m2 : ℚ) * (2 : ℚ) ^ e2) →
        |(q : ℚ) * (2 : ℚ) ^ e' - ((m1 : ℚ) * (2 : ℚ) ^ e1) / ((m2 : ℚ) * (2 : ℚ) ^ e2)| ≤
          (2 : ℚ) ^ (-52 : ℤ) * (((m1 : ℚ) * (2 : ℚ) ^ e1) / ((m2 : ℚ) * (2 : ℚ) ^ e2))) := by
  have h2' : (2 : ℚ) ≠ 0 := by norm_num
  obtain ⟨k, hk⟩ : ∃ k : Nat, k = bitLen m2 + 56 := ⟨_, rfl⟩
  obtain ⟨f, hf⟩ : ∃ f : Nat, f = m1 * 2 ^ k / m2 := ⟨_, rfl⟩
  obtain ⟨s0, hs0⟩ : ∃ s0 : Nat, s0 = if m1 * 2 ^ k % m2 = 0 then 0 else 1 := ⟨_, rfl⟩
  have hdiv : div (fin s1 m1 e1) (fin s2 m2 e2) = round (xor s1 s2) (2 * f + s0) (e1 - e2 - k - 1) := by
    simp only [div, h2, if_false]
    rw [← hk, ← hf, ← hs0]
  have hm2pos : 0 < m2 := Nat.pos_of_ne_zero h2
  have hm1pos : 0 < m1 := Nat.pos_of_ne_zero h1
  -- facts on the integer quotient
  have hdm := Nat.div_add_mod (m1 * 2 ^ k) m2
  rw [← hf] at hdm
  have hmod := Nat.mod_lt (m1 * 2 ^ k) hm2pos
  have hf56 : 2 ^ 56 ≤ f := by
    rw [hf, Nat.le_div_iff_mul_le hm2pos]
    have hb := lt_two_pow_bitLen m2
    calc 2 ^ 56 * m2 ≤ 2 ^ 56 * 2 ^ bitLen m2 := Nat.mul_le_mul_left _ hb.le
      _ = 2 ^ k := by rw [hk, Nat.add_comm, pow_add]
      _ ≤ m1 * 2 ^ k := Nat.le_mul_of_pos_left _ hm1pos
  -- in rationals
  have hm2Q : (0 : ℚ) < (m2 : ℚ) := by exact_mod_cast hm2pos
  have hfQ : (2 : ℚ) ^ 56 ≤ (f : ℚ) := by exact_mod_cast hf56
  have hfpos : (0 : ℚ) < (f : ℚ) := lt_of_lt_of_le (by positivity) hfQ
  obtain ⟨ν, hν⟩ : ∃ ν : ℚ, ν = ((m1 : ℚ) * 2 ^ k) / m2 := ⟨_, rfl⟩
  have hνm : ν * m2 = (m1 : ℚ) * 2 ^ k := by
    rw [hν, div_mul_cancel₀ _ hm2Q.ne']
  have hcases : ((s0 : ℚ) = 0 ∧ ν = f) ∨ ((s0 : ℚ) = 1 ∧ (f : ℚ) < ν ∧ ν < f + 1) := by
    by_cases hc : m1 * 2 ^ k % m2 = 0
    · left
      rw [hs0, if_pos hc]
      refine ⟨by simp, ?_⟩
      rw [hc, add_zero] at hdm
      have : (m2 : ℚ) * f = (m1 : ℚ) * 2 ^ k := by exact_mod_cast hdm
      rw [hν, ← this, mul_comm, mul_div_assoc, div_self hm2Q.ne', mul_one]
    · right
      rw [hs0, if_neg hc]
      have hlt1 : m2 * f < m1 * 2 ^ k := by
        have : 0 < m1 * 2 ^ k % m2 := Nat.pos_of_ne_zero hc
        omega
      have hlt2 : m1 * 2 ^ k < m2 * (f + 1) := by
        rw [Nat.mul_add, Nat.mul_one]
        omega
      have hlt1Q : (m2 : ℚ) * f < (m1 : ℚ) * 2 ^ k := by exact_mod_cast hlt1
      have hlt2Q : (m1 : ℚ) * 2 ^ k < (m2 : ℚ) * (f + 1) := by exact_mod_cast hlt2
      refine ⟨by simp, ?_, ?_⟩
      · rw [hν, lt_div_iff₀ hm2Q]
        linarith
      · rw [hν, div_lt_iff₀ hm2Q]
        linarith
  have hνf : (f : ℚ) ≤ ν := by
    rcases hcases with ⟨_, h⟩ | ⟨_, h, _⟩
    · exact h.ge
    · exact h.le
  have hclose : |((f : ℚ) + s0 / 2) - ν| ≤ (2 : ℚ) ^ (-57 : ℤ) * ν := by
    have h57 : (2 : ℚ) ^ (-57 : ℤ) * (2 : ℚ) ^ 56 = 1 / 2 := by norm_num
    have hhalf : (1 / 2 : ℚ) ≤ (2 : ℚ) ^ (-57 : ℤ) * ν := by
      rw [← h57]
      exact mul_le_mul_of_nonneg_left (hfQ.trans hνf) (zpow_pos (by norm_num) _).le
    generalize (2 : ℚ) ^ (-57 : ℤ) * ν = B at hhalf ⊢
    rcases hcases with ⟨hz, heq⟩ | ⟨ho, hlt1, hlt2⟩
    · rw [hz, heq, zero_div, add_zero, sub_self, abs_zero]
      linarith
    · rw [ho, abs_le]
      constructor <;> linarith
  -- the exact quotient and the value handed to `round`
  obtain ⟨P, hP⟩ : ∃ P : ℚ, P = (2 : ℚ) ^ (e1 - e2 - (k : Int)) := ⟨_, rfl⟩
  have hPpos : 0 < P := by rw [hP]; exact zpow_pos (by norm_num) _
  have hX : ((m1 : ℚ) * (2 : ℚ) ^ e1) / ((m2 : ℚ) * (2 : ℚ) ^ e2) = ν * P := by
    rw [hν, hP, zpow_sub₀ h2', zpow_sub₀ h2', zpow_natCast]
    have ha : (2 : ℚ) ^ e2 ≠ 0 := (zpow_pos (by norm_num) _).ne'
    have hb : (2 : ℚ) ^ k ≠ 0 := by positivity
    field_simp
    ring
  have hW : ((2 * f + s0 : Nat) : ℚ) * (2 : ℚ) ^ (e1 - e2 - (k : Int) - 1) =
      ((f : ℚ) + s0 / 2) * P := by
    rw [hP, zpow_sub₀ h2' (e1 - e2 - (k : Int)), zpow_one]
    push_cast
    ring
  rw [hX] at hhi ⊢
  have hνpos : 0 < ν := lt_of_lt_of_le hfpos hνf
  have hXpos : 0 < ν * P := mul_pos hνpos hPpos
  have hWX : |((f : ℚ) + s0 / 2) * P - ν * P| ≤ (2 : ℚ) ^ (-57 : ℤ) * (ν * P) := by
    rw [← sub_mul, abs_mul, abs_of_pos hPpos, ← mul_assoc]
    exact mul_le_mul_of_nonneg_right hclose hPpos.le
  obtain ⟨hWX1, hWX2⟩ := abs_le.1 hWX
  have hM0 : 2 * f + s0 ≠ 0 := by
    have : 0 < f := lt_of_lt_of_le (by norm_num) hf56
    omega
  have hWup : ((f : ℚ) + s0 / 2) * P ≤ (1 + (2 : ℚ) ^ (-57 : ℤ)) * (ν * P) := by linarith
  have hWdn : (1 - (2 : ℚ) ^ (-57 : ℤ)) * (ν * P) ≤ ((f : ℚ) + s0 / 2) * P := by linarith
  rw [hdiv]
  by_cases hsmall : ((f : ℚ) + s0 / 2) * P < (2 : ℚ) ^ (-1022 : ℤ)
  · -- below the normal range
    obtain ⟨q, e', hrd, he', hle⟩ := round_tiny (xor s1 s2) (2 * f + s0) (e1 - e2 - k - 1) hM0
      (by rw [hW]; exact hsmall)
    refine ⟨q, e', hrd, he', Or.inr hle, ?_⟩
    intro hbig
    exfalso
    have h3 : (1 - (2 : ℚ) ^ (-57 : ℤ)) * (2 : ℚ) ^ (-1021 : ℤ) ≤
        (1 - (2 : ℚ) ^ (-57 : ℤ)) * (ν * P) :=
      mul_le_mul_of_nonneg_left hbig (by norm_num)
    have h4 : (2 : ℚ) ^ (-1022 : ℤ) ≤ (1 - (2 : ℚ) ^ (-57 : ℤ)) * (2 : ℚ) ^ (-1021 : ℤ) := by
      norm_num
    exact absurd (lt_of_le_of_lt (h4.trans (h3.trans hWdn)) hsmall) (lt_irrefl _)
  · -- in the normal range
    have hlo := not_lt.1 hsmall
    have hup : ((f : ℚ) + s0 / 2) * P < (2 : ℚ) ^ (1023 : ℤ) := by
      have h3 : (1 + (2 : ℚ) ^ (-57 : ℤ)) * (ν * P) ≤
          (1 + (2 : ℚ) ^ (-57 : ℤ)) * (2 : ℚ) ^ (1022 : ℤ) :=
        mul_le_mul_of_nonneg_left hhi.le (by norm_num)
      have h4 : (1 + (2 : ℚ) ^ (-57 : ℤ)) * (2 : ℚ) ^ (1022 : ℤ) < (2 : ℚ) ^ (1023 : ℤ) := by
        norm_num
      exact lt_of_le_of_lt (hWup.trans h3) h4
    obtain ⟨q, e', hrd, he', herr⟩ := round_normal (xor s1 s2) (2 * f + s0) (e1 - e2 - k - 1) hM0
      (by rw [hW]; exact hlo) (by rw [hW]; exact hup)
    rw [hW] at herr
    have hfin : |(q : ℚ) * (2 : ℚ) ^ e' - ν * P| ≤ (2 : ℚ) ^ (-52 : ℤ) * (ν * P) :=
      relError_trans _ _ _ _ _ _ (by norm_num) (by norm_num) hXpos.le hWX herr
    refine ⟨q, e', hrd, he', Or.inl ?_, fun _ => hfin⟩
    have := (abs_le.1 hfin).2
    linarith

/-- A finite double with a positive value has a clear sign bit and a nonzero mantissa. -/
theorem pos_of_toRat_pos (s : Bool) (m : Nat) (e : Int) (h : 0 < toRat (fin s m e)) :
    s = false ∧ m ≠ 0 := by
  have hp : (0 : ℚ) < (2 : ℚ) ^ e := zpow_pos (by norm_num) e
  have hm : (0 : ℚ) ≤ (m : ℚ) := Nat.cast_nonneg m
  cases s with
  | true =>
    exfalso
    simp only [toRat, if_true] at h
    have : -(m : ℚ) * (2 : ℚ) ^ e ≤ 0 := by
      rw [neg_mul]
      exact neg_nonpos.2 (mul_nonneg hm hp.le)
    linarith
  | false =>
    refine ⟨rfl, ?_⟩
    rintro rfl
    simp [toRat] at h

theorem toRat_pos_eq (m : Nat) (e : Int) : toRat (fin false m e) = (m : ℚ) * (2 : ℚ) ^ e := by
  simp [toRat]

theorem div_zero_left (s1 s2 : Bool) (m2 : Nat) (e1 e2 : Int) (h : m2 ≠ 0) :
    div (fin s1 0 e1) (fin s2 m2 e2) = fin (xor s1 s2) 0 (-1074) := by
  simp [div, h, round_zero]

end Double

/-- From a bound on squares to a bound on the values. -/
theorem le_mul_of_sq_le (x y K : ℚ) (hy : 0 ≤ y) (hK : 0 ≤ K) (h : x ^ 2 ≤ K ^ 2 * y ^ 2) :
    x ≤ K * y := by
  have h1 : x ^ 2 ≤ (K * y) ^ 2 := by rw [mul_pow]; exact h
  exact (abs_le_of_sq_le_sq' h1 (mul_nonneg hK hy)).2

open Finset in
/-- The sum of squares of `computeSimilarity`, in binary64, for a vector in range with a
nonzero component: a positive finite double within the relative error `2^-38` of the exact
sum, which lies between `2^-1000` and `5632 * 2^1000`. -/
theorem sumSq_spec (x : List Double) (hx : ∀ i, (x.getD i Double.zero).InRange)
    (hn : ∃ k, k < 5632 ∧ (x.getD k Double.zero).toRat ≠ 0) :
    ∃ (m : Nat) (e : Int), dotSum ieee x x 5632 = Double.fin false m e ∧ m ≠ 0 ∧
      (1 - (2 : ℚ) ^ (-38 : ℤ)) *
          (∑ i in range 5632, (x.getD i Double.zero).toRat * (x.getD i Double.zero).toRat) ≤
        (m : ℚ) * (2 : ℚ) ^ e ∧
      (m : ℚ) * (2 : ℚ) ^ e ≤ (1 + (2 : ℚ) ^ (-38 : ℤ)) *
          (∑ i in range 5632, (x.getD i Double.zero).toRat * (x.getD i Double.zero).toRat) ∧
      (2 : ℚ) ^ (-1001 : ℤ) ≤ (m : ℚ) * (2 : ℚ) ^ e ∧
      (m : ℚ) * (2 : ℚ) ^ e ≤ (2 : ℚ) ^ (1014 : ℤ) := by
  obtain ⟨s, m, e, hd, _, herr⟩ := dotSum_spec x x hx hx 5632 (le_refl _)
  have hg := sumError_le 5632 (le_refl _)
  have habs : ∀ i, |(x.getD i Double.zero).toRat * (x.getD i Double.zero).toRat| =
      (x.getD i Double.zero).toRat * (x.getD i Double.zero).toRat := fun i => abs_mul_self _
  simp only [habs] at herr
  obtain ⟨Q, hQ⟩ : ∃ Q : ℚ, Q =
      ∑ i in range 5632, (x.getD i Double.zero).toRat * (x.getD i Double.zero).toRat := ⟨_, rfl⟩
  rw [← hQ] at herr ⊢
  -- the exact sum is between `2^-1000` and `5632 * 2^1000`
  have hterm0 : ∀ i ∈ range 5632,
      0 ≤ (x.getD i Double.zero).toRat * (x.getD i Double.zero).toRat :=
    fun i _ => mul_self_nonneg _
  have hQlo : (2 : ℚ) ^ (-1000 : ℤ) ≤ Q := by
    obtain ⟨k, hk, hk0⟩ := hn
    have h1 := single_le_sum hterm0 (mem_range.2 hk)
    have h2 := (Double.inRange_abs _ (hx k)).2 hk0
    have h3 : (2 : ℚ) ^ (-500 : ℤ) * (2 : ℚ) ^ (-500 : ℤ) ≤
        |(x.getD k Double.zero).toRat| * |(x.getD k Double.zero).toRat| :=
      mul_le_mul h2 h2 (by positivity) (abs_nonneg _)
    rw [abs_mul_abs_self] at h3
    have h4 : (2 : ℚ) ^ (-1000 : ℤ) = (2 : ℚ) ^ (-500 : ℤ) * (2 : ℚ) ^ (-500 : ℤ) := by
      rw [← zpow_add₀ (by norm_num : (2 : ℚ) ≠ 0)]; norm_num
    rw [hQ, h4]
    exact h3.trans h1
  have hQhi : Q ≤ 5632 * (2 : ℚ) ^ (1000 : ℤ) := by
    have h1 : ∀ i ∈ range 5632,
        (x.getD i Double.zero).toRat * (x.getD i Double.zero).toRat ≤ (2 : ℚ) ^ (1000 : ℤ) := by
      intro i _
      have h2 := (Double.inRange_abs _ (hx i)).1
      have h3 : |(x.getD i Double.zero).toRat| * |(x.getD i Double.zero).toRat| ≤
          (2 : ℚ) ^ (500 : ℤ) * (2 : ℚ) ^ (500 : ℤ) :=
        mul_le_mul h2 h2 (abs_nonneg _) (by positivity)
      rw [abs_mul_abs_self] at h3
      have h4 : (2 : ℚ) ^ (1000 : ℤ) = (2 : ℚ) ^ (500 : ℤ) * (2 : ℚ) ^ (500 : ℤ) := by
        rw [← zpow_add₀ (by norm_num : (2 : ℚ) ≠ 0)]; norm_num
      rw [h4]
      exact h3
    have h5 := sum_le_card_nsmul (range 5632) _ _ h1
    rw [card_range, nsmul_eq_mul] at h5
    rw [hQ]
    exact_mod_cast h5
  have hQpos : 0 < Q := lt_of_lt_of_le (zpow_pos (by norm_num) _) hQlo
  -- the computed sum
  have hgQ : ((1 + (2 : ℚ) ^ (-53 : ℤ)) ^ (2 * 5632) - 1) * Q ≤ (2 : ℚ) ^ (-38 : ℤ) * Q :=
    mul_le_mul_of_nonneg_right hg hQpos.le
  generalize ((1 + (2 : ℚ) ^ (-53 : ℤ)) ^ (2 * 5632) - 1) * Q = G at herr hgQ
  obtain ⟨herr1, herr2⟩ := abs_le.1 herr
  have hlo : (1 - (2 : ℚ) ^ (-38 : ℤ)) * Q ≤ Double.toRat (Double.fin s m e) := by linarith
  have hhi : Double.toRat (Double.fin s m e) ≤ (1 + (2 : ℚ) ^ (-38 : ℤ)) * Q := by linarith
  have hpos : 0 < Double.toRat (Double.fin s m e) :=
    lt_of_lt_of_le (mul_pos (by norm_num) hQpos) hlo
  obtain ⟨hs, hm⟩ := Double.pos_of_toRat_pos s m e hpos
  subst hs
  rw [Double.toRat_pos_eq] at hlo hhi
  refine ⟨m, e, hd, hm, hlo, hhi, ?_, ?_⟩
  · have h1 : (1 - (2 : ℚ) ^ (-38 : ℤ)) * (2 : ℚ) ^ (-1000 : ℤ) ≤
        (1 - (2 : ℚ) ^ (-38 : ℤ)) * Q := mul_le_mul_of_nonneg_left hQlo (by norm_num)
    have h2 : (2 : ℚ) ^ (-1001 : ℤ) ≤ (1 - (2 : ℚ) ^ (-38 : ℤ)) * (2 : ℚ) ^ (-1000 : ℤ) := by
      norm_num
    exact h2.trans (h1.trans hlo)
  · have h1 : (1 + (2 : ℚ) ^ (-38 : ℤ)) * Q ≤
        (1 + (2 : ℚ) ^ (-38 : ℤ)) * (5632 * (2 : ℚ) ^ (1000 : ℤ)) :=
      mul_le_mul_of_nonneg_left hQhi (by norm_num)
    have h2 : (1 + (2 : ℚ) ^ (-38 : ℤ)) * (5632 * (2 : ℚ) ^ (1000 : ℤ)) ≤
        (2 : ℚ) ^ (1014 : ℤ) := by norm_num
    exact hhi.trans (h1.trans h2)

open Finset in
/-- The numerator of `computeSimilarity`, in binary64, for vectors in range: a finite double
whose square is at most `(1 + 2^-38)^2` times the product of the exact sums of squares
(the Cauchy-Schwarz inequality, with the rounding of the sum). -/
theorem numerator_spec (x y : List Double) (hx : ∀ i, (x.getD i Double.zero).InRange)
    (hy : ∀ i, (y.getD i Double.zero).InRange) :
    ∃ (s : Bool) (m : Nat) (e : Int), dotSum ieee x y 5632 = Double.fin s m e ∧
      ((m : ℚ) * (2 : ℚ) ^ e) ^ 2 ≤ (1 + (2 : ℚ) ^ (-38 : ℤ)) ^ 2 *
        ((∑ i in range 5632, (x.getD i Double.zero).toRat * (x.getD i Double.zero).toRat) *
          (∑ i in range 5632, (y.getD i Double.zero).toRat * (y.getD i Double.zero).toRat)) := by
  obtain ⟨s, m, e, hd, _, herr⟩ := dotSum_spec x y hx hy 5632 (le_refl _)
  refine ⟨s, m, e, hd, ?_⟩
  have hg := sumError_le 5632 (le_refl _)
  have hTS := abs_sum_le_sum_abs
    (fun i => (x.getD i Double.zero).toRat * (y.getD i Double.zero).toRat) (range 5632)
  have hCS := sum_mul_sq_le_sq_mul_sq (range 5632)
    (fun i => |(x.getD i Double.zero).toRat|) (fun i => |(y.getD i Double.zero).toRat|)
  simp only [sq_abs, ← abs_mul] at hCS
  simp only [sq] at hCS
  have hS0 : 0 ≤ ∑ i in range 5632,
      |(x.getD i Double.zero).toRat * (y.getD i Double.zero).toRat| :=
    sum_nonneg (fun i _ => abs_nonneg _)
  generalize (∑ i in range 5632, (x.getD i Double.zero).toRat * (x.getD i Double.zero).toRat) = Q
    at hCS ⊢
  generalize (∑ i in range 5632, (y.getD i Double.zero).toRat * (y.getD i Double.zero).toRat) = T
    at hCS ⊢
  generalize (∑ i in range 5632,
    |(x.getD i Double.zero).toRat * (y.getD i Double.zero).toRat|) = S at hCS hTS herr hS0
  generalize (∑ i in range 5632,
    (x.getD i Double.zero).toRat * (y.getD i Double.zero).toRat) = A at hTS herr
  have hgS : ((1 + (2 : ℚ) ^ (-53 : ℤ)) ^ (2 * 5632) - 1) * S ≤ (2 : ℚ) ^ (-38 : ℤ) * S :=
    mul_le_mul_of_nonneg_right hg hS0
  generalize ((1 + (2 : ℚ) ^ (-53 : ℤ)) ^ (2 * 5632) - 1) * S = G at herr hgS
  have hN : |Double.toRat (Double.fin s m e)| ≤ (1 + (2 : ℚ) ^ (-38 : ℤ)) * S := by
    have e1 : Double.toRat (Double.fin s m e) = (Double.toRat (Double.fin s m e) - A) + A := by
      ring
    rw [e1]
    have := abs_add (Double.toRat (Double.fin s m e) - A) A
    linarith
  rw [Double.toRat_abs] at hN
  have hv0 : (0 : ℚ) ≤ (m : ℚ) * (2 : ℚ) ^ e :=
    mul_nonneg (Nat.cast_nonneg m) (zpow_pos (by norm_num) e).le
  calc ((m : ℚ) * (2 : ℚ) ^ e) ^ 2 ≤ ((1 + (2 : ℚ) ^ (-38 : ℤ)) * S) ^ 2 :=
        pow_le_pow_left₀ hv0 hN 2
    _ = (1 + (2 : ℚ) ^ (-38 : ℤ)) ^ 2 * (S * S) := by ring
    _ ≤ (1 + (2 : ℚ) ^ (-38 : ℤ)) ^ 2 * (Q * T) :=
        mul_le_mul_of_nonneg_left hCS (by positivity)

namespace Double

/-- The denominator `sqrt(x) * sqrt(y)` of `computeSimilarity`, in binary64, for two positive
finite doubles between `2^-1001` and `2^1014`: a positive finite double whose square is
within the relative error `2^-49` of `x * y`. -/
theorem denom_spec (m1 m2 : Nat) (e1 e2 : Int)
    (h1lo : (2 : ℚ) ^ (-1001 : ℤ) ≤ (m1 : ℚ) * (2 : ℚ) ^ e1)
    (h1hi : (m1 : ℚ) * (2 : ℚ) ^ e1 ≤ (2 : ℚ) ^ (1014 : ℤ))
    (h2lo : (2 : ℚ) ^ (-1001 : ℤ) ≤ (m2 : ℚ) * (2 : ℚ) ^ e2)
    (h2hi : (m2 : ℚ) * (2 : ℚ) ^ e2 ≤ (2 : ℚ) ^ (1014 : ℤ)) :
    ∃ (q : Nat) (e' : Int),
      mul (sqrt (fin false m1 e1)) (sqrt (fin false m2 e2)) = fin false q e' ∧ q ≠ 0 ∧
      0 < (q : ℚ) * (2 : ℚ) ^ e' ∧
      (1 - (2 : ℚ) ^ (-49 : ℤ)) * (((m1 : ℚ) * (2 : ℚ) ^ e1) * ((m2 : ℚ) * (2 : ℚ) ^ e2)) ≤
        ((q : ℚ) * (2 : ℚ) ^ e') ^ 2 ∧
      ((q : ℚ) * (2 : ℚ) ^ e') ^ 2 ≤
        (1 + (2 : ℚ) ^ (-49 : ℤ)) * (((m1 : ℚ) * (2 : ℚ) ^ e1) * ((m2 : ℚ) * (2 : ℚ) ^ e2)) := by
  have hv1pos : (0 : ℚ) < (m1 : ℚ) * (2 : ℚ) ^ e1 := lt_of_lt_of_le (zpow_pos (by norm_num) _) h1lo
  have hv2pos : (0 : ℚ) < (m2 : ℚ) * (2 : ℚ) ^ e2 := lt_of_lt_of_le (zpow_pos (by norm_num) _) h2lo
  have hm1 : m1 ≠ 0 := by rintro rfl; simp at hv1pos
  have hm2 : m2 ≠ 0 := by rintro rfl; simp at hv2pos
  have hlo : (2 : ℚ) ^ (-1022 : ℤ) ≤ (2 : ℚ) ^ (-1001 : ℤ) := by norm_num
  have hhi : (2 : ℚ) ^ (1014 : ℤ) < (2 : ℚ) ^ (1023 : ℤ) := by norm_num
  obtain ⟨q1, f1, hs1, _, hR1pos, hR1lo, hR1hi⟩ :=
    sqrt_spec m1 e1 hm1 (hlo.trans h1lo) (lt_of_le_of_lt h1hi hhi)
  obtain ⟨q2, f2, hs2, _, hR2pos, hR2lo, hR2hi⟩ :=
    sqrt_spec m2 e2 hm2 (hlo.trans h2lo) (lt_of_le_of_lt h2hi hhi)
  rw [hs1, hs2]
  generalize (m1 : ℚ) * (2 : ℚ) ^ e1 = v1 at *
  generalize (m2 : ℚ) * (2 : ℚ) ^ e2 = v2 at *
  -- the exact product of the two roots
  have hc0 : (0 : ℚ) ≤ 1 - (2 : ℚ) ^ (-51 : ℤ) := by norm_num
  have hPlo : (1 - (2 : ℚ) ^ (-51 : ℤ)) ^ 2 * (v1 * v2) ≤
      (((q1 : ℚ) * (2 : ℚ) ^ f1) * ((q2 : ℚ) * (2 : ℚ) ^ f2)) ^ 2 := by
    have := mul_le_mul hR1lo hR2lo (mul_nonneg hc0 hv2pos.le) (by positivity)
    calc _ = (1 - (2 : ℚ) ^ (-51 : ℤ)) * v1 * ((1 - (2 : ℚ) ^ (-51 : ℤ)) * v2) := by ring
      _ ≤ _ := this
      _ = _ := by ring
  have hPhi : (((q1 : ℚ) * (2 : ℚ) ^ f1) * ((q2 : ℚ) * (2 : ℚ) ^ f2)) ^ 2 ≤
      (1 + (2 : ℚ) ^ (-51 : ℤ)) ^ 2 * (v1 * v2) := by
    have := mul_le_mul hR1hi hR2hi (by positivity)
      (mul_nonneg (by norm_num) hv1pos.le)
    calc _ = ((q1 : ℚ) * (2 : ℚ) ^ f1) ^ 2 * ((q2 : ℚ) * (2 : ℚ) ^ f2) ^ 2 := by ring
      _ ≤ _ := this
      _ = _ := by ring
  have hPpos : 0 < ((q1 : ℚ) * (2 : ℚ) ^ f1) * ((q2 : ℚ) * (2 : ℚ) ^ f2) :=
    mul_pos hR1pos hR2pos
  have hv12lo : (2 : ℚ) ^ (-1001 : ℤ) * (2 : ℚ) ^ (-1001 : ℤ) ≤ v1 * v2 :=
    mul_le_mul h1lo h2lo (by positivity) hv1pos.le
  have hv12hi : v1 * v2 ≤ (2 : ℚ) ^ (1014 : ℤ) * (2 : ℚ) ^ (1014 : ℤ) :=
    mul_le_mul h1hi h2hi hv2pos.le (by positivity)
  have hv12pos : 0 < v1 * v2 := mul_pos hv1pos hv2pos
  have hnlo : (2 : ℚ) ^ (-1022 : ℤ) ≤
      ((q1 : ℚ) * (2 : ℚ) ^ f1) * ((q2 : ℚ) * (2 : ℚ) ^ f2) := by
    by_contra hc
    have hc' := not_le.1 hc
    have h1 := pow_lt_pow_left₀ hc' hPpos.le (by norm_num : (2 : ℕ) ≠ 0)
    have h3 : ((2 : ℚ) ^ (-1022 : ℤ)) ^ 2 ≤
        (1 - (2 : ℚ) ^ (-51 : ℤ)) ^ 2 * ((2 : ℚ) ^ (-1001 : ℤ) * (2 : ℚ) ^ (-1001 : ℤ)) := by
      norm_num
    have h4 : (1 - (2 : ℚ) ^ (-51 : ℤ)) ^ 2 * ((2 : ℚ) ^ (-1001 : ℤ) * (2 : ℚ) ^ (-1001 : ℤ)) ≤
        (1 - (2 : ℚ) ^ (-51 : ℤ)) ^ 2 * (v1 * v2) :=
      mul_le_mul_of_nonneg_left hv12lo (by positivity)
    exact absurd (lt_of_lt_of_le h1 (h3.trans (h4.trans hPlo))) (lt_irrefl _)
  have hnhi : ((q1 : ℚ) * (2 : ℚ) ^ f1) * ((q2 : ℚ) * (2 : ℚ) ^ f2) < (2 : ℚ) ^ (1023 : ℤ) := by
    by_contra hc
    have hc' := not_lt.1 hc
    have h1 := pow_le_pow_left₀ (by positivity : (0 : ℚ) ≤ (2 : ℚ) ^ (1023 : ℤ)) hc' 2
    have h3 : (1 + (2 : ℚ) ^ (-51 : ℤ)) ^ 2 * ((2 : ℚ) ^ (1014 : ℤ) * (2 : ℚ) ^ (1014 : ℤ)) <
        ((2 : ℚ) ^ (1023 : ℤ)) ^ 2 := by norm_num
    have h4 : (1 + (2 : ℚ) ^ (-51 : ℤ)) ^ 2 * (v1 * v2) ≤
        (1 + (2 : ℚ) ^ (-51 : ℤ)) ^ 2 * ((2 : ℚ) ^ (1014 : ℤ) * (2 : ℚ) ^ (1014 : ℤ)) :=
      mul_le_mul_of_nonneg_left hv12hi (by positivity)
    exact absurd (lt_of_le_of_lt (h1.trans (hPhi.trans h4)) h3) (lt_irrefl _)
  have hq12 : q1 * q2 ≠ 0 := by
    intro h0
    rcases Nat.mul_eq_zero.1 h0 with h | h
    · rw [h] at hR1pos; simp at hR1pos
    · rw [h] at hR2pos; simp at hR2pos
  obtain ⟨q, e', hmul, _, herr⟩ := mul_normal q1 q2 f1 f2 hq12 hnlo hnhi
  generalize ((q1 : ℚ) * (2 : ℚ) ^ f1) * ((q2 : ℚ) * (2 : ℚ) ^ f2) = W at *
  obtain ⟨herr1, herr2⟩ := abs_le.1 herr
  have hVlo : (1 - (2 : ℚ) ^ (-53 : ℤ)) * W ≤ (q : ℚ) * (2 : ℚ) ^ e' := by linarith
  have hVhi : (q : ℚ) * (2 : ℚ) ^ e' ≤ (1 + (2 : ℚ) ^ (-53 : ℤ)) * W := by linarith
  have hVpos : 0 < (q : ℚ) * (2 : ℚ) ^ e' := lt_of_lt_of_le (mul_pos (by norm_num) hPpos) hVlo
  have hq : q ≠ 0 := by rintro rfl; simp at hVpos
  refine ⟨q, e', hmul, hq, hVpos, ?_, ?_⟩
  · have h1 := pow_le_pow_left₀ (mul_nonneg (by norm_num) hPpos.le) hVlo 2
    have h3 : (1 - (2 : ℚ) ^ (-49 : ℤ)) ≤
        (1 - (2 : ℚ) ^ (-53 : ℤ)) ^ 2 * (1 - (2 : ℚ) ^ (-51 : ℤ)) ^ 2 := by norm_num
    calc (1 - (2 : ℚ) ^ (-49 : ℤ)) * (v1 * v2)
        ≤ ((1 - (2 : ℚ) ^ (-53 : ℤ)) ^ 2 * (1 - (2 : ℚ) ^ (-51 : ℤ)) ^ 2) * (v1 * v2) :=
          mul_le_mul_of_nonneg_right h3 hv12pos.le
      _ = (1 - (2 : ℚ) ^ (-53 : ℤ)) ^ 2 * ((1 - (2 : ℚ) ^ (-51 : ℤ)) ^ 2 * (v1 * v2)) := by ring
      _ ≤ (1 - (2 : ℚ) ^ (-53 : ℤ)) ^ 2 * W ^ 2 :=
          mul_le_mul_of_nonneg_left hPlo (by positivity)
      _ = ((1 - (2 : ℚ) ^ (-53 : ℤ)) * W) ^ 2 := by ring
      _ ≤ _ := h1
  · have h1 := pow_le_pow_left₀ hVpos.le hVhi 2
    have h3 : (1 + (2 : ℚ) ^ (-53 : ℤ)) ^ 2 * (1 + (2 : ℚ) ^ (-51 : ℤ)) ^ 2 ≤
        (1 + (2 : ℚ) ^ (-49 : ℤ)) := by norm_num
    calc ((q : ℚ) * (2 : ℚ) ^ e') ^ 2 ≤ ((1 + (2 : ℚ) ^ (-53 : ℤ)) * W) ^ 2 := h1
      _ = (1 + (2 : ℚ) ^ (-53 : ℤ)) ^ 2 * W ^ 2 := by ring
      _ ≤ (1 + (2 : ℚ) ^ (-53 : ℤ)) ^ 2 * ((1 + (2 : ℚ) ^ (-51 : ℤ)) ^ 2 * (v1 * v2)) :=
          mul_le_mul_of_nonneg_left hPhi (by positivity)
      _ = ((1 + (2 : ℚ) ^ (-53 : ℤ)) ^ 2 * (1 + (2 : ℚ) ^ (-51 : ℤ)) ^ 2) * (v1 * v2) := by ring
      _ ≤ _ := mul_le_mul_of_nonneg_right h3 hv12pos.le

end Double

/-- A quotient whose numerator and denominator are bounded through the same product. -/
theorem quotient_le (n V QT vv g c K : ℚ) (hV : 0 < V) (hQT : 0 ≤ QT) (hK : 0 ≤ K)
    (h1 : n ^ 2 ≤ (1 + g) ^ 2 * QT) (h2 : (1 - c) * vv ≤ V ^ 2) (h3 : (1 - g) ^ 2 * QT ≤ vv)
    (hc : 0 ≤ 1 - c) (hconst : (1 + g) ^ 2 ≤ K ^ 2 * ((1 - c) * (1 - g) ^ 2)) : n / V ≤ K := by
  rw [div_le_iff₀ hV]
  apply le_mul_of_sq_le n V K hV.le hK
  calc n ^ 2 ≤ (1 + g) ^ 2 * QT := h1
    _ ≤ (K ^ 2 * ((1 - c) * (1 - g) ^ 2)) * QT := mul_le_mul_of_nonneg_right hconst hQT
    _ = K ^ 2 * ((1 - c) * ((1 - g) ^ 2 * QT)) := by ring
    _ ≤ K ^ 2 * ((1 - c) * vv) :=
        mul_le_mul_of_nonneg_left (mul_le_mul_of_nonneg_left h3 hc) (by positivity)
    _ ≤ K ^ 2 * V ^ 2 := mul_le_mul_of_nonneg_left h2 (by positivity)

/-- The quotient `v / V` when `V^2` is within the relative error `c` of `v^2`. -/
theorem selfQuotient_bounds (v V c : ℚ) (hv : 0 < v) (hV : 0 < V) (hc0 : 0 ≤ c) (hc1 : c ≤ 1 / 2)
    (h1 : (1 - c) * (v * v) ≤ V ^ 2) (h2 : V ^ 2 ≤ (1 + c) * (v * v)) :
    |v / V - 1| ≤ c * (v / V) ∧ v / V ≤ 1 + 2 * c ∧ 1 / 2 ≤ v / V := by
  have hvv : 0 ≤ v * v := mul_self_nonneg v
  have hlo : (1 - c) * v ≤ V := by
    have h3 : ((1 - c) * v) ^ 2 ≤ V ^ 2 := by
      have := mul_nonneg (mul_nonneg hc0 (by linarith : (0 : ℚ) ≤ 1 - c)) hvv
      nlinarith
    exact (abs_le_of_sq_le_sq' h3 hV.le).2
  have hhi : V ≤ (1 + c) * v := by
    have h3 : V ^ 2 ≤ ((1 + c) * v) ^ 2 := by
      have := mul_nonneg (mul_nonneg hc0 (by linarith : (0 : ℚ) ≤ 1 + c)) hvv
      nlinarith
    exact (abs_le_of_sq_le_sq' h3 (mul_nonneg (by linarith) hv.le)).2
  have hcv : 0 ≤ c * v := mul_nonneg hc0 hv.le
  refine ⟨?_, ?_, ?_⟩
  · have e1 : v / V - 1 = (v - V) / V := by field_simp
    rw [e1, abs_div, abs_of_pos hV, ← mul_div_assoc, div_le_div_iff_of_pos_right hV, abs_le]
    constructor <;> linarith
  · rw [div_le_iff₀ hV]
    have := mul_nonneg hcv (by linarith : (0 : ℚ) ≤ 1 - 2 * c)
    nlinarith
  · rw [le_div_iff₀ hV]
    have : c * v ≤ 1 / 2 * v := mul_le_mul_of_nonneg_right hc1 hv.le
    linarith

theorem getD_inRange (a : List Double) (h : ∀ x ∈ a, x.InRange) (i : Nat) :
    (a.getD i Double.zero).InRange := by
  rw [List.getD_eq_getElem?_getD]
  by_cases hi : i < a.length
  · rw [List.getElem?_eq_getElem hi]
    exact h _ (List.getElem_mem hi)
  · rw [List.getElem?_eq_none (by omega)]
    exact Double.inRange_zero

theorem exists_getD_ne_zero (a : List Double) (hl : a.length = NUMBER_OF_ELEMENTS_PER_VECTOR)
    (h : ∃ x ∈ a, Double.toRat x ≠ 0) :
    ∃ k, k < 5632 ∧ (a.getD k Double.zero).toRat ≠ 0 := by
  obtain ⟨x, hx, hx0⟩ := h
  obtain ⟨k, hk, rfl⟩ := List.getElem_of_mem hx
  refine ⟨k, by rw [← elements_eq, ← hl]; exact hk, ?_⟩
  rw [List.getD_eq_getElem?_getD, List.getElem?_eq_getElem hk]
  exact hx0

theorem computeSimilarity_dotSum (a b : List Double) :
    computeSimilarity ieee a b =
      Double.div (dotSum ieee a b 5632)
        (Double.mul (Double.sqrt (dotSum ieee a a 5632)) (Double.sqrt (dotSum ieee b b 5632))) := by
  rw [computeSimilarity_ieee a b _ (simLoop_eq_dotSum ieee a b _), elements_eq]

theorem mem_leading (k : Nat) (x y : Double) (h : y ∈ leading k x) : y = x ∨ y = Double.zero := by
  simp only [leading, vec, List.mem_map, List.mem_range] at h
  obtain ⟨i, _, rfl⟩ := h
  split
  · exact Or.inl rfl
  · exact Or.inr rfl

theorem mem_onesVector (y : Double) (h : y ∈ onesVector) : y = Double.one := by
  simp only [onesVector, vec, List.mem_map, List.mem_range] at h
  obtain ⟨i, _, rfl⟩ := h
  rfl

theorem one_mem_leading (k : Nat) (hk : 0 < k) : Double.one ∈ leading k Double.one := by
  simp only [leading, vec, List.mem_map, List.mem_range]
  exact ⟨0, by rw [elements_eq]; norm_num, by rw [if_pos hk]⟩

theorem one_mem_onesVector : Double.one ∈ onesVector :=
  List.mem_map.2 ⟨0, List.mem_range.2 (by rw [elements_eq]; norm_num), rfl⟩

namespace Double

theorem inRange_one : InRange one := by
  right
  constructor <;> norm_num

theorem toRat_one : toRat one = 1 := by
  norm_num [toRat, one]

end Double

theorem inRange_leading_one (k : Nat) : ∀ x ∈ leading k Double.one, x.InRange := by
  intro x hx
  rcases mem_leading k Double.one x hx with rfl | rfl
  · exact Double.inRange_one
  · exact Double.inRange_zero

theorem inRange_onesVector : ∀ x ∈ onesVector, x.InRange := by
  intro x hx
  rw [mem_onesVector x hx]
  exact Double.inRange_one

theorem exists_ne_zero_leading_one (k : Nat) (hk : 0 < k) :
    ∃ x ∈ leading k Double.one, Double.toRat x ≠ 0 :=
  ⟨Double.one, one_mem_leading k hk, by rw [Double.toRat_one]; norm_num⟩

theorem exists_ne_zero_onesVector : ∃ x ∈ onesVector, Double.toRat x ≠ 0 :=
  ⟨Double.one, one_mem_onesVector, by rw [Double.toRat_one]; norm_num⟩

/-! ## The claims -/

/-- C1 (failing input).  Query all `1.0`, 138 rows all `1.0`.  The first loop builds the
multimap of the 138 rows, each with similarity `1.0`; the second loop then erases the entry
under `iter` and advances the invalidated iterator, so that the call has no defined result and
no 10 rows are selected.  The same holds for every query and every template. -/
theorem find10NearestNeighbors_no_selection :
    insertRows ieee Double.lt onesVector (constTemplate onesVector)
        NUMBER_OF_VECTORS_PER_TEMPLATE =
        some ((List.range NUMBER_OF_VECTORS_PER_TEMPLATE).map (fun i => (Double.one, i + 1))) ∧
      find10NearestNeighbors ieee Double.lt onesVector (constTemplate onesVector) = none ∧
      ∀ (q : List Double) (t : List (List Double)),
        find10NearestNeighbors ieee Double.lt q t = none := by
  refine ⟨?_, find10NearestNeighbors_none _ _ _ _, fun q t => find10NearestNeighbors_none _ _ q t⟩
  rw [insertRows_const onesVector onesVector (vec_length _) (vec_length _),
    computeSimilarity_ones]

/-- C2 (failing input).  The function for a row-count constant: with exactly 10 rows the second
loop does not run and the multimap of the first loop is returned; with 11 rows or more (the
program has 138) the second loop advances an invalidated iterator and no result, of 10 entries
or of any other number, is returned. -/
theorem nearestNeighbors_no_result {F : Type} (A : Arith F) (lt : F → F → Bool)
    (q : List F) (t : List (List F)) :
    nearestNeighbors A lt 10 q t = insertRows A lt q t 10 ∧
      (∀ n, nearestNeighbors A lt (n + 11) q t = none) ∧
      find10NearestNeighbors A lt q t = none := by
  refine ⟨?_, fun n => nearestNeighbors_none A lt n q t, find10NearestNeighbors_none A lt q t⟩
  unfold nearestNeighbors
  cases insertRows A lt q t 10 with
  | none => rfl
  | some l => rfl

/-- C5 (failing input).  The scenario: query all `1.0`, row 5 (`template_data[4]`) all `1.0`,
every other row all `0.0`.  Row 5 has similarity `1.0`; each zero row has similarity NaN
(`0 / 0`), not `0`; the first loop leaves the 138 rows in row order, since no comparison with
NaN holds; and the call has no defined result: no row is ranked. -/
theorem scenario_no_result :
    computeSimilarity ieee onesVector onesVector = Double.one ∧
      computeSimilarity ieee onesVector zeroVector = Double.nan ∧
      insertRows ieee Double.lt onesVector (scenarioTemplate 4)
        NUMBER_OF_VECTORS_PER_TEMPLATE =
        some ((List.range NUMBER_OF_VECTORS_PER_TEMPLATE).map
          (fun i => (if i = 4 then Double.one else Double.nan, i + 1))) ∧
      find10NearestNeighbors ieee Double.lt onesVector (scenarioTemplate 4) = none := by
  refine ⟨computeSimilarity_ones, computeSimilarity_zero_template _ _ zeroVector_isZero, ?_,
    find10NearestNeighbors_none _ _ _ _⟩
  rw [insertRows_of_no_lt ieee Double.lt onesVector (scenarioTemplate 4) _
    (scenarioTemplate_length 4).ge (vec_length _).ge (scenarioTemplate_rows 4)
    (scenarioTemplate_no_lt 4)]
  congr 1
  apply List.map_congr_left
  intro i hi
  rw [scenarioTemplate_getD]
  by_cases h4 : i = 4
  · rw [if_pos ⟨h4, List.mem_range.1 hi⟩, if_pos h4]
  · rw [if_neg (fun h => h4 h.1), if_neg h4]

/-- C6.  In any arithmetic, in particular in binary64, `computeSimilarity(q, t)` is the
formula `(Σ qᵢ·tᵢ) / (√(Σ qᵢ²) · √(Σ tᵢ²))` over the 5632 components, each sum taken in
index order from `0`. -/
theorem computeSimilarity_eq_cosineFormula {F : Type} (A : Arith F) (q t : List F) :
    computeSimilarity A q t = cosineFormula A q t := by
  rw [computeSimilarity_of_state A q t _ (simLoop_eq_dotSum A q t NUMBER_OF_ELEMENTS_PER_VECTOR)]
  rfl

/-- C7 (counterexample).  For `a = b = (1, 1, 1, 0, …, 0)` the result is
`3 / (sqrt 3 * sqrt 3) = 1 + 2^-52`, which is not `<= 1`. -/
theorem computeSimilarity_three_ones_above_one :
    ¬ (Double.le negOne
          (computeSimilarity ieee (leading 3 Double.one) (leading 3 Double.one)) = true ∧
        Double.le (computeSimilarity ieee (leading 3 Double.one) (leading 3 Double.one))
          Double.one = true) := by
  rw [computeSimilarity_three_ones]
  decide

/-- C7 (amended).  In binary64, for vectors `a` and `b` of length 5632 whose components are
zero or of magnitude between `2^-500` and `2^500`, each with a nonzero component,
`computeSimilarity(a, b)` is a finite number of magnitude at most `1 + 2^-36`. -/
theorem computeSimilarity_bounded (a b : List Double)
    (hla : a.length = NUMBER_OF_ELEMENTS_PER_VECTOR)
    (hlb : b.length = NUMBER_OF_ELEMENTS_PER_VECTOR)
    (hra : ∀ x ∈ a, x.InRange) (hrb : ∀ x ∈ b, x.InRange)
    (hna : ∃ x ∈ a, Double.toRat x ≠ 0) (hnb : ∃ x ∈ b, Double.toRat x ≠ 0) :
    ∃ (s : Bool) (m : Nat) (e : Int), computeSimilarity ieee a b = Double.fin s m e ∧
      |Double.toRat (Double.fin s m e)| ≤ 1 + (2 : ℚ) ^ (-36 : ℤ) := by
  obtain ⟨mq, eq, hDQ, _, hQlo, hQhi, hvQlo, hvQhi⟩ :=
    sumSq_spec a (getD_inRange a hra) (exists_getD_ne_zero a hla hna)
  obtain ⟨mt, et, hDT, _, hTlo, hThi, hvTlo, hvThi⟩ :=
    sumSq_spec b (getD_inRange b hrb) (exists_getD_ne_zero b hlb hnb)
  obtain ⟨s, m, e, hN, hNsq⟩ := numerator_spec a b (getD_inRange a hra) (getD_inRange b hrb)
  obtain ⟨q, f, hmul, hq, hVpos, hVlo, _⟩ :=
    Double.denom_spec mq mt eq et hvQlo hvQhi hvTlo hvThi
  rw [computeSimilarity_dotSum, hN, hDQ, hDT, hmul]
  by_cases hm : m = 0
  · subst hm
    rw [Double.div_zero_left _ _ _ _ _ hq]
    refine ⟨_, _, _, rfl, ?_⟩
    rw [Double.toRat_abs]
    norm_num
  · -- the exact quotient is at most `1 + 2^-37 + 2^-49`
    open Finset in
    generalize (∑ i in range 5632, (a.getD i Double.zero).toRat * (a.getD i Double.zero).toRat) = Q
      at hQlo hQhi hNsq
    open Finset in
    generalize (∑ i in range 5632, (b.getD i Double.zero).toRat * (b.getD i Double.zero).toRat) = T
      at hTlo hThi hNsq
    have hvQpos : (0 : ℚ) < (mq : ℚ) * (2 : ℚ) ^ eq :=
      lt_of_lt_of_le (zpow_pos (by norm_num) _) hvQlo
    have hvTpos : (0 : ℚ) < (mt : ℚ) * (2 : ℚ) ^ et :=
      lt_of_lt_of_le (zpow_pos (by norm_num) _) hvTlo
    have hQpos : 0 < Q := by
      by_contra hc
      have : (1 + (2 : ℚ) ^ (-38 : ℤ)) * Q ≤ 0 :=
        mul_nonpos_of_nonneg_of_nonpos (by norm_num) (not_lt.1 hc)
      linarith
    have hTpos : 0 < T := by
      by_contra hc
      have : (1 + (2 : ℚ) ^ (-38 : ℤ)) * T ≤ 0 :=
        mul_nonpos_of_nonneg_of_nonpos (by norm_num) (not_lt.1 hc)
      linarith
    have h3 : (1 - (2 : ℚ) ^ (-38 : ℤ)) ^ 2 * (Q * T) ≤
        ((mq : ℚ) * (2 : ℚ) ^ eq) * ((mt : ℚ) * (2 : ℚ) ^ et) := by
      have := mul_le_mul hQlo hTlo (mul_nonneg (by norm_num) hTpos.le) hvQpos.le
      calc _ = (1 - (2 : ℚ) ^ (-38 : ℤ)) * Q * ((1 - (2 : ℚ) ^ (-38 : ℤ)) * T) := by ring
        _ ≤ _ := this
    have hX : ((m : ℚ) * (2 : ℚ) ^ e) / ((q : ℚ) * (2 : ℚ) ^ f) ≤
        1 + (2 : ℚ) ^ (-37 : ℤ) + (2 : ℚ) ^ (-49 : ℤ) :=
      quotient_le _ _ (Q * T) _ ((2 : ℚ) ^ (-38 : ℤ)) ((2 : ℚ) ^ (-49 : ℤ)) _ hVpos
        (mul_nonneg hQpos.le hTpos.le) (by norm_num) hNsq hVlo h3 (by norm_num) (by norm_num)
    obtain ⟨qr, er, hdiv, _, hle, _⟩ := Double.div_spec s false m q e f hm hq
      (lt_of_le_of_lt hX (by norm_num))
    refine ⟨_, _, _, hdiv, ?_⟩
    rw [Double.toRat_abs]
    rcases hle with h | h
    · have h5 : (1 + (2 : ℚ) ^ (-52 : ℤ)) * (((m : ℚ) * (2 : ℚ) ^ e) / ((q : ℚ) * (2 : ℚ) ^ f)) ≤
          (1 + (2 : ℚ) ^ (-52 : ℤ)) * (1 + (2 : ℚ) ^ (-37 : ℤ) + (2 : ℚ) ^ (-49 : ℤ)) :=
        mul_le_mul_of_nonneg_left hX (by norm_num)
      have h6 : (1 + (2 : ℚ) ^ (-52 : ℤ)) * (1 + (2 : ℚ) ^ (-37 : ℤ) + (2 : ℚ) ^ (-49 : ℤ)) ≤
          1 + (2 : ℚ) ^ (-36 : ℤ) := by norm_num
      exact h.trans (h5.trans h6)
    · exact h.trans (by norm_num)

/-- C7 (witness).  The vectors `a = (1, 1, 1, 0, …, 0)` and `b` all `1.0`. -/
theorem computeSimilarity_bounded_witness :
    (leading 3 Double.one).length = NUMBER_OF_ELEMENTS_PER_VECTOR ∧
    onesVector.length = NUMBER_OF_ELEMENTS_PER_VECTOR ∧
    (∀ x ∈ leading 3 Double.one, x.InRange) ∧ (∀ x ∈ onesVector, x.InRange) ∧
    (∃ x ∈ leading 3 Double.one, Double.toRat x ≠ 0) ∧
    (∃ x ∈ onesVector, Double.toRat x ≠ 0) ∧
    ∃ (s : Bool) (m : Nat) (e : Int),
      computeSimilarity ieee (leading 3 Double.one) onesVector = Double.fin s m e ∧
      |Double.toRat (Double.fin s m e)| ≤ 1 + (2 : ℚ) ^ (-36 : ℤ) :=
  ⟨vec_length _, vec_length _, inRange_leading_one 3, inRange_onesVector,
    exists_ne_zero_leading_one 3 (by decide), exists_ne_zero_onesVector,
    computeSimilarity_bounded (leading 3 Double.one) onesVector (vec_length _) (vec_length _)
      (inRange_leading_one 3) inRange_onesVector
      (exists_ne_zero_leading_one 3 (by decide)) exists_ne_zero_onesVector⟩

/-- C8 (counterexample).  For `a` all `0.0` and `b` all `1.0` both calls return NaN, and
`computeSimilarity(a, b) == computeSimilarity(b, a)` is false. -/
theorem computeSimilarity_zero_not_eq :
    Double.eq (computeSimilarity ieee zeroVector onesVector)
      (computeSimilarity ieee onesVector zeroVector) = false := by
  rw [computeSimilarity_zero_query _ _ zeroVector_isZero]
  exact Double.eq_nan_left _

/-- C8 (amended).  For vectors `a` and `b` of length 5632, `computeSimilarity(a, b)` and
`computeSimilarity(b, a)` are the same value, and `==` holds between them whenever that value
is not NaN. -/
theorem computeSimilarity_symmetric (a b : List Double)
    (ha : a.length = NUMBER_OF_ELEMENTS_PER_VECTOR) (hb : b.length = NUMBER_OF_ELEMENTS_PER_VECTOR) :
    computeSimilarity ieee a b = computeSimilarity ieee b a ∧
      (computeSimilarity ieee a b ≠ Double.nan →
        Double.eq (computeSimilarity ieee a b) (computeSimilarity ieee b a) = true) := by
  refine ⟨computeSimilarity_comm a b, fun h => ?_⟩
  rw [← computeSimilarity_comm a b]
  exact Double.eq_self _ h

/-- C8 (witness).  The unit vector `(1, 0, …, 0)` and the vector `(1, 1, 1, 0, …, 0)`. -/
theorem computeSimilarity_symmetric_witness :
    computeSimilarity ieee unitVector (leading 3 Double.one) =
        computeSimilarity ieee (leading 3 Double.one) unitVector ∧
      (computeSimilarity ieee unitVector (leading 3 Double.one) ≠ Double.nan →
        Double.eq (computeSimilarity ieee unitVector (leading 3 Double.one))
          (computeSimilarity ieee (leading 3 Double.one) unitVector) = true) :=
  computeSimilarity_symmetric unitVector (leading 3 Double.one) (vec_length _) (vec_length _)

/-- C9 (counterexample).  For `a = (2^600, 0, …, 0)` the squares overflow and
`computeSimilarity(a, a)` is `inf / (inf * inf)`, that is NaN: not `1.0` within any
tolerance. -/
theorem computeSimilarity_self_overflow :
    computeSimilarity ieee (leading 1 twoPow600) (leading 1 twoPow600) = Double.nan ∧
      Double.eq (computeSimilarity ieee (leading 1 twoPow600) (leading 1 twoPow600))
        Double.one = false := by
  rw [computeSimilarity_overflow]
  exact ⟨rfl, rfl⟩

/-- C9 (amended).  In binary64, for a vector `a` of length 5632 whose components are zero or
of magnitude between `2^-500` and `2^500`, with a nonzero component, `computeSimilarity(a, a)`
is a finite number within `2^-48` of `1`. -/
theorem computeSimilarity_self_near_one (a : List Double)
    (hla : a.length = NUMBER_OF_ELEMENTS_PER_VECTOR)
    (hra : ∀ x ∈ a, x.InRange) (hna : ∃ x ∈ a, Double.toRat x ≠ 0) :
    ∃ (s : Bool) (m : Nat) (e : Int), computeSimilarity ieee a a = Double.fin s m e ∧
      |Double.toRat (Double.fin s m e) - 1| ≤ (2 : ℚ) ^ (-48 : ℤ) := by
  obtain ⟨mq, eq, hDQ, hmq, _, _, hvQlo, hvQhi⟩ :=
    sumSq_spec a (getD_inRange a hra) (exists_getD_ne_zero a hla hna)
  obtain ⟨q, f, hmul, hq, hVpos, hVlo, hVhi⟩ :=
    Double.denom_spec mq mq eq eq hvQlo hvQhi hvQlo hvQhi
  rw [computeSimilarity_dotSum, hDQ, hmul]
  have hvQpos : (0 : ℚ) < (mq : ℚ) * (2 : ℚ) ^ eq :=
    lt_of_lt_of_le (zpow_pos (by norm_num) _) hvQlo
  obtain ⟨hX1, hX2, hX3⟩ := selfQuotient_bounds _ _ ((2 : ℚ) ^ (-49 : ℤ)) hvQpos hVpos
    (by norm_num) (by norm_num) hVlo hVhi
  obtain ⟨qr, er, hdiv, _, _, herr⟩ := Double.div_spec false false mq q eq f hmq hq
    (lt_of_le_of_lt hX2 (by norm_num))
  have herr' := herr (le_trans (by norm_num) hX3)
  refine ⟨_, _, _, hdiv, ?_⟩
  have hxor : xor false false = false := rfl
  rw [hxor, Double.toRat_pos_eq]
  generalize ((mq : ℚ) * (2 : ℚ) ^ eq) / ((q : ℚ) * (2 : ℚ) ^ f) = X at hX1 hX2 hX3 herr'
  generalize (qr : ℚ) * (2 : ℚ) ^ er = R at herr' ⊢
  have e1 : R - 1 = (R - X) + (X - 1) := by ring
  have h1 := abs_add (R - X) (X - 1)
  rw [← e1] at h1
  have h2 : ((2 : ℚ) ^ (-52 : ℤ) + (2 : ℚ) ^ (-49 : ℤ)) * X ≤
      ((2 : ℚ) ^ (-52 : ℤ) + (2 : ℚ) ^ (-49 : ℤ)) * (1 + 2 * (2 : ℚ) ^ (-49 : ℤ)) :=
    mul_le_mul_of_nonneg_left hX2 (by norm_num)
  have h3 : ((2 : ℚ) ^ (-52 : ℤ) + (2 : ℚ) ^ (-49 : ℤ)) * (1 + 2 * (2 : ℚ) ^ (-49 : ℤ)) ≤
      (2 : ℚ) ^ (-48 : ℤ) := by norm_num
  have h4 : |R - X| + |X - 1| ≤ ((2 : ℚ) ^ (-52 : ℤ) + (2 : ℚ) ^ (-49 : ℤ)) * X := by
    rw [add_mul]
    exact add_le_add herr' hX1
  exact h1.trans (h4.trans (h2.trans h3))

/-- C9 (witness).  The vector `a = (1, 1, 1, 0, …, 0)`. -/
theorem computeSimilarity_self_near_one_witness :
    (leading 3 Double.one).length = NUMBER_OF_ELEMENTS_PER_VECTOR ∧
    (∀ x ∈ leading 3 Double.one, x.InRange) ∧
    (∃ x ∈ leading 3 Double.one, Double.toRat x ≠ 0) ∧
    ∃ (s : Bool) (m : Nat) (e : Int),
      computeSimilarity ieee (leading 3 Double.one) (leading 3 Double.one) = Double.fin s m e ∧
      |Double.toRat (Double.fin s m e) - 1| ≤ (2 : ℚ) ^ (-48 : ℤ) :=
  ⟨vec_length _, inRange_leading_one 3, exists_ne_zero_leading_one 3 (by decide),
    computeSimilarity_self_near_one (leading 3 Double.one) (vec_length _)
      (inRange_leading_one 3) (exists_ne_zero_leading_one 3 (by decide))⟩

/-- C10 (counterexample).  For the query all `0.0` and a row all `1.0` it is not the case that
the result is neither NaN nor an infinity: it is NaN. -/
theorem computeSimilarity_zero_query_not_defined :
    ¬ (computeSimilarity ieee zeroVector onesVector ≠ Double.nan ∧
        ∀ s, computeSimilarity ieee zeroVector onesVector ≠ Double.inf s) := by
  intro h
  exact h.1 (computeSimilarity_zero_query _ _ zeroVector_isZero)

/-- C10 (amended).  For vectors `q` and `t` of length 5632, if every component of `q` is a
zero or every component of `t` is a zero, `computeSimilarity(q, t)` returns NaN. -/
theorem computeSimilarity_zero_norm (q t : List Double)
    (hq : q.length = NUMBER_OF_ELEMENTS_PER_VECTOR) (ht : t.length = NUMBER_OF_ELEMENTS_PER_VECTOR)
    (hz : (∀ x ∈ q, x.isZero = true) ∨ (∀ x ∈ t, x.isZero = true)) :
    computeSimilarity ieee q t = Double.nan := by
  rcases hz with h | h
  · exact computeSimilarity_zero_query q t h
  · exact computeSimilarity_zero_template q t h

/-- C10 (witness).  Query all `1.0`, row all `0.0`. -/
theorem computeSimilarity_zero_norm_witness :
    computeSimilarity ieee onesVector zeroVector = Double.nan :=
  computeSimilarity_zero_norm onesVector zeroVector (vec_length _) (vec_length _)
    (Or.inr zeroVector_isZero)

/-- C11.  For every vector of strings `data`, the call `quickSort(data, 0, data.size())`
returns, and the vector it leaves is in ascending byte-wise lexicographic order
(`data[i] <= data[i+1]` for every adjacent pair, and so `data[i] <= data[j]` for all `i < j`)
and is a permutation of the original vector. -/
theorem quickSort_sorted_perm (data : List Str) :
    ∃ m, quickSort data 0 data.length = some m ∧
      (∀ i x y, m.data[i]? = some x → m.data[i + 1]? = some y → x ≤ y) ∧
      m.data.Sorted (fun a b => a ≤ b) ∧ m.data.Perm data := by
  obtain ⟨m, hm, hs⟩ := quickSort_spec data 0 data.length (le_refl _)
  have hlen : m.data.length = data.length := hs.frame.1
  have hsorted : SortedOn m.data 0 m.data.length := by
    rw [hlen]
    exact hs.sorted
  refine ⟨m, hm, ?_, sorted_of_sortedOn m.data hsorted, hs.perm⟩
  intro i x y hx hy
  have hi : i + 1 < m.data.length := (List.getElem?_eq_some.1 hy).1
  exact hsorted i (i + 1) x y (Nat.zero_le _) (Nat.le_succ _) hi hx hy

/-- C12 (failing input).  The directory with the entries `.`, `..` and `-a`: the byte `0x2D` of
`-` is below the byte `0x2E` of `.`, so the sorted vector is `-a`, `.`, `..`, and the loop of
`readFile`, which starts at index 2, runs over `..` alone: the pseudo-entry `..` is loaded and
the file `-a` is not. -/
theorem loadedNames_dash : loadedNames [str ".", str "..", str "-a"] = some [str ".."] := by
  decide

/-- C13 (counterexample).  For the initial order `a_template`, `a_AU01_query`, `a_AU12_query`,
`a_AU17_query` it is not the case that after `quickSort` the template name stands before each
of the three query names. -/
theorem quickSort_template_not_first :
    ¬ ∃ m, quickSort [str "a_template", str "a_AU01_query", str "a_AU12_query",
        str "a_AU17_query"] 0 4 = some m ∧
      ∀ q ∈ [str "a_AU01_query", str "a_AU12_query", str "a_AU17_query"],
        m.data.indexOf (str "a_template") < m.data.indexOf q := by
  rintro ⟨m, hm, h⟩
  have h0 : (quickSort [str "a_template", str "a_AU01_query", str "a_AU12_query",
      str "a_AU17_query"] 0 4).map Mem.data =
      some [str "a_AU01_query", str "a_AU12_query", str "a_AU17_query", str "a_template"] := by
    decide
  rw [hm] at h0
  have h1 : m.data =
      [str "a_AU01_query", str "a_AU12_query", str "a_AU17_query", str "a_template"] := by
    simpa using h0
  rw [h1] at h
  revert h
  decide

/-- C13 (amended).  For the names `a_template`, `a_AU01_query`, `a_AU12_query`, `a_AU17_query`
given in any initial order, `quickSort` over the whole vector leaves them in the order
`a_AU01_query`, `a_AU12_query`, `a_AU17_query`, `a_template`: the template name is placed after
all three query names (the byte `A` is below the byte `t`). -/
theorem quickSort_template_last (data : List Str)
    (h : data.Perm [str "a_template", str "a_AU01_query", str "a_AU12_query",
      str "a_AU17_query"]) :
    ∃ m, quickSort data 0 data.length = some m ∧
      m.data = [str "a_AU01_query", str "a_AU12_query", str "a_AU17_query", str "a_template"] ∧
      ∀ q ∈ [str "a_AU01_query", str "a_AU12_query", str "a_AU17_query"],
        m.data.indexOf q < m.data.indexOf (str "a_template") := by
  obtain ⟨m, hm, hd⟩ := quickSort_eq_of_sorted data
    [str "a_AU01_query", str "a_AU12_query", str "a_AU17_query", str "a_template"]
    (h.trans (by decide)) (by decide)
  refine ⟨m, hm, hd, ?_⟩
  rw [hd]
  decide

/-- C13 (witness).  The initial order `a_AU17_query`, `a_template`, `a_AU01_query`,
`a_AU12_query`. -/
theorem quickSort_template_last_witness :
    ∃ m, quickSort [str "a_AU17_query", str "a_template", str "a_AU01_query",
        str "a_AU12_query"] 0
        [str "a_AU17_query", str "a_template", str "a_AU01_query", str "a_AU12_query"].length =
          some m ∧
      m.data = [str "a_AU01_query", str "a_AU12_query", str "a_AU17_query", str "a_template"] ∧
      ∀ q ∈ [str "a_AU01_query", str "a_AU12_query", str "a_AU17_query"],
        m.data.indexOf q < m.data.indexOf (str "a_template") :=
  quickSort_template_last
    [str "a_AU17_query", str "a_template", str "a_AU01_query", str "a_AU12_query"] (by decide)

/-- C14 (counterexample).  The 47 distinct identifiers `a`, `a_b`, `s03`, ..., `s47`, a
directory with `.`, `..` and the four files of each, all of which open.  The file
`a_b_template` sorts before `a_template` while the queries of `a` sort before those of `a_b`:
the template stored at position 0 is that of `a_b`, the query stored at position 0 is the
`AU01` query of `a`, and the globals are not paired. -/
theorem readFile_prefix_ids_not_paired :
    prefixIds.Nodup ∧ prefixIds.length = 47 ∧
      ¬ ∃ s, readFile labelled (str "." :: str ".." :: subjectFiles prefixIds) = some s ∧
        Paired labelled prefixIds s := by
  refine ⟨by decide, by decide, ?_⟩
  rintro ⟨s, hs, hp⟩
  obtain ⟨s0, hs0, ht, hq⟩ := prefixIds_slots
  rw [hs] at hs0
  cases hs0
  obtain ⟨x, _, hxt, hxq, _, _⟩ := hp 0 (by decide)
  rw [ht] at hxt
  rw [Nat.mul_zero, hq] at hxq
  have e1 : str "a_b_template" = str "a_b" ++ str "_template" := by decide
  have e2 : str "a_AU01_query" = str "a" ++ str "_AU01_query" := by decide
  have h1 : str "a_b" = x := by
    have := Option.some.inj hxt
    rw [e1] at this
    exact List.append_cancel_right (List.append_cancel_left this)
  have h2 : str "a" = x := by
    have := Option.some.inj hxq
    rw [e2] at this
    exact List.append_cancel_right (List.append_cancel_left this)
  exact absurd (h1.trans h2.symm) (by decide)

/-- C14 (amended).  Let the 47 identifiers be listed in an order `ids` in which the names of
the template files ascend and the names of the query files, taken subject by subject, ascend
(byte-wise), let no identifier contain `template`, and let the directory hold, in any order,
`.`, `..` and the four files of each identifier, every file name sorting after `..` and every
file opening.  Then `readFile` completes, and for every `i` in `0..46` the template stored at
position `i` is the template file of `ids[i]` and the queries stored at the positions `3i`,
`3i + 1`, `3i + 2` are the `AU01`, `AU12` and `AU17` files of `ids[i]`. -/
theorem readFile_paired {T Q : Type} [Inhabited T] [Inhabited Q] (fs : Files T Q)
    (ids dir : List Str) (hlen : ids.length = NUMBER_OF_TEMPLATES)
    (hdir : dir.Perm (str "." :: str ".." :: subjectFiles ids))
    (hopen : ∀ f ∈ subjectFiles ids, fs.isOpen (str "data/" ++ f) = true)
    (hgt : ∀ f ∈ subjectFiles ids, str ".." < f)
    (hT : ∀ x ∈ ids, ¬ str TEMPLATE_NAME <:+: x)
    (hsT : (templateFiles ids).Sorted (fun a b => a < b))
    (hsQ : (queryFiles ids).Sorted (fun a b => a < b)) :
    ∃ s : Store T Q, readFile fs dir = some s ∧ Paired fs ids s ∧
      ∀ (i : Nat) x, ids[i]? = some x →
        s.template_set[i]? =
          some (fs.template_image_set (str "data/" ++ (x ++ str "_template"))) ∧
        s.query_set[3 * i]? =
          some (fs.query_image (str "data/" ++ (x ++ str "_AU01_query"))) ∧
        s.query_set[3 * i + 1]? =
          some (fs.query_image (str "data/" ++ (x ++ str "_AU12_query"))) ∧
        s.query_set[3 * i + 2]? =
          some (fs.query_image (str "data/" ++ (x ++ str "_AU17_query"))) := by
  have hlen47 : ids.length = 47 := hlen
  obtain ⟨s, hs, h1, h2⟩ := readFile_slots fs dir (subjectFiles ids) (templateFiles ids)
    (queryFiles ids) hdir hopen hgt
    (by rw [subjectFiles_filter_template ids hT]) (sorted_le_of_lt _ hsT)
    (by
      show (templateFiles ids).length ≤ 47
      rw [templateFiles, List.length_map]
      omega)
    (by rw [subjectFiles_filter_query ids hT]) (sorted_le_of_lt _ hsQ)
    (by
      show (queryFiles ids).length ≤ 141
      rw [queryFiles_length]
      omega)
  have hall : ∀ (i : Nat) x, ids[i]? = some x →
      s.template_set[i]? =
        some (fs.template_image_set (str "data/" ++ (x ++ str "_template"))) ∧
      s.query_set[3 * i]? =
        some (fs.query_image (str "data/" ++ (x ++ str "_AU01_query"))) ∧
      s.query_set[3 * i + 1]? =
        some (fs.query_image (str "data/" ++ (x ++ str "_AU12_query"))) ∧
      s.query_set[3 * i + 2]? =
        some (fs.query_image (str "data/" ++ (x ++ str "_AU17_query"))) := by
    intro i x hx
    obtain ⟨q1, q2, q3⟩ := queryFiles_getElem ids i x hx
    exact ⟨h1 i _ (templateFiles_getElem ids i x hx), h2 _ _ q1, h2 _ _ q2, h2 _ _ q3⟩
  refine ⟨s, hs, ?_, hall⟩
  intro i hi
  have hi' : i < ids.length := by rw [hlen]; exact hi
  exact ⟨ids[i], List.getElem_mem _, hall i _ (List.getElem?_eq_getElem hi')⟩

set_option maxRecDepth 100000 in
/-- C14 (witness).  The identifiers `s01`, ..., `s47`, the directory listed in the reverse of
the order `.`, `..`, files of `s01`, ..., files of `s47`. -/
theorem readFile_paired_witness :
    ∃ s : Store Str Str,
      readFile labelled (str "." :: str ".." :: subjectFiles plainIds).reverse = some s ∧
      Paired labelled plainIds s ∧
      ∀ (i : Nat) x, plainIds[i]? = some x →
        s.template_set[i]? =
          some (labelled.template_image_set (str "data/" ++ (x ++ str "_template"))) ∧
        s.query_set[3 * i]? =
          some (labelled.query_image (str "data/" ++ (x ++ str "_AU01_query"))) ∧
        s.query_set[3 * i + 1]? =
          some (labelled.query_image (str "data/" ++ (x ++ str "_AU12_query"))) ∧
        s.query_set[3 * i + 2]? =
          some (labelled.query_image (str "data/" ++ (x ++ str "_AU17_query"))) :=
  readFile_paired labelled plainIds (str "." :: str ".." :: subjectFiles plainIds).reverse
    (by decide) (List.reverse_perm _) (fun _ _ => rfl) (by decide) (by decide)
    (sorted_of_ascending _ (by decide)) (sorted_of_ascending _ (by decide))

/-- C15.  For every directory entry `name`, the test `fileName.find(TEMPLATE_NAME) != npos`,
made on the path `"data/" + name`, holds if and only if `name` contains the substring
`template`; a file that opens is stored as the next template when it does and as the next
query otherwise, and a file that does not open is skipped. -/
theorem loadFile_classification {T Q : Type} (fs : Files T Q) (s : Store T Q) (name : Str) :
    ((find (str "data/" ++ name) (str TEMPLATE_NAME)).isSome = true ↔
        str TEMPLATE_NAME <:+: name) ∧
      loadFile fs s name =
        if fs.isOpen (str "data/" ++ name) = true then
          if str TEMPLATE_NAME <:+: name then
            (setAt s.template_set s.templateCounter
              (fs.template_image_set (str "data/" ++ name))).map
              (fun v => { s with template_set := v, templateCounter := s.templateCounter + 1 })
          else
            (setAt s.query_set s.queryCounter (fs.query_image (str "data/" ++ name))).map
              (fun v => { s with query_set := v, queryCounter := s.queryCounter + 1 })
        else some s := by
  refine ⟨(find_isSome_iff _ _).trans (template_infix_data name), ?_⟩
  by_cases ho : fs.isOpen (str "data/" ++ name) = true
  · rw [if_pos ho]
    by_cases ht : str TEMPLATE_NAME <:+: name
    · rw [if_pos ht, loadFile_template fs s name ho ht]
    · rw [if_neg ht, loadFile_query fs s name ho ht]
  · rw [if_neg ho, loadFile_closed fs s name (by simpa using ho)]

/-- C16 (failing input).  47 templates of 138 rows all `1.0` and 141 queries all `1.0`: the
first call `find10NearestNeighbors(query_set[0], template_set[0])` of `main` has no defined
result, and no line of the report is written.  The same holds for every non-empty
`template_set`. -/
theorem main_no_report :
    main (List.replicate 47 (constTemplate onesVector)) (List.replicate 141 onesVector) = none ∧
      ∀ (t : List (List Double)) (template_set : List (List (List Double)))
        (query_set : List (List Double)), main (t :: template_set) query_set = none :=
  ⟨main_none _ _ (by decide), fun t ts qs => main_none (t :: ts) qs (List.cons_ne_nil t ts)⟩

/-- C17 (failing input).  Query and 138 rows equal to the unit vector.  The first loop returns
a multimap `M` of 138 entries; in the first iteration of the second loop `erase` removes the
first entry and invalidates `iter`, and `advance` on the invalidated iterator has no defined
result: the function returns no pairs. -/
theorem find10NearestNeighbors_no_entries :
    ∃ M, insertRows ieee Double.lt unitVector (constTemplate unitVector)
        NUMBER_OF_VECTORS_PER_TEMPLATE = some M ∧ M.length = 138 ∧
      erase (M, Iter.pos 0) = some (M.eraseIdx 0, Iter.invalidated) ∧
      advance (M.eraseIdx 0, Iter.invalidated) = none ∧
      find10NearestNeighbors ieee Double.lt unitVector (constTemplate unitVector) = none := by
  refine ⟨_, insertRows_const unitVector unitVector (vec_length _) (vec_length _), ?_, ?_, rfl,
    find10NearestNeighbors_none _ _ _ _⟩
  · rw [List.length_map, List.length_range, rows_eq]
  · have hpos : 0 < ((List.range NUMBER_OF_VECTORS_PER_TEMPLATE).map
        (fun i => (computeSimilarity ieee unitVector unitVector, i + 1))).length := by
      rw [List.length_map, List.length_range, rows_eq]
      decide
    unfold erase
    simp only [if_pos hpos]

/-- C18 (failing input).  For every query and every template, in particular for the query all
`1.0` against the template whose row 5 is all `1.0` and whose other rows are all `0.0`: the
call has no defined result, so `print` emits no sequence of row indices that could be compared
with a sorted list. -/
theorem print_no_sequence (q : List Double) (t : List (List Double)) (template_index : Nat)
    (fileName : String) :
    (find10NearestNeighbors ieee Double.lt q t).map
        (fun r => (print r template_index fileName).neighbors) = none ∧
      (find10NearestNeighbors ieee Double.lt onesVector (scenarioTemplate 4)).map
        (fun r => (print r 1 FIRST_QUERY_NAME).neighbors) = none := by
  rw [find10NearestNeighbors_none, find10NearestNeighbors_none]
  exact ⟨rfl, rfl⟩

/-- C19.  For every vector `data` and all `left <= right <= data.size()`, the call
`quickSort(data, left, right)` returns; every element access it made, those of its recursive
calls included, is at an index `i` with `left <= i < right` (so below `data.size()`), the
vector keeps its length, and the elements at the indices outside `[left, right)` are
unchanged. -/
theorem quickSort_in_bounds (data : List Str) (left right : Nat) (hlr : left ≤ right)
    (hr : right ≤ data.length) :
    ∃ m, quickSort data left right = some m ∧
      (∀ i ∈ m.trace, left ≤ i ∧ i < right ∧ i < data.length) ∧
      m.data.length = data.length ∧
      ∀ k, k < left ∨ right ≤ k → m.data[k]? = data[k]? := by
  obtain ⟨m, hm, hs⟩ := quickSort_spec data left right hr
  refine ⟨m, hm, ?_, hs.frame.1, hs.frame.2⟩
  intro i hi
  rcases hs.tr i hi with h | h
  · exact absurd h (List.not_mem_nil _)
  · exact ⟨h.1, h.2, lt_of_lt_of_le h.2 hr⟩

/-- C19 (witness).  The range `[1, 4)` of a vector of five strings. -/
theorem quickSort_in_bounds_witness :
    ∃ m, quickSort [str "e", str "d", str "c", str "b", str "a"] 1 4 = some m ∧
      (∀ i ∈ m.trace, 1 ≤ i ∧ i < 4 ∧
        i < [str "e", str "d", str "c", str "b", str "a"].length) ∧
      m.data.length = [str "e", str "d", str "c", str "b", str "a"].length ∧
      ∀ k, k < 1 ∨ 4 ≤ k →
        m.data[k]? = [str "e", str "d", str "c", str "b", str "a"][k]? :=
  quickSort_in_bounds [str "e", str "d", str "c", str "b", str "a"] 1 4 (by decide) (by decide)

/-- C20.  For every vector `data` and all `left <= right <= data.size()`, the call
`quickSort(data, left, right)` returns within a recursion depth of `right - left + 1`; and
whatever the contents of the vector (duplicates included), on every range `[l, r)` with
`l < r <= data.size()` the pivot position satisfies `l <= pivot < r`, so that both recursive
calls, on `[l, pivot)` and on `[pivot + 1, r)`, are on strictly shorter ranges. -/
theorem quickSort_terminates (data : List Str) (left right : Nat) (hlr : left ≤ right)
    (hr : right ≤ data.length) :
    (∃ m, quickSort data left right = some m) ∧
      ∀ (m : Mem Str) (l r : Nat), m.data.length = data.length → l < r → r ≤ data.length →
        l ≤ (partition m l r).2 ∧ (partition m l r).2 < r ∧
        (partition m l r).2 - l < r - l ∧ r - ((partition m l r).2 + 1) < r - l := by
  constructor
  · obtain ⟨m, hm, _⟩ := quickSort_spec data left right hr
    exact ⟨m, hm⟩
  · intro m l r hlen hlt hle
    have ps := partition_spec m l r hlt (by rw [hlen]; exact hle)
    have h1 := ps.pivot_ge
    have h2 := ps.pivot_lt
    exact ⟨h1, h2, by omega, by omega⟩

/-- C20 (witness).  A vector of duplicates. -/
theorem quickSort_terminates_witness :
    (∃ m, quickSort [str "b", str "a", str "b", str "a", str "b"] 0 5 = some m) ∧
      ∀ (m : Mem Str) (l r : Nat),
        m.data.length = [str "b", str "a", str "b", str "a", str "b"].length → l < r →
        r ≤ [str "b", str "a", str "b", str "a", str "b"].length →
        l ≤ (partition m l r).2 ∧ (partition m l r).2 < r ∧
        (partition m l r).2 - l < r - l ∧ r - ((partition m l r).2 + 1) < r - l :=
  quickSort_terminates [str "b", str "a", str "b", str "a", str "b"] 0 5 (by decide) (by decide)

end CSCE350
